import Mathlib

/-!
Verification of the clang-highlight fuzzy parser
(src/Fuzzy/FuzzyParser.cpp, src/FuzzyAST.h).

The parser is embedded shallowly:

* A token buffer is a `List TokKind`; tokens are addressed by their index
  in the buffer.  `AnnotatedToken`s carry only their kind here; the mutable
  AST back-reference of the C++ is modelled by the set of token indices
  referenced by the final AST (`claims*` functions below), which is the
  observable "claimed" relation after the top-level call returns.
* The `TokenFilter` cursor `(First, Last)` is modelled as `Option Nat`:
  `some i` is a cursor whose `First` points at buffer index `i`, and `none`
  is the exhausted state `First = Last = 0` that `next()` enters at
  end-of-file or at the end of the buffer.  The empty initial range
  `First == Last` is also modelled as `none`.
* Every parse function takes a fuel argument and returns a `PRes`:
  `ok` (committed result, final cursor, and the indices of tokens that the
  run consumed but attached to no AST node), `fail` (the C++ "empty result"
  signal, with the cursor the function left behind; scoped guards are
  modelled by the failing function itself returning its entry cursor),
  `crash` (the run dereferenced the null cursor — undefined behaviour in
  the C++), or `oom` (fuel ran out; a model artifact only).
* The C++ `assert`s are compiled out (NDEBUG semantics); where an assert
  would have guarded a null dereference the model yields `crash` exactly
  when the release build dereferences null.
-/

namespace FuzzyParse

/-- Token kinds used by the parser (a faithful subset of clang's
`tok::TokenKind` covering every kind the source inspects, plus the binary
operator kinds ranked by the precedence oracle). -/
inductive TokKind where
  | unknown | comment | eof | raw_identifier | identifier | coloncolon
  | l_paren | r_paren | l_brace | r_brace | semi | colon
  | period | arrow | exclaim | tilde | plusplus | minusminus
  | comma | equal | question
  | pipepipe | ampamp | pipe | caret | amp
  | equalequal | exclaimequal | less | greater | lessequal | greaterequal
  | lessless | greatergreater | plus | minus | star | slash | percent
  | periodstar | arrowstar
  | kw_return | kw_static | kw_virtual | kw_class | kw_struct | kw_union | kw_enum
  | kw_private | kw_protected | kw_public | kw_auto | kw_const | kw_volatile | kw_register
  | kw_true | kw_false | kw___objc_yes | kw___objc_no | kw_nullptr
  | kw_short | kw_long | kw___int64 | kw___int128 | kw_signed | kw_unsigned
  | kw__Complex | kw__Imaginary | kw_void | kw_char | kw_wchar_t | kw_char16_t
  | kw_char32_t | kw_int | kw_half | kw_float | kw_double | kw_bool | kw__Bool
  | kw__Decimal32 | kw__Decimal64 | kw__Decimal128 | kw___vector
  | numeric_constant | char_constant | string_literal
  deriving DecidableEq, Repr

/-- All token kinds, as a literal list (a hand-rolled Fintype instance
keeps kernel reduction of quantified statements over `TokKind` cheap). -/
def allTokKinds : List TokKind :=
  [TokKind.unknown,
   TokKind.comment,
   TokKind.eof,
   TokKind.raw_identifier,
   TokKind.identifier,
   TokKind.coloncolon,
   TokKind.l_paren,
   TokKind.r_paren,
   TokKind.l_brace,
   TokKind.r_brace,
   TokKind.semi,
   TokKind.colon,
   TokKind.period,
   TokKind.arrow,
   TokKind.exclaim,
   TokKind.tilde,
   TokKind.plusplus,
   TokKind.minusminus,
   TokKind.comma,
   TokKind.equal,
   TokKind.question,
   TokKind.pipepipe,
   TokKind.ampamp,
   TokKind.pipe,
   TokKind.caret,
   TokKind.amp,
   TokKind.equalequal,
   TokKind.exclaimequal,
   TokKind.less,
   TokKind.greater,
   TokKind.lessequal,
   TokKind.greaterequal,
   TokKind.lessless,
   TokKind.greatergreater,
   TokKind.plus,
   TokKind.minus,
   TokKind.star,
   TokKind.slash,
   TokKind.percent,
   TokKind.periodstar,
   TokKind.arrowstar,
   TokKind.kw_return,
   TokKind.kw_static,
   TokKind.kw_virtual,
   TokKind.kw_class,
   TokKind.kw_struct,
   TokKind.kw_union,
   TokKind.kw_enum,
   TokKind.kw_private,
   TokKind.kw_protected,
   TokKind.kw_public,
   TokKind.kw_auto,
   TokKind.kw_const,
   TokKind.kw_volatile,
   TokKind.kw_register,
   TokKind.kw_true,
   TokKind.kw_false,
   TokKind.kw___objc_yes,
   TokKind.kw___objc_no,
   TokKind.kw_nullptr,
   TokKind.kw_short,
   TokKind.kw_long,
   TokKind.kw___int64,
   TokKind.kw___int128,
   TokKind.kw_signed,
   TokKind.kw_unsigned,
   TokKind.kw__Complex,
   TokKind.kw__Imaginary,
   TokKind.kw_void,
   TokKind.kw_char,
   TokKind.kw_wchar_t,
   TokKind.kw_char16_t,
   TokKind.kw_char32_t,
   TokKind.kw_int,
   TokKind.kw_half,
   TokKind.kw_float,
   TokKind.kw_double,
   TokKind.kw_bool,
   TokKind.kw__Bool,
   TokKind.kw__Decimal32,
   TokKind.kw__Decimal64,
   TokKind.kw__Decimal128,
   TokKind.kw___vector,
   TokKind.numeric_constant,
   TokKind.char_constant,
   TokKind.string_literal]

set_option maxHeartbeats 2000000 in
instance : Fintype TokKind :=
  ⟨⟨Multiset.ofList allTokKinds, by decide⟩, fun x => by cases x <;> decide⟩

/-- Modelled from the spec: the external operator-precedence oracle,
clang's `getBinOpPrecedence(Kind, GreaterThanIsOperator=true,
CPlusPlus11=true)`.  `0` (`prec::Unknown`) means "not a binary operator";
`prec::Comma = 1`, `prec::PointerToMember = 14`. -/
def getBinOpPrecedence : TokKind → Nat
  | .comma => 1
  | .equal => 2
  | .question => 3
  | .pipepipe => 4
  | .ampamp => 5
  | .pipe => 6
  | .caret => 7
  | .amp => 8
  | .equalequal | .exclaimequal => 9
  | .less | .greater | .lessequal | .greaterequal => 10
  | .lessless | .greatergreater => 11
  | .plus | .minus => 12
  | .star | .slash | .percent => 13
  | .periodstar | .arrowstar => 14
  | _ => 0

/-- `PrecedenceUnaryOperator = prec::PointerToMember + 1`. -/
def PrecedenceUnaryOperator : Nat := 15

/-- `PrecedenceArrowAndPeriod = prec::PointerToMember + 2`. -/
def PrecedenceArrowAndPeriod : Nat := 16

/-- Modelled from the spec: clang's `isLiteral` on the kinds present here. -/
def isLiteral : TokKind → Bool
  | .numeric_constant | .char_constant | .string_literal => true
  | _ => false

/-- `isLiteralOrConstant` from FuzzyParser.cpp. -/
def isLiteralOrConstant (k : TokKind) : Bool :=
  isLiteral k ||
    match k with
    | .kw_true | .kw_false | .kw___objc_yes | .kw___objc_no | .kw_nullptr => true
    | _ => false

/-- `isBuiltinType` from FuzzyParser.cpp. -/
def isBuiltinType : TokKind → Bool
  | .kw_short | .kw_long | .kw___int64 | .kw___int128 | .kw_signed | .kw_unsigned
  | .kw__Complex | .kw__Imaginary | .kw_void | .kw_char | .kw_wchar_t | .kw_char16_t
  | .kw_char32_t | .kw_int | .kw_half | .kw_float | .kw_double | .kw_bool | .kw__Bool
  | .kw__Decimal32 | .kw__Decimal64 | .kw__Decimal128 | .kw___vector => true
  | _ => false

/-- `isCVQualifier` from FuzzyParser.cpp. -/
def isCVQualifier : TokKind → Bool
  | .kw_const | .kw_volatile | .kw_register => true
  | _ => false

/-- Kind of the token at index `i` (out-of-range reads as `eof`; valid
cursors never go out of range). -/
def kindAt (buf : List TokKind) (i : Nat) : TokKind := buf.getD i .eof

/-- The `TokenFilter` cursor: `some i` = `First` points at buffer index
`i`; `none` = exhausted (`First = Last = 0`). -/
abbrev Cursor := Option Nat

/-- The skip-and-stop loop inside `TokenFilter::next()`: starting at index
`j`, skip `unknown`/`comment` tokens; the cursor becomes exhausted if the
end of the buffer or an `eof` token is reached.  Structural fuel variant
(the wrapper `advance` always supplies enough fuel). -/
def advanceAux (buf : List TokKind) : Nat → Nat → Cursor
  | 0, _ => none
  | fuel+1, j =>
    if j < buf.length then
      if kindAt buf j = .unknown ∨ kindAt buf j = .comment then
        advanceAux buf fuel (j+1)
      else if kindAt buf j = .eof then none
      else some j
    else none

/-- `while (First != Last && (unknown || comment)) ++First;
    if (First == Last || eof) First = Last = 0;` -/
def advance (buf : List TokKind) (j : Nat) : Cursor :=
  advanceAux buf (buf.length + 1 - j) j

/-- `TokenFilter::next()`: return the current token and advance.  On the
exhausted cursor the C++ dereferences a null pointer; that is the `none`
result here. -/
def nextF (buf : List TokKind) : Cursor → Option (Nat × Cursor)
  | none => none
  | some i => some (i, advance buf (i+1))

/-- `TokenFilter::peek()`: returns `First` (no filtering, no advancing). -/
def peek (c : Cursor) : Cursor := c

/-- `checkKind(TF, Kind) = TF.peek() && TF.peek()->Tok.getKind() == Kind`. -/
def checkKind (buf : List TokKind) (c : Cursor) (k : TokKind) : Bool :=
  match c with
  | none => false
  | some i => kindAt buf i = k

/-- The cursor `TokenFilter(first, last)` starts from.  The constructor
does no filtering; an empty range is modelled as already exhausted. -/
def initCursor (buf : List TokKind) : Cursor :=
  if buf.isEmpty then none else some 0

/-- `Type::Decoration::DecorationClass`. -/
inductive DecorClass where
  | pointer | reference
  deriving DecidableEq, Repr

mutual

/-- `fuzzy::Type`: name-qualifier tokens, template separator tokens
(`<`, `,`, `>`), template arguments, decorations. -/
inductive TypeNode where
  | mk (quals : List Nat) (seps : List Nat) (targs : List TArg)
       (decors : List (DecorClass × Nat))

/-- A template argument: either a type or an expression
(`addTemplateArgument` overloads). -/
inductive TArg where
  | type (t : TypeNode)
  | expr (e : Expr)

/-- `fuzzy::Expr` variants built by the parser. -/
inductive Expr where
  /-- `DeclRefExpr` populated by `parseQualifiedID`. -/
  | declRef (quals : List Nat) (seps : List Nat) (targs : List TArg)
  /-- `LiteralConstant`. -/
  | literal (tok : Nat)
  /-- `UnaryOperator`; the operand `unique_ptr` can be null. -/
  | unary (op : Nat) (value : Option Expr)
  /-- `BinaryOperator`; both operand `unique_ptr`s can in principle be
  null, mirroring `SubExprs`. -/
  | binary (lhs : Option Expr) (rhs : Option Expr) (op : Nat)
  /-- `CallExpr`: callee, `(`, arguments (a null argument can be pushed),
  comma tokens, `)`. -/
  | call (callee : Expr) (lparen : Nat) (args : List (Option Expr))
         (commas : List Nat) (rparen : Nat)

end

mutual

/-- `VarDecl`: type (with per-declarator decorations), optional name
token, optional initialization. -/
inductive VarDecl where
  | mk (varType : TypeNode) (name : Option Nat) (value : Option VarInit)

/-- `VarInitialization` (only the `=` assignment form is built). -/
inductive VarInit where
  | assignment (equalTok : Nat) (value : Expr)

/-- The statement variants the parser produces.  Token slots that the C++
can assign more than once (`setSemi`, `setLeftParen` on a `ClassDecl`
reached twice) are lists, so every token ever claimed by a setter stays
recorded. -/
inductive Stmt where
  | returnStmt (ret : Nat) (body : Option Expr) (semi : Nat)
  | declStmt (decls : List VarDecl) (commas : List Nat) (semi : Nat)
  | labelStmt (name : Nat) (colonTok : Nat)
  | funcDecl (statics : List Nat) (retType : Option TypeNode) (name : Option Nat)
             (lparen : Nat) (params : List VarDecl) (commas : List Nat)
             (rparen : Nat) (semis : List Nat) (body : Option Stmt)
  | classDecl (classTok : Nat) (nameT : TypeNode) (colonTok : Option Nat)
              (bases : List Base) (lbraces : List Nat) (stmts : List Stmt)
              (rbraces : List Nat) (semis : List Nat)
  | exprLineStmt (e : Expr) (semi : Nat)
  | compound (lbrace : Nat) (stmts : List Stmt) (rbrace : Option Nat)
  | unparsable (toks : List Nat)

/-- A base-class entry of a `ClassDecl`: optional access-specifier token,
base type, optional trailing comma token. -/
inductive Base where
  | mk (access : Option Nat) (t : TypeNode) (comma : Option Nat)

end

/-- `Type::cloneWithoutDecorations()`. -/
def cloneNoDecor : TypeNode → TypeNode
  | .mk q s ta _ => .mk q s ta []

/-- The decoration token indices of a type. -/
def decorToks : TypeNode → List Nat
  | .mk _ _ _ d => d.map (fun x => x.2)

mutual

/-- Token indices claimed by a type (its back-referencing tokens). -/
def claimsT : TypeNode → List Nat
  | .mk q s ta d => q ++ s ++ claimsTAs ta ++ d.map (fun x => x.2)

def claimsTAs : List TArg → List Nat
  | [] => []
  | a :: as => claimsTA a ++ claimsTAs as

def claimsTA : TArg → List Nat
  | .type t => claimsT t
  | .expr e => claimsE e

/-- Token indices claimed by an expression tree. -/
def claimsE : Expr → List Nat
  | .declRef q s ta => q ++ s ++ claimsTAs ta
  | .literal t => [t]
  | .unary op v => op :: claimsOE v
  | .binary l r op => claimsOE l ++ claimsOE r ++ [op]
  | .call f lp args cms rp => claimsE f ++ lp :: claimsOEs args ++ cms ++ [rp]

def claimsOE : Option Expr → List Nat
  | none => []
  | some e => claimsE e

def claimsOEs : List (Option Expr) → List Nat
  | [] => []
  | a :: as => claimsOE a ++ claimsOEs as

end

/-- Claims of an optional type. -/
def claimsOT : Option TypeNode → List Nat
  | none => []
  | some t => claimsT t

/-- Claims of an optional token slot. -/
def claimsON : Option Nat → List Nat
  | none => []
  | some t => [t]

mutual

/-- Token indices claimed by a variable declaration. -/
def claimsVD : VarDecl → List Nat
  | .mk t n v => claimsT t ++ claimsON n ++ claimsOVI v

def claimsVDs : List VarDecl → List Nat
  | [] => []
  | d :: ds => claimsVD d ++ claimsVDs ds

def claimsOVI : Option VarInit → List Nat
  | none => []
  | some (.assignment eq v) => eq :: claimsE v

/-- Token indices claimed by a statement tree (tokens inside an
`UnparsableBlock` count as claimed by the block). -/
def claimsS : Stmt → List Nat
  | .returnStmt r b s => r :: claimsOE b ++ [s]
  | .declStmt ds cms s => claimsVDs ds ++ cms ++ [s]
  | .labelStmt n c => [n, c]
  | .funcDecl st rt nm lp ps cms rp semis bd =>
      st ++ claimsOT rt ++ claimsON nm ++ lp :: claimsVDs ps ++ cms ++
        rp :: semis ++ claimsOS bd
  | .classDecl ct nt col bs lbs sts rbs semis =>
      ct :: claimsT nt ++ claimsON col ++ claimsBs bs ++ lbs ++
        claimsSs sts ++ rbs ++ semis
  | .exprLineStmt e s => claimsE e ++ [s]
  | .compound lb sts rb => lb :: claimsSs sts ++ claimsON rb
  | .unparsable ts => ts

def claimsOS : Option Stmt → List Nat
  | none => []
  | some s => claimsS s

def claimsSs : List Stmt → List Nat
  | [] => []
  | s :: ss => claimsS s ++ claimsSs ss

def claimsB : Base → List Nat
  | .mk a t c => claimsON a ++ claimsT t ++ claimsON c

def claimsBs : List Base → List Nat
  | [] => []
  | b :: bs => claimsB b ++ claimsBs bs

end

mutual

/-- Operand sanity of an expression tree: every `BinaryOperator` node has
a non-null right operand.  (The left operand and `CallExpr`/`UnaryOperator`
children may be null, as the parser really produces such nodes.) -/
def goodE : Expr → Bool
  | .declRef _ _ ta => goodTAs ta
  | .literal _ => true
  | .unary _ v => goodOE v
  | .binary l r _ => r.isSome && goodOE l && goodOE r
  | .call f _ args _ _ => goodE f && goodOEs args

def goodOE : Option Expr → Bool
  | none => true
  | some e => goodE e

def goodOEs : List (Option Expr) → Bool
  | [] => true
  | a :: as => goodOE a && goodOEs as

def goodTAs : List TArg → Bool
  | [] => true
  | a :: as => goodTA a && goodTAs as

def goodTA : TArg → Bool
  | .type t => goodT t
  | .expr e => goodE e

def goodT : TypeNode → Bool
  | .mk _ _ ta _ => goodTAs ta

end

/-- Result of running a parse function. -/
inductive PRes (α : Type) where
  /-- Committed result: value, final cursor, and the indices of tokens the
  run consumed but attached to no node of the returned value. -/
  | ok (a : α) (c : Cursor) (dropped : List Nat)
  /-- The C++ "empty result"; carries the cursor the function left behind
  (scoped guards are modelled by returning the entry cursor). -/
  | fail (c : Cursor)
  /-- The run dereferenced the exhausted (null) cursor. -/
  | crash
  /-- Out of fuel (model artifact; never occurs with enough fuel). -/
  | oom

/-- `[lo, lo+1, ..., hi-1]`: the token range a discarded sub-parse
consumed. -/
def rangeList (lo hi : Nat) : List Nat := (List.range (hi - lo)).map (lo + ·)

/-- Numeric position of a cursor (`none`, the exhausted state, sits past
the end of the buffer). -/
def pos (buf : List TokKind) : Cursor → Nat
  | some i => i
  | none => buf.length

/-- Replace the decorations of a type. -/
def setDecors : TypeNode → List (DecorClass × Nat) → TypeNode
  | .mk q s ta _, d => .mk q s ta d

/-- The first `while (TF.peek() && isCVQualifier(...)) addNameQualifier(TF.next())`
loop of `parseType`; returns the consumed qualifier tokens. -/
def cvQualLoop (buf : List TokKind) : Nat → Cursor → PRes (List Nat)
  | 0, _ => .oom
  | fuel+1, c =>
    match c with
    | none => .ok [] none []
    | some i =>
      if isCVQualifier (kindAt buf i) then
        match nextF buf (some i) with
        | none => .crash
        | some (t, c1) =>
          match cvQualLoop buf fuel c1 with
          | .ok ts c2 d => .ok (t :: ts) c2 d
          | .fail c2 => .fail c2
          | .crash => .crash
          | .oom => .oom
      else .ok [] (some i) []

/-- The `while (TF.peek() && isBuiltinType(...)) addNameQualifier(TF.next())`
loop of `parseType`. -/
def builtinLoop (buf : List TokKind) : Nat → Cursor → PRes (List Nat)
  | 0, _ => .oom
  | fuel+1, c =>
    match c with
    | none => .ok [] none []
    | some i =>
      if isBuiltinType (kindAt buf i) then
        match nextF buf (some i) with
        | none => .crash
        | some (t, c1) =>
          match builtinLoop buf fuel c1 with
          | .ok ts c2 d => .ok (t :: ts) c2 d
          | .fail c2 => .fail c2
          | .crash => .crash
          | .oom => .oom
      else .ok [] (some i) []

/-- `parseTypeDecorations`: consume `*`/`&`/`&&` tokens, recording pointer
vs reference.  (`Dec.fix()` has no cursor effect and is not modelled.) -/
def parseTypeDecorations (buf : List TokKind) : Nat → Cursor → PRes (List (DecorClass × Nat))
  | 0, _ => .oom
  | fuel+1, c =>
    if checkKind buf c .star || checkKind buf c .amp || checkKind buf c .ampamp then
      let dc : DecorClass := if checkKind buf c .star then .pointer else .reference
      match nextF buf c with
      | none => .crash
      | some (t, c1) =>
        match parseTypeDecorations buf fuel c1 with
        | .ok ds c2 d => .ok ((dc, t) :: ds) c2 d
        | .fail c2 => .fail c2
        | .crash => .crash
        | .oom => .oom
    else .ok [] c []

/-- The leading `do { :: / identifier } while (::)` loop of
`parseQualifiedID`; `first` is the `GlobalNamespaceColon` flag at loop
entry.  Failure cursors are irrelevant: `parseQualifiedID`'s guard maps
every failure to its own entry cursor. -/
def qidNames (buf : List TokKind) : Nat → Cursor → Bool → PRes (List Nat)
  | 0, _, _ => .oom
  | fuel+1, c, first =>
    if checkKind buf c .coloncolon then
      match nextF buf c with
      | none => .crash
      | some (t, c1) =>
        if checkKind buf c1 .identifier then
          match nextF buf c1 with
          | none => .crash
          | some (t2, c2) =>
            if checkKind buf c2 .coloncolon then
              match qidNames buf fuel c2 false with
              | .ok ts c3 d => .ok (t :: t2 :: ts) c3 d
              | .fail c3 => .fail c3
              | .crash => .crash
              | .oom => .oom
            else .ok [t, t2] c2 []
        else .fail c1
    else if !first then .fail c
    else
      if checkKind buf c .identifier then
        match nextF buf c with
        | none => .crash
        | some (t2, c2) =>
          if checkKind buf c2 .coloncolon then
            match qidNames buf fuel c2 false with
            | .ok ts c3 d => .ok (t2 :: ts) c3 d
            | .fail c3 => .fail c3
            | .crash => .crash
            | .oom => .oom
          else .ok [t2] c2 []
      else .fail c

/-- The `while (TF.peek() && !l_brace && !semi) TF.next();` skip loop after
the parameter list in `parseFunctionDecl`.  The consumed tokens are
discarded: they are returned as dropped. -/
def fnSkip (buf : List TokKind) : Nat → Cursor → PRes Unit
  | 0, _ => .oom
  | fuel+1, c =>
    match c with
    | none => .ok () none []
    | some i =>
      if kindAt buf i = .l_brace ∨ kindAt buf i = .semi then .ok () (some i) []
      else
        match nextF buf (some i) with
        | none => .crash
        | some (t, c1) =>
          match fnSkip buf fuel c1 with
          | .ok u c2 d => .ok u c2 (t :: d)
          | .fail c2 => .fail c2
          | .crash => .crash
          | .oom => .oom

/-- The `while (!checkKind(TF, l_brace)) TF.next();` base-clause skip loop
in `parseClassDecl`.  On an exhausted cursor `checkKind` is false, so the
C++ calls `next()` on the null cursor: `crash`. -/
def classSkip (buf : List TokKind) : Nat → Cursor → PRes Unit
  | 0, _ => .oom
  | fuel+1, c =>
    if checkKind buf c .l_brace then .ok () c []
    else
      match nextF buf c with
      | none => .crash
      | some (t, c1) =>
        match classSkip buf fuel c1 with
        | .ok u c2 d => .ok u c2 (t :: d)
        | .fail c2 => .fail c2
        | .crash => .crash
        | .oom => .oom

/-- `skipUnparsable`: push every token returned by `next()` into an
`UnparsableBlock` until the consumed token was `;`, `{` or `}` or the
cursor is exhausted.  Returns the block's token list.  On an exhausted
cursor the `while (TF.peek())` loop body never runs (release semantics;
the debug build would have hit the `assert(TF.peek())`). -/
def skipUnparsable (buf : List TokKind) : Nat → Cursor → PRes (List Nat)
  | 0, _ => .oom
  | fuel+1, c =>
    match c with
    | none => .ok [] none []
    | some i =>
      match nextF buf (some i) with
      | none => .crash
      | some (t, c1) =>
        if kindAt buf i = .semi ∨ kindAt buf i = .r_brace ∨ kindAt buf i = .l_brace then
          .ok [t] c1 []
        else
          match skipUnparsable buf fuel c1 with
          | .ok ts c2 d => .ok (t :: ts) c2 d
          | .fail c2 => .fail c2
          | .crash => .crash
          | .oom => .oom

/-- `parseLabelStmt`: `(identifier | private | protected | public) ":"`.
The guard is dismissed before the colon is consumed. -/
def parseLabelStmt (buf : List TokKind) (c : Cursor) : PRes Stmt :=
  if !(checkKind buf c .identifier || checkKind buf c .kw_private ||
       checkKind buf c .kw_protected || checkKind buf c .kw_public) then .fail c
  else
    match nextF buf c with
    | none => .crash
    | some (nm, c1) =>
      if !checkKind buf c1 .colon then .fail c
      else
        match nextF buf c1 with
        | none => .crash
        | some (cl, c2) => .ok (.labelStmt nm cl) c2 []

mutual

/-- `parseExpression(TF, Precedence, StopAtGreater)`: precedence climbing.
Level `15` dispatches to the unary parser, levels above `16` are the
primary level (the C++ dereferences `TF.peek()` there, hence `crash` on
the exhausted cursor), and binary levels parse a left operand one level
tighter and then run the operator loop.  When the left operand parse
fails, the loop still runs (this is how `BinaryOperator`s with a null LHS
arise); the failed operand's consumed range becomes dropped if the loop
commits. -/
def parseExpression (buf : List TokKind) : Nat → Cursor → Nat → Bool → PRes Expr
  | 0, _, _, _ => .oom
  | fuel+1, c, prec, stop =>
    if prec = PrecedenceUnaryOperator then parseUnaryOperator buf fuel c
    else if PrecedenceArrowAndPeriod < prec then
      match c with
      | none => .crash
      | some i =>
        if isLiteralOrConstant (kindAt buf i) then
          match nextF buf (some i) with
          | none => .crash
          | some (t, c1) => .ok (.literal t) c1 []
        else if kindAt buf i = .identifier ∨ kindAt buf i = .coloncolon then
          match parseQualifiedID buf fuel (some i) with
          | .ok (q, s, ta) c1 d =>
            if checkKind buf c1 .l_paren then
              match parseCallExpr buf fuel c1 (.declRef q s ta) with
              | .ok e c2 d2 => .ok e c2 (d ++ d2)
              | .fail c2 => .fail c2
              | .crash => .crash
              | .oom => .oom
            else .ok (.declRef q s ta) c1 d
          | .fail c1 => .fail c1
          | .crash => .crash
          | .oom => .oom
        else .fail (some i)
    else
      match parseExpression buf fuel c (prec+1) stop with
      | .ok l c1 d => parseExprLoop buf fuel c1 prec stop (some l) d
      | .fail c1 => parseExprLoop buf fuel c1 prec stop none (rangeList (pos buf c) (pos buf c1))
      | .crash => .crash
      | .oom => .oom

/-- The binary-operator `while (TF.peek())` loop of `parseExpression`.
`pending` carries the dropped tokens of the left operand's run (or the
whole consumed range of a failed left operand); it is committed when the
loop returns a non-null expression and discarded when the loop fails. -/
def parseExprLoop (buf : List TokKind) :
    Nat → Cursor → Nat → Bool → Option Expr → List Nat → PRes Expr
  | 0, _, _, _, _, _ => .oom
  | fuel+1, c, prec, stop, leftOpt, pending =>
    match c with
    | none =>
      match leftOpt with
      | some l => .ok l none pending
      | none => .fail none
    | some i =>
      if stop && kindAt buf i = .greater then
        match leftOpt with
        | some l => .ok l (some i) pending
        | none => .fail (some i)
      else
        let cp :=
          if kindAt buf i = .period ∨ kindAt buf i = .arrow then PrecedenceArrowAndPeriod
          else getBinOpPrecedence (kindAt buf i)
        if cp = 0 ∨ cp < prec then
          match leftOpt with
          | some l => .ok l (some i) pending
          | none => .fail (some i)
        else
          match nextF buf (some i) with
          | none => .crash
          | some (opTok, c1) =>
            match parseExpression buf fuel c1 (prec+1) stop with
            | .ok r c2 d2 =>
              parseExprLoop buf fuel c2 prec stop
                (some (.binary leftOpt (some r) opTok)) (pending ++ d2)
            | .fail c2 => .fail c2
            | .crash => .crash
            | .oom => .oom

/-- `parseUnaryOperator`: a chain of unary prefix operators, falling
through to the member-access binary level.  A `UnaryOperator` node is
built even when the operand parse fails (null operand); the failed
operand's consumed range is then dropped. -/
def parseUnaryOperator (buf : List TokKind) : Nat → Cursor → PRes Expr
  | 0, _ => .oom
  | fuel+1, c =>
    if checkKind buf c .plus || checkKind buf c .minus || checkKind buf c .exclaim ||
       checkKind buf c .tilde || checkKind buf c .star || checkKind buf c .amp ||
       checkKind buf c .plusplus || checkKind buf c .minusminus then
      match nextF buf c with
      | none => .crash
      | some (op, c1) =>
        match parseUnaryOperator buf fuel c1 with
        | .ok v c2 d => .ok (.unary op (some v)) c2 d
        | .fail c2 => .ok (.unary op none) c2 (rangeList (pos buf c1) (pos buf c2))
        | .crash => .crash
        | .oom => .oom
    else parseExpression buf fuel c PrecedenceArrowAndPeriod false

/-- `parseCallExpr`: the cursor is at `(` (asserted in the C++).  The
argument loop may push a null argument; a failed argument's consumed range
is dropped.  After each argument `TF.peek()->Tok` is dereferenced without
a null check. -/
def parseCallExpr (buf : List TokKind) : Nat → Cursor → Expr → PRes Expr
  | 0, _, _ => .oom
  | fuel+1, c, callee =>
    match nextF buf c with
    | none => .crash
    | some (lp, c1) =>
      match parseCallArgs buf fuel c1 with
      | .ok (args, cms) c2 d =>
        if checkKind buf c2 .r_paren then
          match nextF buf c2 with
          | none => .crash
          | some (rp, c3) => .ok (.call callee lp args cms rp) c3 d
        else .fail c2
      | .fail c2 => .fail c2
      | .crash => .crash
      | .oom => .oom

/-- The `while (!checkKind(TF, r_paren))` argument loop of
`parseCallExpr`; returns the argument and comma lists. -/
def parseCallArgs (buf : List TokKind) : Nat → Cursor → PRes (List (Option Expr) × List Nat)
  | 0, _ => .oom
  | fuel+1, c =>
    if checkKind buf c .r_paren then .ok ([], []) c []
    else
      match parseExpression buf fuel c 2 false with
      | .ok e c1 d1 =>
        match c1 with
        | none => .crash
        | some i =>
          if kindAt buf i = .comma then
            match nextF buf (some i) with
            | none => .crash
            | some (cm, c2) =>
              match parseCallArgs buf fuel c2 with
              | .ok (args, cms) c3 d3 => .ok (some e :: args, cm :: cms) c3 (d1 ++ d3)
              | .fail c3 => .fail c3
              | .crash => .crash
              | .oom => .oom
          else .ok ([some e], []) c1 d1
      | .fail c1 =>
        match c1 with
        | none => .crash
        | some i =>
          if kindAt buf i = .comma then
            match nextF buf (some i) with
            | none => .crash
            | some (cm, c2) =>
              match parseCallArgs buf fuel c2 with
              | .ok (args, cms) c3 d3 =>
                .ok (none :: args, cm :: cms) c3 (rangeList (pos buf c) i ++ d3)
              | .fail c3 => .fail c3
              | .crash => .crash
              | .oom => .oom
          else .ok ([none], []) c1 (rangeList (pos buf c) i)
      | .crash => .crash
      | .oom => .oom

/-- `parseQualifiedID`: qualifier names, then an optional template
argument list.  Speculative: every failure restores the entry cursor. -/
def parseQualifiedID (buf : List TokKind) : Nat → Cursor → PRes (List Nat × List Nat × List TArg)
  | 0, _ => .oom
  | fuel+1, c =>
    match qidNames buf fuel c true with
    | .ok names c1 d1 =>
      if checkKind buf c1 .less then
        match qidTargs buf fuel c1 true with
        | .ok (seps, tas) c2 d2 =>
          if checkKind buf c2 .greater then
            match nextF buf c2 with
            | none => .crash
            | some (g, c3) => .ok (names, seps ++ [g], tas) c3 (d1 ++ d2)
          else .fail c
        | .fail _ => .fail c
        | .crash => .crash
        | .oom => .oom
      else .ok (names, [], []) c1 d1
    | .fail _ => .fail c
    | .crash => .crash
    | .oom => .oom

/-- The `do { separator; arg } while (comma)` template-argument loop of
`parseQualifiedID`.  On entry the cursor is at the separator (`<` when
`isFirst`, `,` otherwise).  Each argument tries a type first, then an
expression at `prec::Comma + 1` with stop-at-`>`. -/
def qidTargs (buf : List TokKind) : Nat → Cursor → Bool → PRes (List Nat × List TArg)
  | 0, _, _ => .oom
  | fuel+1, c, isFirst =>
    match nextF buf c with
    | none => .crash
    | some (sep, c1) =>
      if isFirst && checkKind buf c1 .greater then .ok ([sep], []) c1 []
      else
        match parseType buf fuel c1 true with
        | .ok t c2 d2 =>
          if checkKind buf c2 .comma then
            match qidTargs buf fuel c2 false with
            | .ok (seps, tas) c3 d3 => .ok (sep :: seps, .type t :: tas) c3 (d2 ++ d3)
            | .fail c3 => .fail c3
            | .crash => .crash
            | .oom => .oom
          else .ok ([sep], [.type t]) c2 d2
        | .fail _ =>
          match parseExpression buf fuel c1 2 true with
          | .ok e c2 d2 =>
            if checkKind buf c2 .comma then
              match qidTargs buf fuel c2 false with
              | .ok (seps, tas) c3 d3 => .ok (sep :: seps, .expr e :: tas) c3 (d2 ++ d3)
              | .fail c3 => .fail c3
              | .crash => .crash
              | .oom => .oom
            else .ok ([sep], [.expr e]) c2 d2
          | .fail c2 => .fail c2
          | .crash => .crash
          | .oom => .oom
        | .crash => .crash
        | .oom => .oom

/-- `parseType(TF, WithDecorations)`: cv-qualifiers, then `auto` / a
builtin chain / a qualified-id, then cv-qualifiers, then (optionally)
decorations.  Speculative: failure restores the entry cursor. -/
def parseType (buf : List TokKind) : Nat → Cursor → Bool → PRes TypeNode
  | 0, _, _ => .oom
  | fuel+1, c, withDecor =>
    match cvQualLoop buf fuel c with
    | .ok cv1 c1 _ =>
      if checkKind buf c1 .kw_auto then
        match nextF buf c1 with
        | none => .crash
        | some (t, c2) => parseTypeSuffix buf fuel c (cv1 ++ [t]) [] [] c2 [] withDecor
      else if (match c1 with | some i => isBuiltinType (kindAt buf i) | none => false) then
        match builtinLoop buf fuel c1 with
        | .ok bts c2 _ => parseTypeSuffix buf fuel c (cv1 ++ bts) [] [] c2 [] withDecor
        | .fail c2 => .fail c2
        | .crash => .crash
        | .oom => .oom
      else
        match parseQualifiedID buf fuel c1 with
        | .ok (q, s, ta) c2 d2 => parseTypeSuffix buf fuel c (cv1 ++ q) s ta c2 d2 withDecor
        | .fail _ => .fail c
        | .crash => .crash
        | .oom => .oom
    | .fail c1 => .fail c1
    | .crash => .crash
    | .oom => .oom

/-- The tail of `parseType` after the main name: trailing cv-qualifiers
and optional decorations.  `c0` is `parseType`'s entry cursor (the guard's
checkpoint). -/
def parseTypeSuffix (buf : List TokKind) :
    Nat → Cursor → List Nat → List Nat → List TArg → Cursor → List Nat → Bool → PRes TypeNode
  | 0, _, _, _, _, _, _, _ => .oom
  | fuel+1, _c0, quals, seps, tas, c2, d2, withDecor =>
    match cvQualLoop buf fuel c2 with
    | .ok cv2 c3 _ =>
      if withDecor then
        match parseTypeDecorations buf fuel c3 with
        | .ok ds c4 _ => .ok (.mk (quals ++ cv2) seps tas ds) c4 d2
        | .fail c4 => .fail c4
        | .crash => .crash
        | .oom => .oom
      else .ok (.mk (quals ++ cv2) seps tas []) c3 d2
    | .fail c3 => .fail c3
    | .crash => .crash
    | .oom => .oom

/-- `parseVarDecl(TF, TypeName, NameOptional)`.  With no shared type it
parses a fresh type (whose decorations are then discarded by
`cloneWithoutDecorations` — those tokens are dropped), re-parses
decorations, an optional name, and an optional `=` initializer at
`prec::Comma + 1`.  Speculative: failure restores the entry cursor. -/
def parseVarDecl (buf : List TokKind) : Nat → Cursor → Option TypeNode → Bool → PRes VarDecl
  | 0, _, _, _ => .oom
  | fuel+1, c, shared, nameOptional =>
    match shared with
    | some tn => parseVarDeclRest buf fuel c tn c [] nameOptional
    | none =>
      match parseType buf fuel c true with
      | .ok t2 c1 d1 => parseVarDeclRest buf fuel c t2 c1 (d1 ++ decorToks t2) nameOptional
      | .fail _ => .fail c
      | .crash => .crash
      | .oom => .oom

/-- The tail of `parseVarDecl` after the underlying type is known:
`cloneWithoutDecorations`, per-declarator decorations, optional name,
optional `=` initializer.  `c0` is `parseVarDecl`'s entry cursor. -/
def parseVarDeclRest (buf : List TokKind) :
    Nat → Cursor → TypeNode → Cursor → List Nat → Bool → PRes VarDecl
  | 0, _, _, _, _, _ => .oom
  | fuel+1, c0, tn, c1, dAcc, nameOptional =>
    match parseTypeDecorations buf fuel c1 with
    | .ok ds c2 _ =>
      let vt := setDecors (cloneNoDecor tn) ds
      if checkKind buf c2 .identifier then
        match nextF buf c2 with
        | none => .crash
        | some (nm, c3) => parseVarDeclInit buf fuel c0 vt (some nm) c3 dAcc
      else if !nameOptional then .fail c0
      else parseVarDeclInit buf fuel c0 vt none c2 dAcc
    | .fail c2 => .fail c2
    | .crash => .crash
    | .oom => .oom

/-- The optional `= value` tail of `parseVarDecl`. -/
def parseVarDeclInit (buf : List TokKind) :
    Nat → Cursor → TypeNode → Option Nat → Cursor → List Nat → PRes VarDecl
  | 0, _, _, _, _, _ => .oom
  | fuel+1, c0, vt, nm, c3, dAcc =>
    if checkKind buf c3 .equal then
      match nextF buf c3 with
      | none => .crash
      | some (eq, c4) =>
        match parseExpression buf fuel c4 2 false with
        | .ok v c5 d5 => .ok (.mk vt nm (some (.assignment eq v))) c5 (dAcc ++ d5)
        | .fail _ => .fail c0
        | .crash => .crash
        | .oom => .oom
    else .ok (.mk vt nm none) c3 dAcc

end

/-- `parseReturnStmt`: `return [expression] ";"`.  Speculative. -/
def parseReturnStmt (buf : List TokKind) (fuel : Nat) (c : Cursor) : PRes Stmt :=
  if !checkKind buf c .kw_return then .fail c
  else
    match nextF buf c with
    | none => .crash
    | some (ret, c1) =>
      if checkKind buf c1 .semi then
        match nextF buf c1 with
        | none => .crash
        | some (s, c2) => .ok (.returnStmt ret none s) c2 []
      else
        match parseExpression buf fuel c1 1 false with
        | .ok b c2 d =>
          if checkKind buf c2 .semi then
            match nextF buf c2 with
            | none => .crash
            | some (s, c3) => .ok (.returnStmt ret (some b) s) c3 d
          else .fail c
        | .fail _ => .fail c
        | .crash => .crash
        | .oom => .oom

/-- `parseDestructor`: `~`, which becomes the function's name token, then
a type as the return-type slot.  Returns the tilde token and the type. -/
def parseDestructor (buf : List TokKind) (fuel : Nat) (c : Cursor) : PRes (Nat × TypeNode) :=
  if !checkKind buf c .tilde then .fail c
  else
    match nextF buf c with
    | none => .crash
    | some (tl, c1) =>
      match parseType buf fuel c1 true with
      | .ok t c2 d => .ok (tl, t) c2 d
      | .fail c2 => .fail c2
      | .crash => .crash
      | .oom => .oom

/-- The parameter loop of `parseFunctionDecl`:
`while (!r_paren) { parseVarDecl(0, true); comma? }`.  A failed parameter
fails the whole function. -/
def fnParams (buf : List TokKind) : Nat → Cursor → PRes (List VarDecl × List Nat)
  | 0, _ => .oom
  | fuel+1, c =>
    if checkKind buf c .r_paren then .ok ([], []) c []
    else
      match parseVarDecl buf fuel c none true with
      | .ok vd c1 d1 =>
        if checkKind buf c1 .comma then
          match nextF buf c1 with
          | none => .crash
          | some (cm, c2) =>
            match fnParams buf fuel c2 with
            | .ok (ps, cms) c3 d3 => .ok (vd :: ps, cm :: cms) c3 (d1 ++ d3)
            | .fail c3 => .fail c3
            | .crash => .crash
            | .oom => .oom
        else .ok ([vd], []) c1 d1
      | .fail c1 => .fail c1
      | .crash => .crash
      | .oom => .oom

/-- The tail of `parseFunctionDecl` from the parameter list on: `(`,
parameters, `)`, the coarse skip to `{`/`;`, optional `;`.  `c0` is the
entry cursor of `parseFunctionDecl` (guard checkpoint). -/
def parseFunctionDeclParams (buf : List TokKind) (fuel : Nat) (c0 : Cursor)
    (statics : List Nat) (retType : Option TypeNode) (nameTok : Option Nat)
    (c : Cursor) (dAcc : List Nat) : PRes Stmt :=
  if !checkKind buf c .l_paren then .fail c0
  else
    match nextF buf c with
    | none => .crash
    | some (lp, c1) =>
      match fnParams buf fuel c1 with
      | .ok (ps, cms) c2 d2 =>
        if !checkKind buf c2 .r_paren then .fail c0
        else
          match nextF buf c2 with
          | none => .crash
          | some (rp, c3) =>
            match fnSkip buf fuel c3 with
            | .ok _ c4 d4 =>
              if checkKind buf c4 .semi then
                match nextF buf c4 with
                | none => .crash
                | some (s, c5) =>
                  .ok (.funcDecl statics retType nameTok lp ps cms rp [s] none) c5
                    (dAcc ++ d2 ++ d4)
              else
                .ok (.funcDecl statics retType nameTok lp ps cms rp [] none) c4
                  (dAcc ++ d2 ++ d4)
            | .fail c4 => .fail c4
            | .crash => .crash
            | .oom => .oom
      | .fail _ => .fail c0
      | .crash => .crash
      | .oom => .oom

/-- `parseFunctionDecl(TF, NameOptional)`: optional `static`/`virtual`
(both recorded through `setStatic`), return type or (in name-optional
mode) a destructor, optional name, parameter list, coarse skip, optional
`;`.  Speculative. -/
def parseFunctionDecl (buf : List TokKind) (fuel : Nat) (c : Cursor)
    (nameOptional : Bool) : PRes Stmt :=
  let st0 : List Nat × Cursor :=
    match c with
    | some i => if kindAt buf i = .kw_static then
        match nextF buf (some i) with
        | some (t, c1) => ([t], c1)
        | none => ([], some i)
      else ([], some i)
    | none => ([], none)
  let st1 : List Nat × Cursor :=
    match st0.2 with
    | some i => if kindAt buf i = .kw_virtual then
        match nextF buf (some i) with
        | some (t, c1) => (st0.1 ++ [t], c1)
        | none => (st0.1, some i)
      else (st0.1, some i)
    | none => (st0.1, none)
  match parseType buf fuel st1.2 true with
  | .ok t c1 d1 =>
    if checkKind buf c1 .identifier then
      match nextF buf c1 with
      | none => .crash
      | some (nm, c2) => parseFunctionDeclParams buf fuel c st1.1 (some t) (some nm) c2 d1
    else if !nameOptional then .fail c
    else parseFunctionDeclParams buf fuel c st1.1 (some t) none c1 d1
  | .fail _ =>
    if nameOptional then
      match parseDestructor buf fuel st1.2 with
      | .ok (tl, t) c1 d1 => parseFunctionDeclParams buf fuel c st1.1 (some t) (some tl) c1 d1
      | .fail _ => .fail c
      | .crash => .crash
      | .oom => .oom
    else .fail c
  | .crash => .crash
  | .oom => .oom

/-- The declarator loop of `parseDeclStmt`: `while (TF.peek())` with an
immediate-semicolon exit (so `int ;` is an accepted, declarator-less
DeclStmt), then a shared-type `parseVarDecl`, then a comma or the final
semicolon. -/
def declLoop (buf : List TokKind) : Nat → Cursor → TypeNode → PRes (List VarDecl × List Nat × Nat)
  | 0, _, _ => .oom
  | fuel+1, c, tn =>
    match c with
    | none => .fail none
    | some i =>
      if kindAt buf i = .semi then
        match nextF buf (some i) with
        | none => .crash
        | some (s, c1) => .ok ([], [], s) c1 []
      else
        match parseVarDecl buf fuel (some i) (some tn) false with
        | .ok vd c1 d1 =>
          if checkKind buf c1 .comma then
            match nextF buf c1 with
            | none => .crash
            | some (cm, c2) =>
              match declLoop buf fuel c2 tn with
              | .ok (ds, cms, s) c3 d3 => .ok (vd :: ds, cm :: cms, s) c3 (d1 ++ d3)
              | .fail c3 => .fail c3
              | .crash => .crash
              | .oom => .oom
          else if checkKind buf c1 .semi then
            match declLoop buf fuel c1 tn with
            | .ok (ds, cms, s) c2 d2 => .ok (vd :: ds, cms, s) c2 (d1 ++ d2)
            | .fail c2 => .fail c2
            | .crash => .crash
            | .oom => .oom
          else .fail c1
        | .fail c1 => .fail c1
        | .crash => .crash
        | .oom => .oom

/-- `parseDeclStmt`: a decoration-less type shared by comma-separated
declarators, terminated by `;`.  When there are no declarators the shared
type node is destroyed and its tokens are dropped. -/
def parseDeclStmt (buf : List TokKind) (fuel : Nat) (c : Cursor) : PRes Stmt :=
  match parseType buf fuel c false with
  | .ok tn c1 d1 =>
    match declLoop buf fuel c1 tn with
    | .ok (ds, cms, s) c2 d2 =>
      .ok (.declStmt ds cms s) c2 (d1 ++ d2 ++ (if ds.isEmpty then claimsT tn else []))
    | .fail _ => .fail c
    | .crash => .crash
    | .oom => .oom
  | .fail _ => .fail c
  | .crash => .crash
  | .oom => .oom

/-- The base-clause `for (;;)` loop of `parseClassDecl`.  Returns the
committed base-class entries and the `Skip` flag.  An abandoned entry
(type failed, or no `{`/`,` after the type) drops its consumed tokens. -/
def baseLoop (buf : List TokKind) : Nat → Cursor → PRes (List Base × Bool)
  | 0, _ => .oom
  | fuel+1, c =>
    let acc : Option Nat × Cursor :=
      match c with
      | some i =>
        if kindAt buf i = .kw_private ∨ kindAt buf i = .kw_protected ∨
           kindAt buf i = .kw_public then
          match nextF buf (some i) with
          | some (t, c1) => (some t, c1)
          | none => (none, some i)
        else (none, some i)
      | none => (none, none)
    match parseType buf fuel acc.2 false with
    | .fail c1 => .ok ([], true) c1 (rangeList (pos buf c) (pos buf c1))
    | .ok t c2 d2 =>
      if checkKind buf c2 .l_brace then .ok ([.mk acc.1 t none], false) c2 d2
      else if !checkKind buf c2 .comma then
        .ok ([], true) c2 (rangeList (pos buf c) (pos buf c2))
      else
        match nextF buf c2 with
        | none => .crash
        | some (cm, c3) =>
          match baseLoop buf fuel c3 with
          | .ok (bs, sk) c4 d4 => .ok (.mk acc.1 t (some cm) :: bs, sk) c4 (d2 ++ d4)
          | .fail c4 => .fail c4
          | .crash => .crash
          | .oom => .oom
    | .crash => .crash
    | .oom => .oom

/-- The guarded expression-statement attempt at the end of `parseAny`:
parse a full expression and require a `;`; otherwise the guard rewinds. -/
def exprStmtAttempt (buf : List TokKind) (fuel : Nat) (c : Cursor) : PRes Stmt :=
  match parseExpression buf fuel c 1 false with
  | .ok e c1 d =>
    if checkKind buf c1 .semi then
      match nextF buf c1 with
      | none => .crash
      | some (s, c2) => .ok (.exprLineStmt e s) c2 d
    else .fail c
  | .fail _ => .fail c
  | .crash => .crash
  | .oom => .oom

/-- `S->setSemi(TF.next())` on a function declaration in `parseAny`. -/
def addFnSemi : Stmt → Nat → Stmt
  | .funcDecl st rt nm lp ps cms rp semis bd, s =>
    .funcDecl st rt nm lp ps cms rp (semis ++ [s]) bd
  | st, _ => st

/-- `S->Body = parseCompoundStmt(TF)` on a function declaration. -/
def setFnBody : Stmt → Stmt → Stmt
  | .funcDecl st rt nm lp ps cms rp semis _, b =>
    .funcDecl st rt nm lp ps cms rp semis (some b)
  | st, _ => st

/-- `S->setSemi(TF.next())` on a class declaration in `parseAny`. -/
def addClsSemi : Stmt → Nat → Stmt
  | .classDecl ct nt col bs lbs sts rbs semis, s =>
    .classDecl ct nt col bs lbs sts rbs (semis ++ [s])
  | st, _ => st

/-- A second `parseClassScope(TF, *S)` on a class declaration in
`parseAny` appends to the class's scope slots. -/
def addClsScope : Stmt → List Nat → List Stmt → List Nat → List Nat → Stmt
  | .classDecl ct nt col bs lbs sts rbs semis, lbs2, sts2, rbs2, semis2 =>
    .classDecl ct nt col bs (lbs ++ lbs2) (sts ++ sts2) (rbs ++ rbs2) (semis ++ semis2)
  | st, _, _, _, _ => st

mutual

/-- `parseAny(TF, SkipUnparsable, NameOptional)`: try the recognizers in
the fixed order return / decl / label / function / class / expression
statement; on total failure resynchronize via `skipUnparsable`. -/
def parseAny (buf : List TokKind) : Nat → Cursor → Bool → Bool → PRes Stmt
  | 0, _, _, _ => .oom
  | fuel+1, c, skipUnp, nameOpt =>
    match parseReturnStmt buf fuel c with
    | .ok s c1 d => .ok s c1 d
    | .crash => .crash
    | .oom => .oom
    | .fail c1 =>
      match parseDeclStmt buf fuel c1 with
      | .ok s c2 d => .ok s c2 d
      | .crash => .crash
      | .oom => .oom
      | .fail c2 =>
        match parseLabelStmt buf c2 with
        | .ok s c3 d => .ok s c3 d
        | .crash => .crash
        | .oom => .oom
        | .fail c3 =>
          match parseFunctionDecl buf fuel c3 nameOpt with
          | .ok f c4 d =>
            if checkKind buf c4 .semi then
              match nextF buf c4 with
              | none => .crash
              | some (s, c5) => .ok (addFnSemi f s) c5 d
            else if checkKind buf c4 .l_brace then
              match parseCompoundStmt buf fuel c4 with
              | .ok cs c5 d2 => .ok (setFnBody f cs) c5 (d ++ d2)
              | .fail c5 => .ok f c5 d
              | .crash => .crash
              | .oom => .oom
            else .ok f c4 d
          | .crash => .crash
          | .oom => .oom
          | .fail c4 =>
            match parseClassDecl buf fuel c4 with
            | .ok cl c5 d =>
              if checkKind buf c5 .semi then
                match nextF buf c5 with
                | none => .crash
                | some (s, c6) => .ok (addClsSemi cl s) c6 d
              else if checkKind buf c5 .l_brace then
                match parseClassScope buf fuel c5 with
                | .ok (lbs, sts, rbs, semis, _) c6 d2 =>
                  .ok (addClsScope cl lbs sts rbs semis) c6 (d ++ d2)
                | .fail c6 => .fail c6
                | .crash => .crash
                | .oom => .oom
              else .ok cl c5 d
            | .crash => .crash
            | .oom => .oom
            | .fail c5 =>
              match exprStmtAttempt buf fuel c5 with
              | .ok s c6 d => .ok s c6 d
              | .crash => .crash
              | .oom => .oom
              | .fail c6 =>
                if skipUnp then
                  match skipUnparsable buf fuel c6 with
                  | .ok ts c7 d => .ok (.unparsable ts) c7 d
                  | .fail c7 => .fail c7
                  | .crash => .crash
                  | .oom => .oom
                else .fail c6

/-- `parseScope`: statements via `parseAny(TF, true, true)` until `}` or
exhaustion; the flag is the C++ boolean result. -/
def parseScope (buf : List TokKind) : Nat → Cursor → PRes (List Stmt × Bool)
  | 0, _ => .oom
  | fuel+1, c =>
    if checkKind buf c .r_brace then .ok ([], true) c []
    else
      match parseAny buf fuel c true true with
      | .ok s c1 d1 =>
        match c1 with
        | none => .ok ([s], false) none d1
        | some i =>
          if kindAt buf i = .r_brace then .ok ([s], true) (some i) d1
          else
            match parseScope buf fuel (some i) with
            | .ok (sts, fl) c2 d2 => .ok (s :: sts, fl) c2 (d1 ++ d2)
            | .fail c2 => .fail c2
            | .crash => .crash
            | .oom => .oom
      | .fail c1 => .ok ([], checkKind buf c1 .r_brace) c1 []
      | .crash => .crash
      | .oom => .oom

/-- `parseCompoundStmt`: `{`, scope, optional `}` (missing `}` just
passes). -/
def parseCompoundStmt (buf : List TokKind) : Nat → Cursor → PRes Stmt
  | 0, _ => .oom
  | fuel+1, c =>
    if !checkKind buf c .l_brace then .fail c
    else
      match nextF buf c with
      | none => .crash
      | some (lb, c1) =>
        match parseScope buf fuel c1 with
        | .ok (sts, _) c2 d2 =>
          if checkKind buf c2 .r_brace then
            match nextF buf c2 with
            | none => .crash
            | some (rb, c3) => .ok (.compound lb sts (some rb)) c3 d2
          else .ok (.compound lb sts none) c2 d2
        | .fail c2 => .fail c2
        | .crash => .crash
        | .oom => .oom

/-- `parseClassScope`: `{`, scope, optional `}`, optional `;`.  Returns
the accumulated scope slots (the C++ mutates the ClassDecl even on a
`false` return, so all paths return the data plus the boolean flag). -/
def parseClassScope (buf : List TokKind) :
    Nat → Cursor → PRes (List Nat × List Stmt × List Nat × List Nat × Bool)
  | 0, _ => .oom
  | fuel+1, c =>
    if !checkKind buf c .l_brace then .ok ([], [], [], [], false) c []
    else
      match nextF buf c with
      | none => .crash
      | some (lb, c1) =>
        match parseScope buf fuel c1 with
        | .ok (sts, fl) c2 d2 =>
          if fl then
            if checkKind buf c2 .r_brace then
              match nextF buf c2 with
              | none => .crash
              | some (rb, c3) =>
                if checkKind buf c3 .semi then
                  match nextF buf c3 with
                  | none => .crash
                  | some (s, c4) => .ok ([lb], sts, [rb], [s], true) c4 d2
                else .ok ([lb], sts, [rb], [], true) c3 d2
            else if checkKind buf c2 .semi then
              match nextF buf c2 with
              | none => .crash
              | some (s, c3) => .ok ([lb], sts, [], [s], true) c3 d2
            else .ok ([lb], sts, [], [], true) c2 d2
          else .ok ([lb], sts, [], [], false) c2 d2
        | .fail c2 => .fail c2
        | .crash => .crash
        | .oom => .oom

/-- `parseClassDecl`: class-key, tag type, optional base clause (with the
skip-until-`{` fallback), then `;` or a class scope.  Speculative. -/
def parseClassDecl (buf : List TokKind) : Nat → Cursor → PRes Stmt
  | 0, _ => .oom
  | fuel+1, c =>
    if !(checkKind buf c .kw_class || checkKind buf c .kw_struct ||
         checkKind buf c .kw_union || checkKind buf c .kw_enum) then .fail c
    else
      match nextF buf c with
      | none => .crash
      | some (ct, c1) =>
        match parseType buf fuel c1 true with
        | .fail _ => .fail c
        | .ok nt c2 dN =>
          if checkKind buf c2 .colon then
            match nextF buf c2 with
            | none => .crash
            | some (col, c3) =>
              match baseLoop buf fuel c3 with
              | .ok (bs, sk) c4 dB =>
                if sk then
                  match classSkip buf fuel c4 with
                  | .ok _ c5 dSk =>
                    parseClassTail buf fuel c ct nt (some col) bs c5 (dN ++ dB ++ dSk)
                  | .fail c5 => .fail c5
                  | .crash => .crash
                  | .oom => .oom
                else parseClassTail buf fuel c ct nt (some col) bs c4 (dN ++ dB)
              | .fail c4 => .fail c4
              | .crash => .crash
              | .oom => .oom
          else parseClassTail buf fuel c ct nt none [] c2 dN
        | .crash => .crash
        | .oom => .oom

/-- The tail of `parseClassDecl`: `if (semi) setSemi else
parseClassScope`, then commit. -/
def parseClassTail (buf : List TokKind) :
    Nat → Cursor → Nat → TypeNode → Option Nat → List Base → Cursor → List Nat → PRes Stmt
  | 0, _, _, _, _, _, _, _ => .oom
  | fuel+1, _c0, ct, nt, col, bs, c5, dAcc =>
    if checkKind buf c5 .semi then
      match nextF buf c5 with
      | none => .crash
      | some (s, c6) => .ok (.classDecl ct nt col bs [] [] [] [s]) c6 dAcc
    else
      match parseClassScope buf fuel c5 with
      | .ok (lbs, sts, rbs, semis, _) c6 dCS =>
        .ok (.classDecl ct nt col bs lbs sts rbs semis) c6 (dAcc ++ dCS)
      | .fail c6 => .fail c6
      | .crash => .crash
      | .oom => .oom

end

/-- The `while (TF.peek()) TU.addStmt(parseAny(TF))` loop of
`fuzzyparse`. -/
def fuzzyLoop (buf : List TokKind) : Nat → Cursor → PRes (List Stmt)
  | 0, _ => .oom
  | fuel+1, c =>
    match c with
    | none => .ok [] none []
    | some i =>
      match parseAny buf fuel (some i) true false with
      | .ok s c1 d1 =>
        match fuzzyLoop buf fuel c1 with
        | .ok sts c2 d2 => .ok (s :: sts) c2 (d1 ++ d2)
        | .fail c2 => .fail c2
        | .crash => .crash
        | .oom => .oom
      | .fail c1 => .fail c1
      | .crash => .crash
      | .oom => .oom

/-- `fuzzyparse(first, last)`: the translation unit is the list of
statements produced by the top-level `parseAny` loop. -/
def fuzzyparse (buf : List TokKind) (fuel : Nat) : PRes (List Stmt) :=
  fuzzyLoop buf fuel (initCursor buf)

/-! ### Auxiliary definitions for the specification statements -/

/-- A token kind the coverage property talks about: not a comment, not
unknown, not end-of-file. -/
def realTok (buf : List TokKind) (k : Nat) : Prop :=
  kindAt buf k ≠ .comment ∧ kindAt buf k ≠ .unknown ∧ kindAt buf k ≠ .eof

instance (buf : List TokKind) (k : Nat) : Decidable (realTok buf k) := by
  unfold realTok; infer_instance

/-- A well-formed lexer output: an `eof` token can only be the last token
of the buffer. -/
def WFbuf (buf : List TokKind) : Prop :=
  ∀ i, i < buf.length → kindAt buf i = .eof → i + 1 = buf.length

instance (buf : List TokKind) : Decidable (WFbuf buf) := by
  unfold WFbuf; infer_instance

/-- A cursor that points into the buffer. -/
def ValidC (buf : List TokKind) (c : Cursor) : Prop :=
  ∀ i, c = some i → i < buf.length

/-- The effective precedence the binary-operator loop assigns to a token
kind: the member-access override for `.`/`->`, the oracle otherwise. -/
def effPrec (k : TokKind) : Nat :=
  if k = .period ∨ k = .arrow then PrecedenceArrowAndPeriod else getBinOpPrecedence k

/-- Contract of a committed parse run from `c` to `c'` whose node claims
plus dropped tokens form the set `s`: the final cursor is in range and not
behind the start, `s` lies inside the consumed range, and every
non-comment/unknown/eof token of the consumed range is in `s`. -/
def RunOK (buf : List TokKind) (c : Cursor) (s : List Nat) (c' : Cursor) : Prop :=
  ValidC buf c' ∧ pos buf c ≤ pos buf c' ∧
  (∀ k ∈ s, pos buf c ≤ k ∧ k < pos buf c') ∧
  (∀ k, pos buf c ≤ k → k < pos buf c' → realTok buf k → k ∈ s)

/-- Contract of a failed (empty-result) run: the cursor it leaves behind
is valid and not behind the start. -/
def FailOK (buf : List TokKind) (c c' : Cursor) : Prop :=
  ValidC buf c' ∧ pos buf c ≤ pos buf c'

/-- `a op1 b op2 c` as a token buffer with literal operands. -/
def c2buf (op1 op2 : TokKind) : List TokKind :=
  [.numeric_constant, op1, .numeric_constant, op2, .numeric_constant, .eof]

/-- The full-expression parse of `a op1 b op2 c`. -/
def c2run (op1 op2 : TokKind) : PRes Expr :=
  parseExpression (c2buf op1 op2) 40 (some 0) 1 false

/-- Exactly the right-nested tree `a op1 (b op2 c)` over `c2buf`, i.e.
`BinaryOperator(op1@1, literal@0, BinaryOperator(op2@3, literal@2,
literal@4))`, with the whole buffer consumed and nothing dropped. -/
def c2ok1 : PRes Expr → Bool
  | .ok (.binary (some (.literal 0))
      (some (.binary (some (.literal 2)) (some (.literal 4)) 3)) 1) none [] => true
  | _ => false

/-- Exactly the left-nested tree `(a op1 b) op2 c` over `c2buf`, i.e.
`BinaryOperator(op2@3, BinaryOperator(op1@1, literal@0, literal@2),
literal@4)`, with the whole buffer consumed and nothing dropped. -/
def c2ok2 : PRes Expr → Bool
  | .ok (.binary (some (.binary (some (.literal 0)) (some (.literal 2)) 1))
      (some (.literal 4)) 3) none [] => true
  | _ => false

/-- The grouping property of a single operator pair, as a boolean so that
all pairs can be checked by evaluation. -/
def c2check (op1 op2 : TokKind) : Bool :=
  if 1 ≤ effPrec op1 ∧ 1 ≤ effPrec op2 then
    (if effPrec op1 < effPrec op2 then c2ok1 (c2run op1 op2)
     else if effPrec op1 = effPrec op2 then c2ok2 (c2run op1 op2)
     else true)
  else true

/-- Did the run return the C++ empty result? -/
def isFail : PRes α → Bool
  | .fail _ => true
  | _ => false

/-- The token stream of spec scenario S6:
`int ;  garble )  ; int y;` (`garble` is an identifier). -/
def s6buf : List TokKind :=
  [.kw_int, .semi, .identifier, .r_paren, .semi, .kw_int, .identifier, .semi, .eof]

/-- Does a translation unit consist of exactly two UnparsableBlocks
followed by one DeclStmt, as claim C5 describes for S6? -/
def c5shape : PRes (List Stmt) → Bool
  | .ok [.unparsable _, .unparsable _, .declStmt _ _ _] _ _ => true
  | _ => false

/-- `int f ( ) const ;` — the `const` token is consumed by
`parseFunctionDecl`'s post-parameter-list skip. -/
def c1buf : List TokKind :=
  [.kw_int, .identifier, .l_paren, .r_paren, .kw_const, .semi, .eof]

/-- `f ( a , )` with a trailing comma before the `)`, as a buffer; `a` is
a token of kind `k`. -/
def c6buf (k : TokKind) : List TokKind :=
  [.identifier, .l_paren, k, .comma, .r_paren, .eof]

/-- The call-expression parse of `f ( a , )` starting at the `(`, with
callee `f` already parsed. -/
def c6run (k : TokKind) : PRes Expr :=
  parseCallExpr (c6buf k) 60 (some 1) (.declRef [0] [] [])

/-- Exactly a `CallExpr` with callee `f@0`, `(`@1, the single argument
`a@2`, the recorded trailing comma `@3`, and `)`@4, consuming the whole
buffer with nothing dropped. -/
def c6ok : PRes Expr → Bool
  | .ok (.call (.declRef [0] [] []) 1 [some (.literal 2)] [3] 4) none [] => true
  | _ => false

/-! ### Groundwork lemmas -/

/-- Combined invariant of the mutually recursive expression-family
parsers at a given fuel: committed runs claim-or-drop exactly the real
tokens they consumed (`RunOK`), speculative failures restore or advance
the cursor, and every produced expression satisfies `goodE` (all
`BinaryOperator` nodes have a non-null right operand). -/
def ExprInv (buf : List TokKind) (fuel : Nat) : Prop :=
  (∀ c prec stop, ValidC buf c →
    (∀ e c' d, parseExpression buf fuel c prec stop = .ok e c' d →
      RunOK buf c (claimsE e ++ d) c' ∧ pos buf c < pos buf c' ∧ goodE e = true) ∧
    (∀ c', parseExpression buf fuel c prec stop = .fail c' → FailOK buf c c')) ∧
  (∀ c prec stop lo pend, ValidC buf c → goodOE lo = true →
    (∀ e c' d, parseExprLoop buf fuel c prec stop lo pend = .ok e c' d →
      ValidC buf c' ∧ pos buf c ≤ pos buf c' ∧ goodE e = true ∧
      (∀ k, k ∈ claimsE e ++ d → k ∈ claimsOE lo ++ pend ∨ (pos buf c ≤ k ∧ k < pos buf c')) ∧
      (∀ k, k ∈ claimsOE lo ++ pend → k ∈ claimsE e ++ d) ∧
      (∀ k, pos buf c ≤ k → k < pos buf c' → realTok buf k → k ∈ claimsE e ++ d) ∧
      (lo = none → pos buf c < pos buf c')) ∧
    (∀ c', parseExprLoop buf fuel c prec stop lo pend = .fail c' → FailOK buf c c')) ∧
  (∀ c, ValidC buf c →
    (∀ e c' d, parseUnaryOperator buf fuel c = .ok e c' d →
      RunOK buf c (claimsE e ++ d) c' ∧ pos buf c < pos buf c' ∧ goodE e = true) ∧
    (∀ c', parseUnaryOperator buf fuel c = .fail c' → FailOK buf c c')) ∧
  (∀ c callee, ValidC buf c → goodE callee = true →
    (∀ e c' d, parseCallExpr buf fuel c callee = .ok e c' d →
      ValidC buf c' ∧ pos buf c ≤ pos buf c' ∧ goodE e = true ∧
      (∀ k, k ∈ claimsE e ++ d → k ∈ claimsE callee ∨ (pos buf c ≤ k ∧ k < pos buf c')) ∧
      (∀ k, k ∈ claimsE callee → k ∈ claimsE e ++ d) ∧
      (∀ k, pos buf c ≤ k → k < pos buf c' → realTok buf k → k ∈ claimsE e ++ d) ∧
      pos buf c < pos buf c') ∧
    (∀ c', parseCallExpr buf fuel c callee = .fail c' → FailOK buf c c')) ∧
  (∀ c, ValidC buf c →
    (∀ args cms c' d, parseCallArgs buf fuel c = .ok (args, cms) c' d →
      RunOK buf c (claimsOEs args ++ cms ++ d) c' ∧ goodOEs args = true) ∧
    (∀ c', parseCallArgs buf fuel c = .fail c' → FailOK buf c c')) ∧
  (∀ c, ValidC buf c →
    (∀ q s ta c' d, parseQualifiedID buf fuel c = .ok (q, s, ta) c' d →
      RunOK buf c (q ++ s ++ claimsTAs ta ++ d) c' ∧ pos buf c < pos buf c' ∧
        goodTAs ta = true) ∧
    (∀ c', parseQualifiedID buf fuel c = .fail c' → c' = c)) ∧
  (∀ c isF, ValidC buf c →
    (∀ seps tas c' d, qidTargs buf fuel c isF = .ok (seps, tas) c' d →
      RunOK buf c (seps ++ claimsTAs tas ++ d) c' ∧ goodTAs tas = true) ∧
    (∀ c', qidTargs buf fuel c isF = .fail c' → FailOK buf c c')) ∧
  (∀ c w, ValidC buf c →
    (∀ t c' d, parseType buf fuel c w = .ok t c' d →
      RunOK buf c (claimsT t ++ d) c' ∧ pos buf c < pos buf c' ∧ goodT t = true ∧
      (w = false → decorToks t = [])) ∧
    (∀ c', parseType buf fuel c w = .fail c' → c' = c)) ∧
  (∀ c0 quals seps tas c2 d2 w, ValidC buf c2 →
    (∀ t c' d, parseTypeSuffix buf fuel c0 quals seps tas c2 d2 w = .ok t c' d →
      ValidC buf c' ∧ pos buf c2 ≤ pos buf c' ∧ d = d2 ∧
      (∀ k, k ∈ claimsT t → k ∈ quals ++ seps ++ claimsTAs tas ∨
        (pos buf c2 ≤ k ∧ k < pos buf c')) ∧
      (∀ k, k ∈ quals ++ seps ++ claimsTAs tas → k ∈ claimsT t) ∧
      (∀ k, pos buf c2 ≤ k → k < pos buf c' → realTok buf k → k ∈ claimsT t) ∧
      (goodTAs tas = true → goodT t = true) ∧
      (w = false → decorToks t = [])) ∧
    (∀ c', parseTypeSuffix buf fuel c0 quals seps tas c2 d2 w ≠ .fail c')) ∧
  (∀ c shared nameOpt, ValidC buf c →
    ((shared = none → ∀ vd c' d, parseVarDecl buf fuel c shared nameOpt = .ok vd c' d →
      RunOK buf c (claimsVD vd ++ d) c' ∧ pos buf c < pos buf c') ∧
     (∀ tn, shared = some tn → decorToks tn = [] →
      ∀ vd c' d, parseVarDecl buf fuel c shared nameOpt = .ok vd c' d →
        ValidC buf c' ∧ pos buf c ≤ pos buf c' ∧
        (∀ k, k ∈ claimsVD vd ++ d → k ∈ claimsT tn ∨ (pos buf c ≤ k ∧ k < pos buf c')) ∧
        (∀ k, k ∈ claimsT tn → k ∈ claimsVD vd) ∧
        (∀ k, pos buf c ≤ k → k < pos buf c' → realTok buf k → k ∈ claimsVD vd ++ d)) ∧
     (∀ c', parseVarDecl buf fuel c shared nameOpt = .fail c' → c' = c))) ∧
  (∀ c0 tn c1 dAcc nameOpt, ValidC buf c1 →
    (∀ vd c' d, parseVarDeclRest buf fuel c0 tn c1 dAcc nameOpt = .ok vd c' d →
      ValidC buf c' ∧ pos buf c1 ≤ pos buf c' ∧ (∃ dr, d = dAcc ++ dr) ∧
      (∀ k, k ∈ claimsVD vd ++ d → k ∈ claimsT (cloneNoDecor tn) ++ dAcc ∨
        (pos buf c1 ≤ k ∧ k < pos buf c')) ∧
      (∀ k, k ∈ claimsT (cloneNoDecor tn) → k ∈ claimsVD vd) ∧
      (∀ k, pos buf c1 ≤ k → k < pos buf c' → realTok buf k → k ∈ claimsVD vd ++ d)) ∧
    (∀ c', parseVarDeclRest buf fuel c0 tn c1 dAcc nameOpt = .fail c' → c' = c0)) ∧
  (∀ c0 vt nm c3 dAcc, ValidC buf c3 →
    (∀ vd c' d, parseVarDeclInit buf fuel c0 vt nm c3 dAcc = .ok vd c' d →
      ValidC buf c' ∧ pos buf c3 ≤ pos buf c' ∧ (∃ dr, d = dAcc ++ dr) ∧
      (∀ k, k ∈ claimsVD vd ++ d → k ∈ claimsT vt ++ claimsON nm ++ dAcc ∨
        (pos buf c3 ≤ k ∧ k < pos buf c')) ∧
      (∀ k, k ∈ claimsT vt ++ claimsON nm → k ∈ claimsVD vd) ∧
      (∀ k, pos buf c3 ≤ k → k < pos buf c' → realTok buf k → k ∈ claimsVD vd ++ d)) ∧
    (∀ c', parseVarDeclInit buf fuel c0 vt nm c3 dAcc = .fail c' → c' = c0))

/-- Combined invariant of the mutually recursive statement-family parsers
at a given fuel: committed runs claim-or-drop exactly the real tokens they
consumed, failures restore the entry cursor (and, for `parseAny`, can only
happen with resynchronization disabled), and the class/function helpers
return nodes of the expected shape. -/
def StmtInv (buf : List TokKind) (fuel : Nat) : Prop :=
  (∀ c sk no, ValidC buf c →
    (∀ s c' d, parseAny buf fuel c sk no = .ok s c' d →
      RunOK buf c (claimsS s ++ d) c' ∧ (pos buf c < pos buf c' ∨ c' = none)) ∧
    (∀ c', parseAny buf fuel c sk no = .fail c' → c' = c ∧ sk = false)) ∧
  (∀ c, ValidC buf c →
    (∀ sts fl c' d, parseScope buf fuel c = .ok (sts, fl) c' d →
      RunOK buf c (claimsSs sts ++ d) c') ∧
    (∀ c', parseScope buf fuel c ≠ .fail c')) ∧
  (∀ c, ValidC buf c →
    (∀ s c' d, parseCompoundStmt buf fuel c = .ok s c' d →
      RunOK buf c (claimsS s ++ d) c' ∧ pos buf c < pos buf c') ∧
    (∀ c', parseCompoundStmt buf fuel c = .fail c' → c' = c)) ∧
  (∀ c, ValidC buf c →
    (∀ lbs sts rbs semis fl c' d,
      parseClassScope buf fuel c = .ok (lbs, sts, rbs, semis, fl) c' d →
      RunOK buf c (lbs ++ claimsSs sts ++ rbs ++ semis ++ d) c') ∧
    (∀ c', parseClassScope buf fuel c ≠ .fail c')) ∧
  (∀ c, ValidC buf c →
    (∀ s c' d, parseClassDecl buf fuel c = .ok s c' d →
      RunOK buf c (claimsS s ++ d) c' ∧ pos buf c < pos buf c' ∧
      ∃ ct nt col bs lbs sts rbs semis, s = .classDecl ct nt col bs lbs sts rbs semis) ∧
    (∀ c', parseClassDecl buf fuel c = .fail c' → c' = c)) ∧
  (∀ c0 ct nt col bs c5 dAcc, ValidC buf c5 →
    (∀ s c' d, parseClassTail buf fuel c0 ct nt col bs c5 dAcc = .ok s c' d →
      ∃ lbs sts rbs semis dCS, s = .classDecl ct nt col bs lbs sts rbs semis ∧
        d = dAcc ++ dCS ∧
        RunOK buf c5 (lbs ++ claimsSs sts ++ rbs ++ semis ++ dCS) c') ∧
    (∀ c', parseClassTail buf fuel c0 ct nt col bs c5 dAcc ≠ .fail c'))

theorem mem_allTokKinds : ∀ k : TokKind, k ∈ allTokKinds := fun x => by
  cases x <;> decide

set_option maxHeartbeats 8000000 in
set_option maxRecDepth 10000 in
theorem c2check_all :
    (allTokKinds.all fun a => allTokKinds.all fun b => c2check a b) = true := by rfl

theorem advanceAux_some {buf : List TokKind} {fuel j k : Nat}
    (h : advanceAux buf fuel j = some k) :
    j ≤ k ∧ k < buf.length ∧ realTok buf k ∧ ∀ m, j ≤ m → m < k → ¬ realTok buf m := by
  induction fuel generalizing j with
  | zero => simp [advanceAux] at h
  | succ fuel ih =>
    rw [advanceAux] at h
    by_cases hj : j < buf.length
    · rw [if_pos hj] at h
      by_cases hcu : kindAt buf j = .unknown ∨ kindAt buf j = .comment
      · rw [if_pos hcu] at h
        obtain ⟨h1, h2, h3, h4⟩ := ih h
        refine ⟨by omega, h2, h3, ?_⟩
        intro m hm1 hm2
        rcases Nat.eq_or_lt_of_le hm1 with rfl | hlt
        · rcases hcu with h' | h' <;> simp [realTok, h']
        · exact h4 m hlt hm2
      · rw [if_neg hcu] at h
        by_cases heof : kindAt buf j = .eof
        · rw [if_pos heof] at h
          exact absurd h (by simp)
        · rw [if_neg heof] at h
          obtain rfl : j = k := by simpa using h
          push_neg at hcu
          exact ⟨le_rfl, hj, ⟨hcu.2, hcu.1, heof⟩, fun m hm1 hm2 => by omega⟩
    · rw [if_neg hj] at h
      exact absurd h (by simp)

theorem advanceAux_none {buf : List TokKind} (hwf : WFbuf buf) {fuel j : Nat}
    (h : advanceAux buf fuel j = none) (hfuel : buf.length + 1 ≤ fuel + j) :
    ∀ m, j ≤ m → m < buf.length → ¬ realTok buf m := by
  induction fuel generalizing j with
  | zero => intro m hm1 hm2; omega
  | succ fuel ih =>
    rw [advanceAux] at h
    by_cases hj : j < buf.length
    · rw [if_pos hj] at h
      by_cases hcu : kindAt buf j = .unknown ∨ kindAt buf j = .comment
      · rw [if_pos hcu] at h
        intro m hm1 hm2
        rcases Nat.eq_or_lt_of_le hm1 with rfl | hlt
        · rcases hcu with h' | h' <;> simp [realTok, h']
        · exact ih h (by omega) m hlt hm2
      · rw [if_neg hcu] at h
        by_cases heof : kindAt buf j = .eof
        · have hlast := hwf j hj heof
          intro m hm1 hm2
          obtain rfl : m = j := by omega
          simp [realTok, heof]
        · rw [if_neg heof] at h
          exact absurd h (by simp)
    · intro m hm1 hm2; omega

theorem advance_some {buf : List TokKind} {j k : Nat} (h : advance buf j = some k) :
    j ≤ k ∧ k < buf.length ∧ realTok buf k ∧ ∀ m, j ≤ m → m < k → ¬ realTok buf m :=
  advanceAux_some h

theorem advance_none {buf : List TokKind} (hwf : WFbuf buf) {j : Nat}
    (h : advance buf j = none) :
    ∀ m, j ≤ m → m < buf.length → ¬ realTok buf m :=
  advanceAux_none hwf h (by omega)

theorem rangeList_mem {lo hi k : Nat} : k ∈ rangeList lo hi ↔ lo ≤ k ∧ k < hi := by
  simp only [rangeList, List.mem_map, List.mem_range]
  constructor
  · rintro ⟨a, ha, rfl⟩; omega
  · rintro ⟨h1, h2⟩; exact ⟨k - lo, by omega, by omega⟩

theorem runOK_rfl {buf : List TokKind} {c : Cursor} (h : ValidC buf c) : RunOK buf c [] c :=
  ⟨h, le_rfl, by simp, fun k h1 h2 _ => absurd (lt_of_le_of_lt h1 h2) (lt_irrefl _)⟩

theorem runOK_seq {buf : List TokKind} {c c1 c2 : Cursor} {s1 s2 : List Nat}
    (h1 : RunOK buf c s1 c1) (h2 : RunOK buf c1 s2 c2) : RunOK buf c (s1 ++ s2) c2 := by
  obtain ⟨hv1, hle1, hb1, hc1⟩ := h1
  obtain ⟨hv2, hle2, hb2, hc2⟩ := h2
  refine ⟨hv2, le_trans hle1 hle2, ?_, ?_⟩
  · intro k hk
    rcases List.mem_append.mp hk with hk | hk
    · exact ⟨(hb1 k hk).1, lt_of_lt_of_le (hb1 k hk).2 hle2⟩
    · exact ⟨le_trans hle1 (hb2 k hk).1, (hb2 k hk).2⟩
  · intro k hk1 hk2 hr
    by_cases hmid : k < pos buf c1
    · exact List.mem_append.mpr (Or.inl (hc1 k hk1 hmid hr))
    · exact List.mem_append.mpr (Or.inr (hc2 k (by omega) hk2 hr))

theorem runOK_congr {buf : List TokKind} {c c' : Cursor} {s s' : List Nat}
    (hm : ∀ k, k ∈ s ↔ k ∈ s') (h : RunOK buf c s c') : RunOK buf c s' c' :=
  ⟨h.1, h.2.1, fun k hk => h.2.2.1 k ((hm k).mpr hk), fun k h1 h2 hr => (hm k).mp (h.2.2.2 k h1 h2 hr)⟩

theorem nextF_eq {buf : List TokKind} (i : Nat) :
    nextF buf (some i) = some (i, advance buf (i+1)) := rfl

theorem runOK_advance {buf : List TokKind} (hwf : WFbuf buf) {i : Nat}
    (hv : i < buf.length) : RunOK buf (some i) [i] (advance buf (i+1)) := by
  refine ⟨?_, ?_, ?_, ?_⟩
  · intro a ha
    rcases hc : advance buf (i+1) with _ | k
    · simp [hc] at ha
    · rw [hc] at ha
      obtain rfl : k = a := by simpa using ha
      exact (advance_some hc).2.1
  · rcases hc : advance buf (i+1) with _ | k
    · simp [pos]; omega
    · have := (advance_some hc).1
      simp [pos]; omega
  · intro a ha
    have ha2 : a = i := by simpa using ha
    rw [ha2]
    refine ⟨le_rfl, ?_⟩
    rcases hc : advance buf (i+1) with _ | k2
    · simp [pos]; omega
    · have := (advance_some hc).1
      simp [pos]; omega
  · intro m hm1 hm2 hr
    simp only [pos] at hm1
    rcases Nat.eq_or_lt_of_le hm1 with rfl | hlt
    · simp
    · exfalso
      rcases hc : advance buf (i+1) with _ | k2
      · rw [hc] at hm2
        exact advance_none hwf hc m (by omega) (by simpa [pos] using hm2) hr
      · rw [hc] at hm2
        exact (advance_some hc).2.2.2 m (by omega) (by simpa [pos] using hm2) hr

theorem runOK_range {buf : List TokKind} {c c' : Cursor}
    (hv' : ValidC buf c') (hle : pos buf c ≤ pos buf c') :
    RunOK buf c (rangeList (pos buf c) (pos buf c')) c' :=
  ⟨hv', hle, fun k hk => rangeList_mem.mp hk, fun k h1 h2 _ => rangeList_mem.mpr ⟨h1, h2⟩⟩

theorem checkKind_some {buf : List TokKind} {c : Cursor} {k : TokKind}
    (h : checkKind buf c k = true) : ∃ i, c = some i ∧ kindAt buf i = k := by
  cases c with
  | none => simp [checkKind] at h
  | some i =>
    refine ⟨i, rfl, ?_⟩
    simpa [checkKind] using h

/-- A successful `checkKind` means the cursor is at a token of that kind. -/
theorem checkKind_cursor {buf : List TokKind} {c : Cursor} {k : TokKind}
    (h : checkKind buf c k = true) : ∃ i, c = some i := by
  obtain ⟨i, hi, _⟩ := checkKind_some h
  exact ⟨i, hi⟩

theorem cvQualLoop_inv {buf : List TokKind} (hwf : WFbuf buf) :
    ∀ fuel (c : Cursor), ValidC buf c →
      (∀ ts c' d, cvQualLoop buf fuel c = .ok ts c' d → d = [] ∧ RunOK buf c ts c') ∧
      (∀ c', cvQualLoop buf fuel c ≠ .fail c') := by
  intro fuel
  induction fuel with
  | zero =>
    intro c hv
    exact ⟨fun ts c' d h => by simp [cvQualLoop] at h, fun c' h => by simp [cvQualLoop] at h⟩
  | succ fuel ih =>
    intro c hv
    cases c with
    | none =>
      constructor
      · intro ts c' d h
        rw [cvQualLoop] at h
        simp only [PRes.ok.injEq] at h
        obtain ⟨rfl, rfl, rfl⟩ := h
        exact ⟨rfl, runOK_rfl hv⟩
      · intro c' h
        rw [cvQualLoop] at h
        simp at h
    | some i =>
      have hvi : i < buf.length := hv i rfl
      have hnext := runOK_advance hwf hvi
      constructor
      · intro ts c' d h
        rw [cvQualLoop] at h
        split at h
        · simp only [nextF] at h
          split at h
          · rename_i ts2 c2 d2 hrec
            have hrc := (ih (advance buf (i+1)) hnext.1).1 ts2 c2 d2 hrec
            simp only [PRes.ok.injEq] at h
            obtain ⟨rfl, rfl, rfl⟩ := h
            refine ⟨hrc.1, ?_⟩
            exact runOK_congr (by intro k; simp) (runOK_seq hnext hrc.2)
          · simp at h
          · simp at h
          · simp at h
        · simp only [PRes.ok.injEq] at h
          obtain ⟨rfl, rfl, rfl⟩ := h
          exact ⟨rfl, runOK_rfl hv⟩
      · intro c' h
        rw [cvQualLoop] at h
        split at h
        · simp only [nextF] at h
          split at h
          · simp at h
          · rename_i c2 hrec
            exact (ih (advance buf (i+1)) hnext.1).2 c2 hrec
          · simp at h
          · simp at h
        · simp at h

theorem builtinLoop_inv {buf : List TokKind} (hwf : WFbuf buf) :
    ∀ fuel (c : Cursor), ValidC buf c →
      (∀ ts c' d, builtinLoop buf fuel c = .ok ts c' d →
        d = [] ∧ RunOK buf c ts c' ∧
        (∀ i, c = some i → isBuiltinType (kindAt buf i) = true → pos buf c < pos buf c')) ∧
      (∀ c', builtinLoop buf fuel c ≠ .fail c') := by
  intro fuel
  induction fuel with
  | zero =>
    intro c hv
    exact ⟨fun ts c' d h => by simp [builtinLoop] at h, fun c' h => by simp [builtinLoop] at h⟩
  | succ fuel ih =>
    intro c hv
    cases c with
    | none =>
      constructor
      · intro ts c' d h
        rw [builtinLoop] at h
        simp only [PRes.ok.injEq] at h
        obtain ⟨rfl, rfl, rfl⟩ := h
        exact ⟨rfl, runOK_rfl hv, fun i hi => by simp at hi⟩
      · intro c' h
        rw [builtinLoop] at h
        simp at h
    | some i =>
      have hvi : i < buf.length := hv i rfl
      have hnext := runOK_advance hwf hvi
      constructor
      · intro ts c' d h
        rw [builtinLoop] at h
        split at h
        · simp only [nextF] at h
          split at h
          · rename_i ts2 c2 d2 hrec
            have hrc := (ih (advance buf (i+1)) hnext.1).1 ts2 c2 d2 hrec
            simp only [PRes.ok.injEq] at h
            obtain ⟨rfl, rfl, rfl⟩ := h
            have hseq := runOK_seq hnext hrc.2.1
            refine ⟨hrc.1, runOK_congr (by intro k; simp) hseq, ?_⟩
            intro j hj _
            simpa [pos] using (hseq.2.2.1 i (by simp)).2
          · simp at h
          · simp at h
          · simp at h
        · rename_i hnb
          simp only [PRes.ok.injEq] at h
          obtain ⟨rfl, rfl, rfl⟩ := h
          refine ⟨rfl, runOK_rfl hv, ?_⟩
          intro j hj hb
          have hji : j = i := by simpa using hj.symm
          rw [hji] at hb
          exact absurd hb (by simpa using hnb)
      · intro c' h
        rw [builtinLoop] at h
        split at h
        · simp only [nextF] at h
          split at h
          · simp at h
          · rename_i c2 hrec
            exact (ih (advance buf (i+1)) hnext.1).2 c2 hrec
          · simp at h
          · simp at h
        · simp at h


theorem parseTypeDecorations_inv {buf : List TokKind} (hwf : WFbuf buf) :
    ∀ fuel (c : Cursor), ValidC buf c →
      (∀ ds c' d, parseTypeDecorations buf fuel c = .ok ds c' d →
        d = [] ∧ RunOK buf c (ds.map (fun x => x.2)) c') ∧
      (∀ c', parseTypeDecorations buf fuel c ≠ .fail c') := by
  intro fuel
  induction fuel with
  | zero =>
    intro c hv
    exact ⟨fun ds c' d h => by simp [parseTypeDecorations] at h,
           fun c' h => by simp [parseTypeDecorations] at h⟩
  | succ fuel ih =>
    intro c hv
    constructor
    · intro ds c' d h
      rw [parseTypeDecorations] at h
      split at h
      · rename_i hcond
        have hcur : ∃ i, c = some i := by
          rcases (Bool.or_eq_true _ _).mp hcond with h' | h'
          · rcases (Bool.or_eq_true _ _).mp h' with h2 | h2 <;> exact checkKind_cursor h2
          · exact checkKind_cursor h'
        obtain ⟨i, rfl⟩ := hcur
        have hnext := runOK_advance hwf (hv i rfl)
        simp only [nextF] at h
        split at h
        · rename_i ds2 c2 d2 hrec
          have hrc := (ih (advance buf (i+1)) hnext.1).1 ds2 c2 d2 hrec
          simp only [PRes.ok.injEq] at h
          obtain ⟨rfl, rfl, rfl⟩ := h
          refine ⟨hrc.1, ?_⟩
          exact runOK_congr (by intro k; simp) (runOK_seq hnext hrc.2)
        · simp at h
        · simp at h
        · simp at h
      · simp only [PRes.ok.injEq] at h
        obtain ⟨rfl, rfl, rfl⟩ := h
        exact ⟨rfl, by simpa using runOK_rfl hv⟩
    · intro c' h
      rw [parseTypeDecorations] at h
      split at h
      · rename_i hcond
        have hcur : ∃ i, c = some i := by
          rcases (Bool.or_eq_true _ _).mp hcond with h' | h'
          · rcases (Bool.or_eq_true _ _).mp h' with h2 | h2 <;> exact checkKind_cursor h2
          · exact checkKind_cursor h'
        obtain ⟨i, rfl⟩ := hcur
        have hnext := runOK_advance hwf (hv i rfl)
        simp only [nextF] at h
        split at h
        · simp at h
        · rename_i c2 hrec
          exact (ih (advance buf (i+1)) hnext.1).2 c2 hrec
        · simp at h
        · simp at h
      · simp at h

theorem qidNames_inv {buf : List TokKind} (hwf : WFbuf buf) :
    ∀ fuel (c : Cursor) (first : Bool), ValidC buf c →
      ∀ ts c' d, qidNames buf fuel c first = .ok ts c' d →
        d = [] ∧ RunOK buf c ts c' ∧ pos buf c < pos buf c' := by
  intro fuel
  induction fuel with
  | zero =>
    intro c first hv ts c' d h
    simp [qidNames] at h
  | succ fuel ih =>
    intro c first hv ts c' d h
    rw [qidNames] at h
    split at h
    · -- leading ::
      rename_i hcc
      obtain ⟨i, rfl⟩ := checkKind_cursor hcc
      have hnext := runOK_advance hwf (hv i rfl)
      simp only [nextF] at h
      split at h
      · -- then an identifier
        rename_i hid
        obtain ⟨j, hj, _⟩ := checkKind_some hid
        rw [hj] at h
        have hvj : j < buf.length := hnext.1 j hj
        have hnext2 := runOK_advance hwf hvj
        rw [hj] at hnext
        simp only [nextF] at h
        split at h
        · -- another ::, recurse
          split at h
          · rename_i ts2 c2 d2 hrec
            have hrc := ih (advance buf (j+1)) false hnext2.1 ts2 c2 d2 hrec
            simp only [PRes.ok.injEq] at h
            obtain ⟨rfl, rfl, rfl⟩ := h
            have hseq := runOK_seq hnext (runOK_seq hnext2 hrc.2.1)
            refine ⟨hrc.1, runOK_congr (by intro k; simp) hseq, ?_⟩
            simpa [pos] using (hseq.2.2.1 i (by simp)).2
          · simp at h
          · simp at h
          · simp at h
        · -- stop after the identifier
          simp only [PRes.ok.injEq] at h
          obtain ⟨rfl, rfl, rfl⟩ := h
          have hseq := runOK_seq hnext hnext2
          refine ⟨rfl, runOK_congr (by intro k; simp) hseq, ?_⟩
          simpa [pos] using (hseq.2.2.1 i (by simp)).2
      · simp at h
    · -- no leading ::
      split at h
      · simp at h
      · -- first round, must see an identifier
        split at h
        · rename_i hid
          obtain ⟨i, rfl⟩ := checkKind_cursor hid
          have hnext := runOK_advance hwf (hv i rfl)
          simp only [nextF] at h
          split at h
          · -- :: after identifier, recurse
            split at h
            · rename_i ts2 c2 d2 hrec
              have hrc := ih (advance buf (i+1)) false hnext.1 ts2 c2 d2 hrec
              simp only [PRes.ok.injEq] at h
              obtain ⟨rfl, rfl, rfl⟩ := h
              have hseq := runOK_seq hnext hrc.2.1
              refine ⟨hrc.1, runOK_congr (by intro k; simp) hseq, ?_⟩
              simpa [pos] using (hseq.2.2.1 i (by simp)).2
            · simp at h
            · simp at h
            · simp at h
          · -- stop after the identifier
            simp only [PRes.ok.injEq] at h
            obtain ⟨rfl, rfl, rfl⟩ := h
            refine ⟨rfl, runOK_congr (by intro k; simp) hnext, ?_⟩
            simpa [pos] using (hnext.2.2.1 i (by simp)).2
        · simp at h

theorem fnSkip_inv {buf : List TokKind} (hwf : WFbuf buf) :
    ∀ fuel (c : Cursor), ValidC buf c →
      (∀ u c' d, fnSkip buf fuel c = .ok u c' d → RunOK buf c d c') ∧
      (∀ c', fnSkip buf fuel c ≠ .fail c') := by
  intro fuel
  induction fuel with
  | zero =>
    intro c hv
    exact ⟨fun u c' d h => by simp [fnSkip] at h, fun c' h => by simp [fnSkip] at h⟩
  | succ fuel ih =>
    intro c hv
    cases c with
    | none =>
      constructor
      · intro u c' d h
        rw [fnSkip] at h
        simp only [PRes.ok.injEq] at h
        obtain ⟨-, rfl, rfl⟩ := h
        exact runOK_rfl hv
      · intro c' h
        rw [fnSkip] at h
        simp at h
    | some i =>
      have hnext := runOK_advance hwf (hv i rfl)
      constructor
      · intro u c' d h
        rw [fnSkip] at h
        split at h
        · simp only [PRes.ok.injEq] at h
          obtain ⟨-, rfl, rfl⟩ := h
          exact runOK_rfl hv
        · simp only [nextF] at h
          split at h
          · rename_i u2 c2 d2 hrec
            have hrc := (ih (advance buf (i+1)) hnext.1).1 u2 c2 d2 hrec
            simp only [PRes.ok.injEq] at h
            obtain ⟨-, rfl, rfl⟩ := h
            exact runOK_congr (by intro k; simp) (runOK_seq hnext hrc)
          · simp at h
          · simp at h
          · simp at h
      · intro c' h
        rw [fnSkip] at h
        split at h
        · simp at h
        · simp only [nextF] at h
          split at h
          · simp at h
          · rename_i c2 hrec
            exact (ih (advance buf (i+1)) hnext.1).2 c2 hrec
          · simp at h
          · simp at h

theorem classSkip_inv {buf : List TokKind} (hwf : WFbuf buf) :
    ∀ fuel (c : Cursor), ValidC buf c →
      (∀ u c' d, classSkip buf fuel c = .ok u c' d → RunOK buf c d c') ∧
      (∀ c', classSkip buf fuel c ≠ .fail c') := by
  intro fuel
  induction fuel with
  | zero =>
    intro c hv
    exact ⟨fun u c' d h => by simp [classSkip] at h, fun c' h => by simp [classSkip] at h⟩
  | succ fuel ih =>
    intro c hv
    constructor
    · intro u c' d h
      rw [classSkip] at h
      split at h
      · simp only [PRes.ok.injEq] at h
        obtain ⟨-, rfl, rfl⟩ := h
        exact runOK_rfl hv
      · cases c with
        | none => simp [nextF] at h
        | some i =>
          have hnext := runOK_advance hwf (hv i rfl)
          simp only [nextF] at h
          split at h
          · rename_i u2 c2 d2 hrec
            have hrc := (ih (advance buf (i+1)) hnext.1).1 u2 c2 d2 hrec
            simp only [PRes.ok.injEq] at h
            obtain ⟨-, rfl, rfl⟩ := h
            exact runOK_congr (by intro k; simp) (runOK_seq hnext hrc)
          · simp at h
          · simp at h
          · simp at h
    · intro c' h
      rw [classSkip] at h
      split at h
      · simp at h
      · cases c with
        | none => simp [nextF] at h
        | some i =>
          have hnext := runOK_advance hwf (hv i rfl)
          simp only [nextF] at h
          split at h
          · simp at h
          · rename_i c2 hrec
            exact (ih (advance buf (i+1)) hnext.1).2 c2 hrec
          · simp at h
          · simp at h

theorem skipUnparsable_inv {buf : List TokKind} (hwf : WFbuf buf) :
    ∀ fuel (c : Cursor), ValidC buf c →
      (∀ ts c' d, skipUnparsable buf fuel c = .ok ts c' d →
        d = [] ∧ RunOK buf c ts c' ∧
        (∀ i, c = some i → ts ≠ [] ∧
          (c' = none ∨ ∃ t, ts.getLast? = some t ∧
            (kindAt buf t = .semi ∨ kindAt buf t = .r_brace ∨ kindAt buf t = .l_brace)))) ∧
      (∀ c', skipUnparsable buf fuel c ≠ .fail c') := by
  intro fuel
  induction fuel with
  | zero =>
    intro c hv
    exact ⟨fun ts c' d h => by simp [skipUnparsable] at h,
           fun c' h => by simp [skipUnparsable] at h⟩
  | succ fuel ih =>
    intro c hv
    cases c with
    | none =>
      constructor
      · intro ts c' d h
        rw [skipUnparsable] at h
        simp only [PRes.ok.injEq] at h
        obtain ⟨rfl, rfl, rfl⟩ := h
        exact ⟨rfl, runOK_rfl hv, fun i hi => by simp at hi⟩
      · intro c' h
        rw [skipUnparsable] at h
        simp at h
    | some i =>
      have hnext := runOK_advance hwf (hv i rfl)
      constructor
      · intro ts c' d h
        rw [skipUnparsable] at h
        simp only [nextF] at h
        split at h
        · -- boundary token: stop
          rename_i hbd
          simp only [PRes.ok.injEq] at h
          obtain ⟨rfl, rfl, rfl⟩ := h
          refine ⟨rfl, runOK_congr (by intro k; simp) hnext, ?_⟩
          intro j _
          exact ⟨by simp, Or.inr ⟨i, by simp, hbd⟩⟩
        · -- continue
          split at h
          · rename_i ts2 c2 d2 hrec
            have hrc := (ih (advance buf (i+1)) hnext.1).1 ts2 c2 d2 hrec
            simp only [PRes.ok.injEq] at h
            obtain ⟨rfl, rfl, rfl⟩ := h
            refine ⟨hrc.1, runOK_congr (by intro k; simp) (runOK_seq hnext hrc.2.1), ?_⟩
            intro j _
            refine ⟨by simp, ?_⟩
            rcases hadv : advance buf (i+1) with _ | a
            · rw [hadv] at hrec
              rcases fuel with _ | fuel2
              · simp [skipUnparsable] at hrec
              · rw [skipUnparsable] at hrec
                simp only [PRes.ok.injEq] at hrec
                obtain ⟨rfl, rfl, rfl⟩ := hrec
                exact Or.inl rfl
            · rw [hadv] at hrc
              obtain ⟨hne, hlast⟩ := hrc.2.2 a rfl
              rcases hlast with hnone | ⟨t, hl, hk⟩
              · exact Or.inl hnone
              · refine Or.inr ⟨t, ?_, hk⟩
                rcases ts2 with _ | ⟨x, xs⟩
                · exact absurd rfl hne
                · simpa [List.getLast?_cons_cons] using hl
          · simp at h
          · simp at h
          · simp at h
      · intro c' h
        rw [skipUnparsable] at h
        simp only [nextF] at h
        split at h
        · simp at h
        · split at h
          · simp at h
          · rename_i c2 hrec
            exact (ih (advance buf (i+1)) hnext.1).2 c2 hrec
          · simp at h
          · simp at h


/-! ### Claim theorems (concrete runs) -/

/-- C2: precedence grouping of `a op1 b op2 c` under `parseExpression`.
When the effective precedence of `op1` is strictly below that of `op2`
(both being binary operators for the oracle, with `.`/`->` at the
synthetic member-access rank), the result is the right-nested tree
`a op1 (b op2 c)`; at equal precedence it is the left-associated
`(a op1 b) op2 c`.  In particular `a->b.c` (both at the member-access
rank, above every oracle rank) parses with the `->` node as the left
child of the `.` node. -/
theorem C2_grouping :
    (∀ op1 op2 : TokKind, 1 ≤ effPrec op1 → 1 ≤ effPrec op2 →
      (effPrec op1 < effPrec op2 → c2ok1 (c2run op1 op2) = true) ∧
      (effPrec op1 = effPrec op2 → c2ok2 (c2run op1 op2) = true)) ∧
    parseExpression [.identifier, .arrow, .identifier, .period, .identifier, .eof]
        40 (some 0) 1 false =
      .ok (.binary (some (.binary (some (.declRef [0] [] [])) (some (.declRef [2] [] [])) 1))
        (some (.declRef [4] [] [])) 3) none [] := by
  refine ⟨?_, rfl⟩
  intro op1 op2 h1 h2
  have hrow := List.all_eq_true.mp c2check_all op1 (mem_allTokKinds op1)
  have hcell := List.all_eq_true.mp hrow op2 (mem_allTokKinds op2)
  rw [c2check, if_pos ⟨h1, h2⟩] at hcell
  constructor
  · intro hlt
    rwa [if_pos hlt] at hcell
  · intro heq
    rw [if_neg (by omega), if_pos heq] at hcell
    exact hcell

/-- Witness for C2 at `op1 = +` (additive), `op2 = *` (multiplicative):
`a + b * c` groups as `a + (b * c)`. -/
theorem C2_grouping_witness :
    1 ≤ effPrec TokKind.plus ∧ 1 ≤ effPrec TokKind.star ∧
    effPrec TokKind.plus < effPrec TokKind.star ∧
    c2ok1 (c2run TokKind.plus TokKind.star) = true :=
  ⟨by decide, by decide, by decide,
    (C2_grouping.1 TokKind.plus TokKind.star (by decide) (by decide)).1 (by decide)⟩

/-- C5 counterexample: on the S6 stream `int ; garble ) ; int y ;` the
parser does *not* produce two UnparsableBlocks followed by a DeclStmt —
`parseDeclStmt` accepts the leading `int ;` as a declarator-less
DeclStmt. -/
theorem C5_counterexample : c5shape (fuzzyparse s6buf 60) = false := by rfl

/-- C5 amended: the S6 stream parses to a declarator-less DeclStmt for
`int ;` (whose `int` token is dropped when the shared type node dies), an
UnparsableBlock for `garble ) ;`, and a DeclStmt for `int y;`. -/
theorem C5_recovery :
    fuzzyparse s6buf 60 =
      .ok [.declStmt [] [] 1,
           .unparsable [2, 3, 4],
           .declStmt [.mk (.mk [5] [] [] []) (some 6) none] [] 7] none [0] := by rfl

/-- C6 counterexample: on `f(a,)` the call-expression recognizer does not
fail; the loop re-checks `)` after consuming the comma and accepts. -/
theorem C6_counterexample :
    isFail (c6run .numeric_constant) = false ∧
    c6run .numeric_constant =
      .ok (.call (.declRef [0] [] []) 1 [some (.literal 2)] [3] 4) none [] :=
  ⟨by rfl, by rfl⟩

/-- C6 amended: for every literal-or-constant argument token `a`,
`parseCallExpr` on `f(a,)` succeeds, producing the CallExpr with the
single argument `a` and the trailing comma recorded. -/
theorem C6_trailing_comma :
    ∀ k : TokKind, isLiteralOrConstant k = true → c6ok (c6run k) = true := by
  intro k h
  cases k <;> first | rfl | exact absurd h (by decide)

/-- Witness for the amended C6 at `a = numeric_constant`. -/
theorem C6_trailing_comma_witness :
    isLiteralOrConstant TokKind.numeric_constant = true ∧
    c6ok (c6run TokKind.numeric_constant) = true :=
  ⟨by decide, C6_trailing_comma TokKind.numeric_constant (by decide)⟩

/-- C7 counterexample: on `/ 5 ;` the binary loop at the multiplicative
level consumes `/` with a failed (empty) left operand, parses `5` as the
right operand, and returns a `BinaryOperator` with a *null left operand*
instead of propagating the empty result. -/
theorem C7_counterexample :
    parseExpression [.slash, .numeric_constant, .semi, .eof] 60 (some 0) 1 false =
      .ok (.binary none (some (.literal 1)) 0) (some 2) [] ∧
    isFail (parseExpression [.slash, .numeric_constant, .semi, .eof] 60 (some 0) 1 false) =
      false :=
  ⟨by rfl, by rfl⟩

/-- C9 counterexample: the `TokenFilter` constructor does no filtering,
so when the first token of the buffer is a comment, `peek()` yields it. -/
theorem C9_counterexample :
    peek (initCursor [.comment, .identifier, .semi, .eof]) = some 0 ∧
    kindAt [.comment, .identifier, .semi, .eof] 0 = .comment :=
  ⟨by rfl, by rfl⟩

/-- C10: the null-dereference branch of `next()` is reachable.  On
`class A :` (truncated base clause) the base-clause skip loop
`while (!checkKind(l_brace)) TF.next();` runs with an exhausted cursor,
and on `f(a` the argument loop dereferences `TF.peek()` after the
argument with the cursor exhausted; both runs hit the null cursor. -/
theorem C10_null_deref :
    fuzzyparse [.kw_class, .identifier, .colon, .eof] 60 = .crash ∧
    fuzzyparse [.identifier, .l_paren, .numeric_constant, .eof] 60 = .crash :=
  ⟨by rfl, by rfl⟩

/-- C3 counterexample: the non-empty buffer `return` (then eof) makes
`parseReturnStmt` call `parseExpression` on the exhausted cursor, which
dereferences null at the primary level: `fuzzyparse` does not return a
TranslationUnit at all. -/
theorem C3_counterexample :
    fuzzyparse [.kw_return, .eof] 60 = .crash ∧
    ([.kw_return, .eof] : List TokKind) ≠ [] :=
  ⟨by rfl, by simp⟩

/-- C1 counterexample: on `int f ( ) const ;` the parse succeeds, but the
`const` token (index 4) — consumed by `parseFunctionDecl`'s
post-parameter-list skip — is claimed by no node of the returned AST: it
is in the dropped set instead. -/
theorem C1_counterexample :
    fuzzyparse c1buf 60 =
      .ok [.funcDecl [] (some (.mk [0] [] [] [])) (some 1) 2 [] [] 3 [5] none] none [4] ∧
    kindAt c1buf 4 = .kw_const ∧
    4 ∉ claimsSs [.funcDecl [] (some (.mk [0] [] [] [])) (some 1) 2 [] [] 3 [5] none] :=
  ⟨by rfl, by rfl, by decide⟩

theorem exprInv_zero (buf : List TokKind) : ExprInv buf 0 :=
  ⟨fun c prec stop _ =>
    ⟨fun e c' d h => by simp [parseExpression] at h,
     fun c' h => by simp [parseExpression] at h⟩,
   fun c prec stop lo pend _ _ =>
    ⟨fun e c' d h => by simp [parseExprLoop] at h,
     fun c' h => by simp [parseExprLoop] at h⟩,
   fun c _ =>
    ⟨fun e c' d h => by simp [parseUnaryOperator] at h,
     fun c' h => by simp [parseUnaryOperator] at h⟩,
   fun c callee _ _ =>
    ⟨fun e c' d h => by simp [parseCallExpr] at h,
     fun c' h => by simp [parseCallExpr] at h⟩,
   fun c _ =>
    ⟨fun args cms c' d h => by simp [parseCallArgs] at h,
     fun c' h => by simp [parseCallArgs] at h⟩,
   fun c _ =>
    ⟨fun q s ta c' d h => by simp [parseQualifiedID] at h,
     fun c' h => by simp [parseQualifiedID] at h⟩,
   fun c isF _ =>
    ⟨fun seps tas c' d h => by simp [qidTargs] at h,
     fun c' h => by simp [qidTargs] at h⟩,
   fun c w _ =>
    ⟨fun t c' d h => by simp [parseType] at h,
     fun c' h => by simp [parseType] at h⟩,
   fun c0 quals seps tas c2 d2 w _ =>
    ⟨fun t c' d h => by simp [parseTypeSuffix] at h,
     fun c' h => by simp [parseTypeSuffix] at h⟩,
   fun c shared nameOpt _ =>
    ⟨fun h1 vd c' d h => by simp [parseVarDecl] at h,
     fun tn h1 h2 vd c' d h => by simp [parseVarDecl] at h,
     fun c' h => by simp [parseVarDecl] at h⟩,
   fun c0 tn c1 dAcc nameOpt _ =>
    ⟨fun vd c' d h => by simp [parseVarDeclRest] at h,
     fun c' h => by simp [parseVarDeclRest] at h⟩,
   fun c0 vt nm c3 dAcc _ =>
    ⟨fun vd c' d h => by simp [parseVarDeclInit] at h,
     fun c' h => by simp [parseVarDeclInit] at h⟩⟩

theorem mem_claimsT_clone {tn : TypeNode} {k : Nat}
    (h : k ∈ claimsT (cloneNoDecor tn)) : k ∈ claimsT tn := by
  cases tn with
  | mk q s ta d =>
    simp [cloneNoDecor, claimsT] at h ⊢
    tauto

theorem clone_eq_of_decorToks_nil {tn : TypeNode} (h : decorToks tn = []) :
    cloneNoDecor tn = tn := by
  cases tn with
  | mk q s ta d =>
    simp [decorToks] at h
    simp [cloneNoDecor, h]

theorem mem_claimsT_setDecors_clone {tn : TypeNode} {ds : List (DecorClass × Nat)} {k : Nat} :
    k ∈ claimsT (setDecors (cloneNoDecor tn) ds) ↔
      k ∈ claimsT (cloneNoDecor tn) ∨ k ∈ ds.map (fun x => x.2) := by
  cases tn with
  | mk q s ta d =>
    simp [setDecors, cloneNoDecor, claimsT]
    tauto

theorem step_parseUnaryOperator {buf : List TokKind} (hwf : WFbuf buf) {fuel : Nat}
    (ih : ExprInv buf fuel) :
    ∀ c, ValidC buf c →
      (∀ e c' d, parseUnaryOperator buf (fuel+1) c = .ok e c' d →
        RunOK buf c (claimsE e ++ d) c' ∧ pos buf c < pos buf c' ∧ goodE e = true) ∧
      (∀ c', parseUnaryOperator buf (fuel+1) c = .fail c' → FailOK buf c c') := by
  obtain ⟨ihPE, ihPL, ihPU, ihPC, ihPA, ihPQ, ihPT, ihTy, ihTS, ihPV, ihVR, ihVI⟩ := ih
  intro c hv
  constructor
  · intro e c' d h
    rw [parseUnaryOperator] at h
    split at h
    · rename_i hcond
      have hcur : ∃ i, c = some i := by
        cases c with
        | none => simp [checkKind] at hcond
        | some i => exact ⟨i, rfl⟩
      obtain ⟨i, rfl⟩ := hcur
      have hnext := runOK_advance hwf (hv i rfl)
      simp only [nextF] at h
      split at h
      · rename_i v c2 d2 hrec
        have hrc := (ihPU (advance buf (i+1)) hnext.1).1 v c2 d2 hrec
        simp only [PRes.ok.injEq] at h
        obtain ⟨rfl, rfl, rfl⟩ := h
        have hseq := runOK_seq hnext hrc.1
        refine ⟨?_, ?_, ?_⟩
        · exact runOK_congr (by intro k; simp [claimsE, claimsOE]) hseq
        · simpa [pos] using (hseq.2.2.1 i (by simp)).2
        · simpa [goodE, goodOE] using hrc.2.2
      · rename_i c2 hrec
        have hfo := (ihPU (advance buf (i+1)) hnext.1).2 c2 hrec
        simp only [PRes.ok.injEq] at h
        obtain ⟨rfl, rfl, rfl⟩ := h
        have hseq := runOK_seq hnext (runOK_range hfo.1 hfo.2)
        refine ⟨?_, ?_, ?_⟩
        · exact runOK_congr (by intro k; simp [claimsE, claimsOE]) hseq
        · simpa [pos] using (hseq.2.2.1 i (by simp)).2
        · simp [goodE, goodOE]
      · simp at h
      · simp at h
    · exact ((ihPE c PrecedenceArrowAndPeriod false hv).1 e c' d h)
  · intro c' h
    rw [parseUnaryOperator] at h
    split at h
    · rename_i hcond
      have hcur : ∃ i, c = some i := by
        cases c with
        | none => simp [checkKind] at hcond
        | some i => exact ⟨i, rfl⟩
      obtain ⟨i, rfl⟩ := hcur
      simp only [nextF] at h
      split at h <;> simp at h
    · exact (ihPE c PrecedenceArrowAndPeriod false hv).2 c' h

theorem step_parseQualifiedID {buf : List TokKind} (hwf : WFbuf buf) {fuel : Nat}
    (ih : ExprInv buf fuel) :
    ∀ c, ValidC buf c →
      (∀ q s ta c' d, parseQualifiedID buf (fuel+1) c = .ok (q, s, ta) c' d →
        RunOK buf c (q ++ s ++ claimsTAs ta ++ d) c' ∧ pos buf c < pos buf c' ∧
          goodTAs ta = true) ∧
      (∀ c', parseQualifiedID buf (fuel+1) c = .fail c' → c' = c) := by
  obtain ⟨ihPE, ihPL, ihPU, ihPC, ihPA, ihPQ, ihQT, ihTy, ihTS, ihPV, ihVR, ihVI⟩ := ih
  intro c hv
  constructor
  · intro q s ta c' d h
    rw [parseQualifiedID] at h
    split at h
    · rename_i names c1 d1 hqn
      obtain ⟨rfl, hrn, hstrict⟩ := qidNames_inv hwf fuel c true hv names c1 d1 hqn
      split at h
      · rename_i hless
        split at h
        · rename_i seps tas c2 d2 hqt
          have hqtr := (ihQT c1 true hrn.1).1 seps tas c2 d2 hqt
          split at h
          · rename_i hg
            obtain ⟨j, rfl⟩ := checkKind_cursor hg
            simp only [nextF] at h
            simp only [PRes.ok.injEq, Prod.mk.injEq] at h
            obtain ⟨⟨rfl, rfl, rfl⟩, rfl, rfl⟩ := h
            have hadv := runOK_advance hwf (hqtr.1.1 j rfl)
            have htail := runOK_seq hqtr.1 hadv
            refine ⟨?_, lt_of_lt_of_le hstrict htail.2.1, hqtr.2⟩
            exact runOK_congr (by intro k; simp; tauto) (runOK_seq hrn htail)
          · simp at h
        · simp at h
        · simp at h
        · simp at h
      · simp only [PRes.ok.injEq, Prod.mk.injEq] at h
        obtain ⟨⟨rfl, rfl, rfl⟩, rfl, rfl⟩ := h
        refine ⟨?_, hstrict, rfl⟩
        exact runOK_congr (by intro k; simp [claimsTAs]) hrn
    · simp at h
    · simp at h
    · simp at h
  · intro c' h
    rw [parseQualifiedID] at h
    split at h
    · rename_i names c1 d1 hqn
      split at h
      · split at h
        · rename_i seps tas c2 d2 hqt
          split at h
          · rename_i hg
            obtain ⟨j, rfl⟩ := checkKind_cursor hg
            simp only [nextF] at h
            simp at h
          · simp only [PRes.fail.injEq] at h
            exact h.symm
        · simp only [PRes.fail.injEq] at h
          exact h.symm
        · simp at h
        · simp at h
      · simp at h
    · simp only [PRes.fail.injEq] at h
      exact h.symm
    · simp at h
    · simp at h

theorem step_qidTargs {buf : List TokKind} (hwf : WFbuf buf) {fuel : Nat}
    (ih : ExprInv buf fuel) :
    ∀ c isF, ValidC buf c →
      (∀ seps tas c' d, qidTargs buf (fuel+1) c isF = .ok (seps, tas) c' d →
        RunOK buf c (seps ++ claimsTAs tas ++ d) c' ∧ goodTAs tas = true) ∧
      (∀ c', qidTargs buf (fuel+1) c isF = .fail c' → FailOK buf c c') := by
  obtain ⟨ihPE, ihPL, ihPU, ihPC, ihPA, ihPQ, ihQT, ihTy, ihTS, ihPV, ihVR, ihVI⟩ := ih
  intro c isF hv
  constructor
  · intro seps tas c' d h
    rw [qidTargs] at h
    cases c with
    | none => simp only [nextF] at h; simp at h
    | some i =>
      simp only [nextF] at h
      have hadv := runOK_advance hwf (hv i rfl)
      split at h
      · simp only [PRes.ok.injEq, Prod.mk.injEq] at h
        obtain ⟨⟨rfl, rfl⟩, rfl, rfl⟩ := h
        exact ⟨runOK_congr (by intro k; simp [claimsTAs]) hadv, rfl⟩
      · split at h
        · rename_i t c2 d2 ht
          have hty := (ihTy (advance buf (i+1)) true hadv.1).1 t c2 d2 ht
          split at h
          · split at h
            · rename_i seps2 tas2 c3 d3 hq
              have hqr := (ihQT c2 false hty.1.1).1 seps2 tas2 c3 d3 hq
              simp only [PRes.ok.injEq, Prod.mk.injEq] at h
              obtain ⟨⟨rfl, rfl⟩, rfl, rfl⟩ := h
              have hseq := runOK_seq hadv (runOK_seq hty.1 hqr.1)
              refine ⟨runOK_congr (by intro k; simp [claimsTAs, claimsTA]; tauto) hseq, ?_⟩
              simp [goodTAs, goodTA, hty.2.2.1, hqr.2]
            · simp at h
            · simp at h
            · simp at h
          · simp only [PRes.ok.injEq, Prod.mk.injEq] at h
            obtain ⟨⟨rfl, rfl⟩, rfl, rfl⟩ := h
            have hseq := runOK_seq hadv hty.1
            refine ⟨runOK_congr (by intro k; simp [claimsTAs, claimsTA]) hseq, ?_⟩
            simp [goodTAs, goodTA, hty.2.2.1]
        · split at h
          · rename_i e c2 d2 he
            have hpe := (ihPE (advance buf (i+1)) 2 true hadv.1).1 e c2 d2 he
            split at h
            · split at h
              · rename_i seps2 tas2 c3 d3 hq
                have hqr := (ihQT c2 false hpe.1.1).1 seps2 tas2 c3 d3 hq
                simp only [PRes.ok.injEq, Prod.mk.injEq] at h
                obtain ⟨⟨rfl, rfl⟩, rfl, rfl⟩ := h
                have hseq := runOK_seq hadv (runOK_seq hpe.1 hqr.1)
                refine ⟨runOK_congr (by intro k; simp [claimsTAs, claimsTA]; tauto) hseq, ?_⟩
                simp [goodTAs, goodTA, hpe.2.2, hqr.2]
              · simp at h
              · simp at h
              · simp at h
            · simp only [PRes.ok.injEq, Prod.mk.injEq] at h
              obtain ⟨⟨rfl, rfl⟩, rfl, rfl⟩ := h
              have hseq := runOK_seq hadv hpe.1
              refine ⟨runOK_congr (by intro k; simp [claimsTAs, claimsTA]) hseq, ?_⟩
              simp [goodTAs, goodTA, hpe.2.2]
          · simp at h
          · simp at h
          · simp at h
        · simp at h
        · simp at h
  · intro c' h
    rw [qidTargs] at h
    cases c with
    | none => simp only [nextF] at h; simp at h
    | some i =>
      simp only [nextF] at h
      have hadv := runOK_advance hwf (hv i rfl)
      split at h
      · simp at h
      · split at h
        · rename_i t c2 d2 ht
          have hty := (ihTy (advance buf (i+1)) true hadv.1).1 t c2 d2 ht
          split at h
          · split at h
            · simp at h
            · rename_i c3 hq
              simp only [PRes.fail.injEq] at h
              subst h
              have hqf := (ihQT c2 false hty.1.1).2 c3 hq
              exact ⟨hqf.1, le_trans hadv.2.1 (le_trans hty.1.2.1 hqf.2)⟩
            · simp at h
            · simp at h
          · simp at h
        · split at h
          · rename_i e c2 d2 he
            have hpe := (ihPE (advance buf (i+1)) 2 true hadv.1).1 e c2 d2 he
            split at h
            · split at h
              · simp at h
              · rename_i c3 hq
                simp only [PRes.fail.injEq] at h
                subst h
                have hqf := (ihQT c2 false hpe.1.1).2 c3 hq
                exact ⟨hqf.1, le_trans hadv.2.1 (le_trans hpe.1.2.1 hqf.2)⟩
              · simp at h
              · simp at h
            · simp at h
          · rename_i c2 htf
            simp only [PRes.fail.injEq] at h
            subst h
            have hfe := (ihPE (advance buf (i+1)) 2 true hadv.1).2 c2 htf
            exact ⟨hfe.1, le_trans hadv.2.1 hfe.2⟩
          · simp at h
          · simp at h
        · simp at h
        · simp at h

theorem runOK_absorb {buf : List TokKind} {c c2 c' : Cursor} {s s2 : List Nat}
    (h1 : RunOK buf c s c2)
    (hv' : ValidC buf c') (hle : pos buf c2 ≤ pos buf c')
    (hbnd : ∀ k, k ∈ s2 → k ∈ s ∨ (pos buf c2 ≤ k ∧ k < pos buf c'))
    (hpres : ∀ k, k ∈ s → k ∈ s2)
    (hcov : ∀ k, pos buf c2 ≤ k → k < pos buf c' → realTok buf k → k ∈ s2) :
    RunOK buf c s2 c' := by
  refine ⟨hv', le_trans h1.2.1 hle, ?_, ?_⟩
  · intro k hk
    rcases hbnd k hk with hk1 | hk1
    · exact ⟨(h1.2.2.1 k hk1).1, lt_of_lt_of_le (h1.2.2.1 k hk1).2 hle⟩
    · exact ⟨le_trans h1.2.1 hk1.1, hk1.2⟩
  · intro k hk1 hk2 hr
    by_cases hmid : k < pos buf c2
    · exact hpres k (h1.2.2.2 k hk1 hmid hr)
    · exact hcov k (by omega) hk2 hr

theorem step_parseTypeSuffix {buf : List TokKind} (hwf : WFbuf buf) {fuel : Nat} :
    ∀ c0 quals seps tas c2 d2 w, ValidC buf c2 →
      (∀ t c' d, parseTypeSuffix buf (fuel+1) c0 quals seps tas c2 d2 w = .ok t c' d →
        ValidC buf c' ∧ pos buf c2 ≤ pos buf c' ∧ d = d2 ∧
        (∀ k, k ∈ claimsT t → k ∈ quals ++ seps ++ claimsTAs tas ∨
          (pos buf c2 ≤ k ∧ k < pos buf c')) ∧
        (∀ k, k ∈ quals ++ seps ++ claimsTAs tas → k ∈ claimsT t) ∧
        (∀ k, pos buf c2 ≤ k → k < pos buf c' → realTok buf k → k ∈ claimsT t) ∧
        (goodTAs tas = true → goodT t = true) ∧
        (w = false → decorToks t = [])) ∧
      (∀ c', parseTypeSuffix buf (fuel+1) c0 quals seps tas c2 d2 w ≠ .fail c') := by
  intro c0 quals seps tas c2 d2 w hv
  constructor
  · intro t c' d h
    rw [parseTypeSuffix] at h
    split at h
    · rename_i cv2 c3 dcv hcv
      obtain ⟨-, hrcv⟩ := (cvQualLoop_inv hwf fuel c2 hv).1 cv2 c3 dcv hcv
      split at h
      · rename_i hwt
        split at h
        · rename_i ds c4 dd hdec
          obtain ⟨-, hrd⟩ := (parseTypeDecorations_inv hwf fuel c3 hrcv.1).1 ds c4 dd hdec
          simp only [PRes.ok.injEq] at h
          obtain ⟨rfl, rfl, rfl⟩ := h
          have hseq := runOK_seq hrcv hrd
          refine ⟨hseq.1, hseq.2.1, rfl, ?_, ?_, ?_, ?_, ?_⟩
          · intro k hk
            simp only [claimsT, List.mem_append] at hk
            rcases hk with (((hk | hk) | hk) | hk) | hk
            · exact Or.inl (by simp [hk])
            · exact Or.inr (hseq.2.2.1 k (by simp [hk]))
            · exact Or.inl (by simp [hk])
            · exact Or.inl (by simp [hk])
            · exact Or.inr (hseq.2.2.1 k (by simp [hk]))
          · intro k hk
            simp only [List.mem_append] at hk
            simp only [claimsT, List.mem_append]
            tauto
          · intro k hk1 hk2 hr
            have := hseq.2.2.2 k hk1 hk2 hr
            simp only [List.mem_append] at this
            simp only [claimsT, List.mem_append]
            tauto
          · intro hg
            simpa [goodT] using hg
          · intro hw
            rw [hw] at hwt
            simp at hwt
        · simp at h
        · simp at h
        · simp at h
      · simp only [PRes.ok.injEq] at h
        obtain ⟨rfl, rfl, rfl⟩ := h
        refine ⟨hrcv.1, hrcv.2.1, rfl, ?_, ?_, ?_, ?_, ?_⟩
        · intro k hk
          simp only [claimsT, List.mem_append, List.map_nil] at hk
          rcases hk with (((hk | hk) | hk) | hk) | hk
          · exact Or.inl (by simp [hk])
          · exact Or.inr (hrcv.2.2.1 k hk)
          · exact Or.inl (by simp [hk])
          · exact Or.inl (by simp [hk])
          · simp at hk
        · intro k hk
          simp only [List.mem_append] at hk
          simp only [claimsT, List.mem_append]
          tauto
        · intro k hk1 hk2 hr
          have := hrcv.2.2.2 k hk1 hk2 hr
          simp only [claimsT, List.mem_append]
          tauto
        · intro hg
          simpa [goodT] using hg
        · intro hw
          simp [decorToks]
    · simp at h
    · simp at h
    · simp at h
  · intro c' h
    rw [parseTypeSuffix] at h
    split at h
    · rename_i cv2 c3 dcv hcv
      obtain ⟨-, hrcv⟩ := (cvQualLoop_inv hwf fuel c2 hv).1 cv2 c3 dcv hcv
      split at h
      · split at h
        · simp at h
        · rename_i c4 hdec
          exact (parseTypeDecorations_inv hwf fuel c3 hrcv.1).2 c4 hdec
        · simp at h
        · simp at h
      · simp at h
    · rename_i c3 hcv
      exact (cvQualLoop_inv hwf fuel c2 hv).2 c3 hcv
    · simp at h
    · simp at h

theorem step_parseType {buf : List TokKind} (hwf : WFbuf buf) {fuel : Nat}
    (ih : ExprInv buf fuel) :
    ∀ c w, ValidC buf c →
      (∀ t c' d, parseType buf (fuel+1) c w = .ok t c' d →
        RunOK buf c (claimsT t ++ d) c' ∧ pos buf c < pos buf c' ∧ goodT t = true ∧
        (w = false → decorToks t = [])) ∧
      (∀ c', parseType buf (fuel+1) c w = .fail c' → c' = c) := by
  obtain ⟨ihPE, ihPL, ihPU, ihPC, ihPA, ihPQ, ihQT, ihTy, ihTS, ihPV, ihVR, ihVI⟩ := ih
  intro c w hv
  constructor
  · intro t c' d h
    rw [parseType] at h
    split at h
    · rename_i cv1 c1 dcv hcv
      obtain ⟨-, hrcv⟩ := (cvQualLoop_inv hwf fuel c hv).1 cv1 c1 dcv hcv
      split at h
      · rename_i hauto
        obtain ⟨i, rfl, hki⟩ := checkKind_some hauto
        simp only [nextF] at h
        have hadv := runOK_advance hwf (hrcv.1 i rfl)
        have hpre := runOK_seq hrcv hadv
        obtain ⟨hv', hle, rfl, hbnd, hpres, hcov, hgood, hdec⟩ :=
          (ihTS c (cv1 ++ [i]) [] [] (advance buf (i+1)) [] w hadv.1).1 t c' d h
        have hi : i < pos buf (advance buf (i+1)) := by
          simpa [pos] using (hadv.2.2.1 i (by simp)).2
        refine ⟨?_, ?_, hgood rfl, hdec⟩
        · refine runOK_absorb hpre hv' hle ?_ ?_ ?_
          · intro k hk
            simp only [List.append_nil] at hk
            exact (hbnd k hk).imp (fun h2 => by simpa [claimsTAs] using h2) id
          · intro k hk
            simp only [List.append_nil]
            exact hpres k (by simpa [claimsTAs] using hk)
          · intro k hk1 hk2 hr
            simp only [List.append_nil]
            exact hcov k hk1 hk2 hr
        · have h1 : pos buf c ≤ i := by simpa [pos] using hrcv.2.1
          omega
      · split at h
        · rename_i hbt
          split at h
          · rename_i bts c2 dbt hbl
            obtain ⟨-, hrbl, hstr⟩ := (builtinLoop_inv hwf fuel c1 hrcv.1).1 bts c2 dbt hbl
            obtain ⟨i, rfl, hki⟩ : ∃ i, c1 = some i ∧ isBuiltinType (kindAt buf i) = true := by
              cases c1 with
              | none => simp at hbt
              | some i => exact ⟨i, rfl, hbt⟩
            have hpre := runOK_seq hrcv hrbl
            obtain ⟨hv', hle, rfl, hbnd, hpres, hcov, hgood, hdec⟩ :=
              (ihTS c (cv1 ++ bts) [] [] c2 [] w hrbl.1).1 t c' d h
            refine ⟨?_, ?_, hgood rfl, hdec⟩
            · refine runOK_absorb hpre hv' hle ?_ ?_ ?_
              · intro k hk
                simp only [List.append_nil] at hk
                exact (hbnd k hk).imp (fun h2 => by simpa [claimsTAs] using h2) id
              · intro k hk
                simp only [List.append_nil]
                exact hpres k (by simpa [claimsTAs] using hk)
              · intro k hk1 hk2 hr
                simp only [List.append_nil]
                exact hcov k hk1 hk2 hr
            · have h1 : pos buf c ≤ pos buf (some i) := hrcv.2.1
              have h2 := hstr i rfl hki
              omega
          · simp at h
          · simp at h
          · simp at h
        · split at h
          · rename_i q s ta c2 dq hpq
            obtain ⟨hrq, hqlt, hqgood⟩ := (ihPQ c1 hrcv.1).1 q s ta c2 dq hpq
            have hpre := runOK_seq hrcv hrq
            obtain ⟨hv', hle, rfl, hbnd, hpres, hcov, hgood, hdec⟩ :=
              (ihTS c (cv1 ++ q) s ta c2 dq w hrq.1).1 t c' d h
            refine ⟨?_, ?_, hgood hqgood, hdec⟩
            · refine runOK_absorb hpre hv' hle ?_ ?_ ?_
              · intro k hk
                rcases List.mem_append.mp hk with hk | hk
                · exact (hbnd k hk).imp (fun h2 => by
                    simp only [List.mem_append] at h2 ⊢
                    tauto) id
                · exact Or.inl (by simp [hk])
              · intro k hk
                simp only [List.mem_append] at hk
                rcases hk with hk | (((hk | hk) | hk) | hk)
                · exact List.mem_append.mpr (Or.inl (hpres k (by simp [hk])))
                · exact List.mem_append.mpr (Or.inl (hpres k (by simp [hk])))
                · exact List.mem_append.mpr (Or.inl (hpres k (by simp [hk])))
                · exact List.mem_append.mpr (Or.inl (hpres k (by simp [hk])))
                · exact List.mem_append.mpr (Or.inr hk)
              · intro k hk1 hk2 hr
                exact List.mem_append.mpr (Or.inl (hcov k hk1 hk2 hr))
            · exact lt_of_le_of_lt hrcv.2.1 (lt_of_lt_of_le hqlt hle)
          · simp at h
          · simp at h
          · simp at h
    · simp at h
    · simp at h
    · simp at h
  · intro c' h
    rw [parseType] at h
    split at h
    · rename_i cv1 c1 dcv hcv
      obtain ⟨-, hrcv⟩ := (cvQualLoop_inv hwf fuel c hv).1 cv1 c1 dcv hcv
      split at h
      · rename_i hauto
        obtain ⟨i, rfl, hki⟩ := checkKind_some hauto
        simp only [nextF] at h
        exact absurd h ((ihTS c (cv1 ++ [i]) [] [] (advance buf (i+1)) []
          w (runOK_advance hwf (hrcv.1 i rfl)).1).2 c')
      · split at h
        · split at h
          · rename_i bts c2 dbt hbl
            obtain ⟨-, hrbl, -⟩ := (builtinLoop_inv hwf fuel c1 hrcv.1).1 bts c2 dbt hbl
            exact absurd h ((ihTS c (cv1 ++ bts) [] [] c2 [] w hrbl.1).2 c')
          · rename_i c2 hbl
            exact absurd hbl (fun h2 => (builtinLoop_inv hwf fuel c1 hrcv.1).2 c2 h2)
          · simp at h
          · simp at h
        · split at h
          · rename_i q s ta c2 dq hpq
            obtain ⟨hrq, -, -⟩ := (ihPQ c1 hrcv.1).1 q s ta c2 dq hpq
            exact absurd h ((ihTS c (cv1 ++ q) s ta c2 dq w hrq.1).2 c')
          · simp only [PRes.fail.injEq] at h
            exact h.symm
          · simp at h
          · simp at h
    · rename_i c1 hcv
      exact absurd hcv (fun h2 => (cvQualLoop_inv hwf fuel c hv).2 c1 h2)
    · simp at h
    · simp at h

theorem mem_claimsT_split {tn : TypeNode} {k : Nat} :
    k ∈ claimsT tn ↔ k ∈ claimsT (cloneNoDecor tn) ∨ k ∈ decorToks tn := by
  cases tn with
  | mk q s ta d =>
    simp [claimsT, cloneNoDecor, decorToks]
    tauto

theorem step_parseVarDeclInit {buf : List TokKind} (hwf : WFbuf buf) {fuel : Nat}
    (ih : ExprInv buf fuel) :
    ∀ c0 vt nm c3 dAcc, ValidC buf c3 →
      (∀ vd c' d, parseVarDeclInit buf (fuel+1) c0 vt nm c3 dAcc = .ok vd c' d →
        ValidC buf c' ∧ pos buf c3 ≤ pos buf c' ∧ (∃ dr, d = dAcc ++ dr) ∧
        (∀ k, k ∈ claimsVD vd ++ d → k ∈ claimsT vt ++ claimsON nm ++ dAcc ∨
          (pos buf c3 ≤ k ∧ k < pos buf c')) ∧
        (∀ k, k ∈ claimsT vt ++ claimsON nm → k ∈ claimsVD vd) ∧
        (∀ k, pos buf c3 ≤ k → k < pos buf c' → realTok buf k → k ∈ claimsVD vd ++ d)) ∧
      (∀ c', parseVarDeclInit buf (fuel+1) c0 vt nm c3 dAcc = .fail c' → c' = c0) := by
  obtain ⟨ihPE, ihPL, ihPU, ihPC, ihPA, ihPQ, ihQT, ihTy, ihTS, ihPV, ihVR, ihVI⟩ := ih
  intro c0 vt nm c3 dAcc hv
  constructor
  · intro vd c' d h
    rw [parseVarDeclInit] at h
    split at h
    · rename_i heq
      obtain ⟨i, rfl, hki⟩ := checkKind_some heq
      simp only [nextF] at h
      have hadv := runOK_advance hwf (hv i rfl)
      split at h
      · rename_i v c5 d5 hpe
        have hr := (ihPE (advance buf (i+1)) 2 false hadv.1).1 v c5 d5 hpe
        simp only [PRes.ok.injEq] at h
        obtain ⟨rfl, rfl, rfl⟩ := h
        have hseq := runOK_seq hadv hr.1
        refine ⟨hseq.1, hseq.2.1, ⟨d5, rfl⟩, ?_, ?_, ?_⟩
        · intro k hk
          simp only [claimsVD, claimsOVI, List.mem_append, List.mem_cons] at hk
          rcases hk with ((hk | hk) | (hk | hk)) | (hk | hk)
          · exact Or.inl (by simp [hk])
          · exact Or.inl (by simp [hk])
          · exact Or.inr (hseq.2.2.1 k (by simp [hk]))
          · exact Or.inr (hseq.2.2.1 k (by simp [hk]))
          · exact Or.inl (by simp [hk])
          · exact Or.inr (hseq.2.2.1 k (by simp [hk]))
        · intro k hk
          simp only [List.mem_append] at hk
          simp only [claimsVD, claimsOVI, List.mem_append, List.mem_cons]
          tauto
        · intro k h1 h2 hr2
          have := hseq.2.2.2 k h1 h2 hr2
          simp only [List.mem_append, List.mem_cons] at this
          simp only [claimsVD, claimsOVI, List.mem_append, List.mem_cons]
          tauto
      · simp at h
      · simp at h
      · simp at h
    · simp only [PRes.ok.injEq] at h
      obtain ⟨rfl, rfl, rfl⟩ := h
      refine ⟨hv, le_rfl, ⟨[], by simp⟩, ?_, ?_, ?_⟩
      · intro k hk
        simp only [claimsVD, claimsOVI, claimsON, List.mem_append] at hk
        refine Or.inl ?_
        simp only [List.mem_append]
        tauto
      · intro k hk
        simp only [List.mem_append] at hk
        simp only [claimsVD, claimsOVI, List.mem_append]
        tauto
      · intro k h1 h2 hr2
        exact absurd (lt_of_le_of_lt h1 h2) (lt_irrefl _)
  · intro c' h
    rw [parseVarDeclInit] at h
    split at h
    · rename_i heq
      obtain ⟨i, rfl, hki⟩ := checkKind_some heq
      simp only [nextF] at h
      split at h
      · simp at h
      · simp only [PRes.fail.injEq] at h
        exact h.symm
      · simp at h
      · simp at h
    · simp at h

theorem step_parseVarDeclRest {buf : List TokKind} (hwf : WFbuf buf) {fuel : Nat}
    (ih : ExprInv buf fuel) :
    ∀ c0 tn c1 dAcc nameOpt, ValidC buf c1 →
      (∀ vd c' d, parseVarDeclRest buf (fuel+1) c0 tn c1 dAcc nameOpt = .ok vd c' d →
        ValidC buf c' ∧ pos buf c1 ≤ pos buf c' ∧ (∃ dr, d = dAcc ++ dr) ∧
        (∀ k, k ∈ claimsVD vd ++ d → k ∈ claimsT (cloneNoDecor tn) ++ dAcc ∨
          (pos buf c1 ≤ k ∧ k < pos buf c')) ∧
        (∀ k, k ∈ claimsT (cloneNoDecor tn) → k ∈ claimsVD vd) ∧
        (∀ k, pos buf c1 ≤ k → k < pos buf c' → realTok buf k → k ∈ claimsVD vd ++ d)) ∧
      (∀ c', parseVarDeclRest buf (fuel+1) c0 tn c1 dAcc nameOpt = .fail c' → c' = c0) := by
  obtain ⟨ihPE, ihPL, ihPU, ihPC, ihPA, ihPQ, ihQT, ihTy, ihTS, ihPV, ihVR, ihVI⟩ := ih
  intro c0 tn c1 dAcc nameOpt hv
  constructor
  · intro vd c' d h
    rw [parseVarDeclRest] at h
    split at h
    · rename_i ds c2 ddd hdec
      obtain ⟨-, hrd⟩ := (parseTypeDecorations_inv hwf fuel c1 hv).1 ds c2 ddd hdec
      simp only [] at h
      split at h
      · rename_i hid
        obtain ⟨j, rfl, hkj⟩ := checkKind_some hid
        simp only [nextF] at h
        have hadv := runOK_advance hwf (hrd.1 j rfl)
        obtain ⟨hv', hle, hdr, hbnd, hpres, hcov⟩ :=
          (ihVI c0 (setDecors (cloneNoDecor tn) ds) (some j) (advance buf (j+1))
            dAcc hadv.1).1 vd c' d h
        have hj1 : pos buf c1 ≤ j := by simpa [pos] using hrd.2.1
        have hj2 : j < pos buf (advance buf (j+1)) := by
          simpa [pos] using (hadv.2.2.1 j (by simp)).2
        refine ⟨hv', by omega, hdr, ?_, ?_, ?_⟩
        · intro k hk
          rcases hbnd k hk with hk1 | hk1
          · simp only [List.mem_append, claimsON, List.mem_singleton] at hk1
            rcases hk1 with (hk1 | hk1) | hk1
            · rcases mem_claimsT_setDecors_clone.mp hk1 with hk2 | hk2
              · exact Or.inl (by simp [hk2])
              · have hkb := hrd.2.2.1 k hk2
                simp only [pos] at hkb
                exact Or.inr ⟨hkb.1, by omega⟩
            · subst hk1
              exact Or.inr ⟨hj1, by omega⟩
            · exact Or.inl (by simp [hk1])
          · exact Or.inr ⟨by omega, hk1.2⟩
        · intro k hk
          exact hpres k (List.mem_append.mpr
            (Or.inl (mem_claimsT_setDecors_clone.mpr (Or.inl hk))))
        · intro k h1 h2 hr2
          by_cases ha : k < pos buf (some j)
          · have hk2 := hrd.2.2.2 k h1 ha hr2
            refine List.mem_append.mpr (Or.inl (hpres k (List.mem_append.mpr
              (Or.inl (mem_claimsT_setDecors_clone.mpr (Or.inr hk2))))))
          · by_cases hb : k < pos buf (advance buf (j+1))
            · have hk2 := hadv.2.2.2 k (by omega) hb hr2
              have : k = j := by simpa using hk2
              subst this
              exact List.mem_append.mpr (Or.inl (hpres k (List.mem_append.mpr
                (Or.inr (by simp [claimsON])))))
            · exact hcov k (by omega) h2 hr2
      · split at h
        · simp at h
        · obtain ⟨hv', hle, hdr, hbnd, hpres, hcov⟩ :=
            (ihVI c0 (setDecors (cloneNoDecor tn) ds) none c2 dAcc hrd.1).1 vd c' d h
          refine ⟨hv', le_trans hrd.2.1 hle, hdr, ?_, ?_, ?_⟩
          · intro k hk
            rcases hbnd k hk with hk1 | hk1
            · simp only [List.mem_append, claimsON, List.not_mem_nil] at hk1
              rcases hk1 with (hk1 | hk1) | hk1
              · rcases mem_claimsT_setDecors_clone.mp hk1 with hk2 | hk2
                · exact Or.inl (by simp [hk2])
                · have hkb := hrd.2.2.1 k hk2
                  exact Or.inr ⟨hkb.1, lt_of_lt_of_le hkb.2 hle⟩
              · exact absurd hk1 (by simp)
              · exact Or.inl (by simp [hk1])
            · exact Or.inr ⟨le_trans hrd.2.1 hk1.1, hk1.2⟩
          · intro k hk
            exact hpres k (List.mem_append.mpr
              (Or.inl (mem_claimsT_setDecors_clone.mpr (Or.inl hk))))
          · intro k h1 h2 hr2
            by_cases ha : k < pos buf c2
            · have hk2 := hrd.2.2.2 k h1 ha hr2
              exact List.mem_append.mpr (Or.inl (hpres k (List.mem_append.mpr
                (Or.inl (mem_claimsT_setDecors_clone.mpr (Or.inr hk2))))))
            · exact hcov k (by omega) h2 hr2
    · simp at h
    · simp at h
    · simp at h
  · intro c' h
    rw [parseVarDeclRest] at h
    split at h
    · rename_i ds c2 ddd hdec
      obtain ⟨-, hrd⟩ := (parseTypeDecorations_inv hwf fuel c1 hv).1 ds c2 ddd hdec
      simp only [] at h
      split at h
      · rename_i hid
        obtain ⟨j, rfl, hkj⟩ := checkKind_some hid
        simp only [nextF] at h
        exact (ihVI c0 (setDecors (cloneNoDecor tn) ds) (some j) (advance buf (j+1)) dAcc
          (runOK_advance hwf (hrd.1 j rfl)).1).2 c' h
      · split at h
        · simp only [PRes.fail.injEq] at h
          exact h.symm
        · exact (ihVI c0 (setDecors (cloneNoDecor tn) ds) none c2 dAcc hrd.1).2 c' h
    · rename_i c2 hdec
      exact absurd hdec (fun h2 => (parseTypeDecorations_inv hwf fuel c1 hv).2 c2 h2)
    · simp at h
    · simp at h

theorem step_parseVarDecl {buf : List TokKind} (hwf : WFbuf buf) {fuel : Nat}
    (ih : ExprInv buf fuel) :
    ∀ c shared nameOpt, ValidC buf c →
      ((shared = none → ∀ vd c' d, parseVarDecl buf (fuel+1) c shared nameOpt = .ok vd c' d →
        RunOK buf c (claimsVD vd ++ d) c' ∧ pos buf c < pos buf c') ∧
       (∀ tn, shared = some tn → decorToks tn = [] →
        ∀ vd c' d, parseVarDecl buf (fuel+1) c shared nameOpt = .ok vd c' d →
          ValidC buf c' ∧ pos buf c ≤ pos buf c' ∧
          (∀ k, k ∈ claimsVD vd ++ d → k ∈ claimsT tn ∨ (pos buf c ≤ k ∧ k < pos buf c')) ∧
          (∀ k, k ∈ claimsT tn → k ∈ claimsVD vd) ∧
          (∀ k, pos buf c ≤ k → k < pos buf c' → realTok buf k → k ∈ claimsVD vd ++ d)) ∧
       (∀ c', parseVarDecl buf (fuel+1) c shared nameOpt = .fail c' → c' = c)) := by
  obtain ⟨ihPE, ihPL, ihPU, ihPC, ihPA, ihPQ, ihQT, ihTy, ihTS, ihPV, ihVR, ihVI⟩ := ih
  intro c shared nameOpt hv
  refine ⟨?_, ?_, ?_⟩
  · rintro rfl vd c' d h
    rw [parseVarDecl] at h
    split at h
    · rename_i t2 c1 d1 ht
      obtain ⟨hrt, htlt, htg, -⟩ := (ihTy c true hv).1 t2 c1 d1 ht
      obtain ⟨hv', hle, ⟨dr, rfl⟩, hbnd, hpres, hcov⟩ :=
        (ihVR c t2 c1 (d1 ++ decorToks t2) nameOpt hrt.1).1 vd c' d h
      refine ⟨?_, lt_of_lt_of_le htlt hle⟩
      refine runOK_absorb hrt hv' hle ?_ ?_ ?_
      · intro k hk
        rcases hbnd k hk with hk1 | hk1
        · simp only [List.mem_append] at hk1
          rcases hk1 with hk1 | (hk1 | hk1)
          · exact Or.inl (List.mem_append.mpr (Or.inl (mem_claimsT_clone hk1)))
          · exact Or.inl (by simp [hk1])
          · exact Or.inl (List.mem_append.mpr (Or.inl (mem_claimsT_split.mpr (Or.inr hk1))))
        · exact Or.inr hk1
      · intro k hk
        rcases List.mem_append.mp hk with hk1 | hk1
        · rcases mem_claimsT_split.mp hk1 with hk2 | hk2
          · exact List.mem_append.mpr (Or.inl (hpres k hk2))
          · exact List.mem_append.mpr (Or.inr (by simp [hk2]))
        · exact List.mem_append.mpr (Or.inr (by simp [hk1]))
      · exact hcov
    · simp at h
    · simp at h
    · simp at h
  · rintro tn rfl hdn vd c' d h
    rw [parseVarDecl] at h
    obtain ⟨hv', hle, ⟨dr, rfl⟩, hbnd, hpres, hcov⟩ :=
      (ihVR c tn c [] nameOpt hv).1 vd c' d h
    rw [clone_eq_of_decorToks_nil hdn] at hbnd hpres
    refine ⟨hv', hle, ?_, hpres, hcov⟩
    intro k hk
    exact (hbnd k hk).imp (fun h2 => by simpa using h2) id
  · intro c' h
    cases shared with
    | some tn =>
      rw [parseVarDecl] at h
      exact (ihVR c tn c [] nameOpt hv).2 c' h
    | none =>
      rw [parseVarDecl] at h
      split at h
      · rename_i t2 c1 d1 ht
        obtain ⟨hrt, -, -, -⟩ := (ihTy c true hv).1 t2 c1 d1 ht
        exact (ihVR c t2 c1 (d1 ++ decorToks t2) nameOpt hrt.1).2 c' h
      · simp only [PRes.fail.injEq] at h
        exact h.symm
      · simp at h
      · simp at h

theorem step_parseCallArgs {buf : List TokKind} (hwf : WFbuf buf) {fuel : Nat}
    (ih : ExprInv buf fuel) :
    ∀ c, ValidC buf c →
      (∀ args cms c' d, parseCallArgs buf (fuel+1) c = .ok (args, cms) c' d →
        RunOK buf c (claimsOEs args ++ cms ++ d) c' ∧ goodOEs args = true) ∧
      (∀ c', parseCallArgs buf (fuel+1) c = .fail c' → FailOK buf c c') := by
  obtain ⟨ihPE, ihPL, ihPU, ihPC, ihPA, ihPQ, ihQT, ihTy, ihTS, ihPV, ihVR, ihVI⟩ := ih
  intro c hv
  constructor
  · intro args cms c' d h
    rw [parseCallArgs] at h
    split at h
    · simp only [PRes.ok.injEq, Prod.mk.injEq] at h
      obtain ⟨⟨rfl, rfl⟩, rfl, rfl⟩ := h
      exact ⟨runOK_congr (by intro k; simp [claimsOEs]) (runOK_rfl hv), rfl⟩
    · split at h
      · rename_i e c1 d1 hpe
        obtain ⟨hre, hlt, hge⟩ := (ihPE c 2 false hv).1 e c1 d1 hpe
        cases c1 with
        | none => simp at h
        | some i =>
          simp only [] at h
          split at h
          · rename_i hcm
            simp only [nextF] at h
            have hadv := runOK_advance hwf (hre.1 i rfl)
            split at h
            · rename_i args2 cms2 c3 d3 hrec
              obtain ⟨hra, hga⟩ := (ihPA (advance buf (i+1)) hadv.1).1 args2 cms2 c3 d3 hrec
              simp only [PRes.ok.injEq, Prod.mk.injEq] at h
              obtain ⟨⟨rfl, rfl⟩, rfl, rfl⟩ := h
              have hseq := runOK_seq hre (runOK_seq hadv hra)
              refine ⟨runOK_congr (by intro k; simp [claimsOEs, claimsOE]; tauto) hseq, ?_⟩
              simp [goodOEs, goodOE, hge, hga]
            · simp at h
            · simp at h
            · simp at h
          · simp only [PRes.ok.injEq, Prod.mk.injEq] at h
            obtain ⟨⟨rfl, rfl⟩, rfl, rfl⟩ := h
            refine ⟨runOK_congr (by intro k; simp [claimsOEs, claimsOE]) hre, ?_⟩
            simp [goodOEs, goodOE, hge]
      · rename_i c1 hpf
        have hfe := (ihPE c 2 false hv).2 c1 hpf
        cases c1 with
        | none => simp at h
        | some i =>
          simp only [] at h
          have hrange : RunOK buf c (rangeList (pos buf c) i) (some i) :=
            runOK_range hfe.1 hfe.2
          split at h
          · rename_i hcm
            simp only [nextF] at h
            have hadv := runOK_advance hwf (hfe.1 i rfl)
            split at h
            · rename_i args2 cms2 c3 d3 hrec
              obtain ⟨hra, hga⟩ := (ihPA (advance buf (i+1)) hadv.1).1 args2 cms2 c3 d3 hrec
              simp only [PRes.ok.injEq, Prod.mk.injEq] at h
              obtain ⟨⟨rfl, rfl⟩, rfl, rfl⟩ := h
              have hseq := runOK_seq hrange (runOK_seq hadv hra)
              refine ⟨runOK_congr (by intro k; simp [claimsOEs, claimsOE]; tauto) hseq, ?_⟩
              simp [goodOEs, goodOE, hga]
            · simp at h
            · simp at h
            · simp at h
          · simp only [PRes.ok.injEq, Prod.mk.injEq] at h
            obtain ⟨⟨rfl, rfl⟩, rfl, rfl⟩ := h
            exact ⟨runOK_congr (by intro k; simp [claimsOEs, claimsOE]) hrange, rfl⟩
      · simp at h
      · simp at h
  · intro c' h
    rw [parseCallArgs] at h
    split at h
    · simp at h
    · split at h
      · rename_i e c1 d1 hpe
        obtain ⟨hre, hlt, hge⟩ := (ihPE c 2 false hv).1 e c1 d1 hpe
        cases c1 with
        | none => simp at h
        | some i =>
          simp only [] at h
          split at h
          · rename_i hcm
            simp only [nextF] at h
            have hadv := runOK_advance hwf (hre.1 i rfl)
            split at h
            · simp at h
            · rename_i c3 hrec
              have hfc := (ihPA (advance buf (i+1)) hadv.1).2 c3 hrec
              simp only [PRes.fail.injEq] at h
              subst h
              have h1 := hre.2.1
              have h2 := hadv.2.1
              have h3 := hfc.2
              exact ⟨hfc.1, by omega⟩
            · simp at h
            · simp at h
          · simp at h
      · rename_i c1 hpf
        have hfe := (ihPE c 2 false hv).2 c1 hpf
        cases c1 with
        | none => simp at h
        | some i =>
          simp only [] at h
          split at h
          · rename_i hcm
            simp only [nextF] at h
            have hadv := runOK_advance hwf (hfe.1 i rfl)
            split at h
            · simp at h
            · rename_i c3 hrec
              have hfc := (ihPA (advance buf (i+1)) hadv.1).2 c3 hrec
              simp only [PRes.fail.injEq] at h
              subst h
              have h1 := hfe.2
              have h2 := hadv.2.1
              have h3 := hfc.2
              exact ⟨hfc.1, by omega⟩
            · simp at h
            · simp at h
          · simp at h
      · simp at h
      · simp at h

theorem step_parseCallExpr {buf : List TokKind} (hwf : WFbuf buf) {fuel : Nat}
    (ih : ExprInv buf fuel) :
    ∀ c callee, ValidC buf c → goodE callee = true →
      (∀ e c' d, parseCallExpr buf (fuel+1) c callee = .ok e c' d →
        ValidC buf c' ∧ pos buf c ≤ pos buf c' ∧ goodE e = true ∧
        (∀ k, k ∈ claimsE e ++ d → k ∈ claimsE callee ∨ (pos buf c ≤ k ∧ k < pos buf c')) ∧
        (∀ k, k ∈ claimsE callee → k ∈ claimsE e ++ d) ∧
        (∀ k, pos buf c ≤ k → k < pos buf c' → realTok buf k → k ∈ claimsE e ++ d) ∧
        pos buf c < pos buf c') ∧
      (∀ c', parseCallExpr buf (fuel+1) c callee = .fail c' → FailOK buf c c') := by
  obtain ⟨ihPE, ihPL, ihPU, ihPC, ihPA, ihPQ, ihQT, ihTy, ihTS, ihPV, ihVR, ihVI⟩ := ih
  intro c callee hv hgc
  constructor
  · intro e c' d h
    rw [parseCallExpr] at h
    cases c with
    | none => simp only [nextF] at h; simp at h
    | some i =>
      simp only [nextF] at h
      have hadv := runOK_advance hwf (hv i rfl)
      split at h
      · rename_i args cms c2 d2 hpa
        obtain ⟨hra, hga⟩ := (ihPA (advance buf (i+1)) hadv.1).1 args cms c2 d2 hpa
        split at h
        · rename_i hrp
          obtain ⟨j, rfl, hkj⟩ := checkKind_some hrp
          simp only [nextF] at h
          have hadv2 := runOK_advance hwf (hra.1 j rfl)
          simp only [PRes.ok.injEq] at h
          obtain ⟨rfl, rfl, rfl⟩ := h
          have hrun := runOK_seq hadv (runOK_seq hra hadv2)
          refine ⟨hrun.1, hrun.2.1, ?_, ?_, ?_, ?_, ?_⟩
          · simp [goodE, hgc, hga]
          · intro k hk
            simp only [claimsE, List.mem_append, List.mem_cons, List.mem_singleton] at hk
            by_cases hc : k ∈ claimsE callee
            · exact Or.inl hc
            · refine Or.inr (hrun.2.2.1 k ?_)
              simp only [List.mem_append, List.mem_cons, List.mem_singleton]
              tauto
          · intro k hk
            simp only [claimsE, List.mem_append, List.mem_cons, List.mem_singleton]
            tauto
          · intro k h1 h2 hr2
            have := hrun.2.2.2 k h1 h2 hr2
            simp only [List.mem_append, List.mem_cons, List.mem_singleton] at this
            simp only [claimsE, List.mem_append, List.mem_cons, List.mem_singleton]
            tauto
          · simpa [pos] using (hrun.2.2.1 i (by simp)).2
        · simp at h
      · simp at h
      · simp at h
      · simp at h
  · intro c' h
    rw [parseCallExpr] at h
    cases c with
    | none => simp only [nextF] at h; simp at h
    | some i =>
      simp only [nextF] at h
      have hadv := runOK_advance hwf (hv i rfl)
      split at h
      · rename_i args cms c2 d2 hpa
        obtain ⟨hra, hga⟩ := (ihPA (advance buf (i+1)) hadv.1).1 args cms c2 d2 hpa
        split at h
        · rename_i hrp
          obtain ⟨j, rfl, hkj⟩ := checkKind_some hrp
          simp only [nextF] at h
          simp at h
        · simp only [PRes.fail.injEq] at h
          subst h
          have h1 := hadv.2.1
          have h2 := hra.2.1
          exact ⟨hra.1, by omega⟩
      · rename_i c2 hpa
        have hfa := (ihPA (advance buf (i+1)) hadv.1).2 c2 hpa
        simp only [PRes.fail.injEq] at h
        subst h
        have h1 := hadv.2.1
        have h2 := hfa.2
        exact ⟨hfa.1, by omega⟩
      · simp at h
      · simp at h

theorem validC_none {buf : List TokKind} : ValidC buf none :=
  fun _ h => nomatch h

theorem step_parseExprLoop {buf : List TokKind} (hwf : WFbuf buf) {fuel : Nat}
    (ih : ExprInv buf fuel) :
    ∀ c prec stop lo pend, ValidC buf c → goodOE lo = true →
      (∀ e c' d, parseExprLoop buf (fuel+1) c prec stop lo pend = .ok e c' d →
        ValidC buf c' ∧ pos buf c ≤ pos buf c' ∧ goodE e = true ∧
        (∀ k, k ∈ claimsE e ++ d → k ∈ claimsOE lo ++ pend ∨
          (pos buf c ≤ k ∧ k < pos buf c')) ∧
        (∀ k, k ∈ claimsOE lo ++ pend → k ∈ claimsE e ++ d) ∧
        (∀ k, pos buf c ≤ k → k < pos buf c' → realTok buf k → k ∈ claimsE e ++ d) ∧
        (lo = none → pos buf c < pos buf c')) ∧
      (∀ c', parseExprLoop buf (fuel+1) c prec stop lo pend = .fail c' → FailOK buf c c') := by
  obtain ⟨ihPE, ihPL, ihPU, ihPC, ihPA, ihPQ, ihQT, ihTy, ihTS, ihPV, ihVR, ihVI⟩ := ih
  intro c prec stop lo pend hv hgood
  constructor
  · intro e c' d h
    cases c with
    | none =>
      cases lo with
      | none => simp [parseExprLoop] at h
      | some l =>
        rw [parseExprLoop] at h
        simp only [PRes.ok.injEq] at h
        obtain ⟨rfl, rfl, rfl⟩ := h
        refine ⟨validC_none, le_rfl, by simpa [goodOE] using hgood, ?_, ?_, ?_, ?_⟩
        · intro k hk
          exact Or.inl (by simpa [claimsOE] using hk)
        · intro k hk
          simpa [claimsOE] using hk
        · intro k h1 h2 hr2
          exact absurd (lt_of_le_of_lt h1 h2) (lt_irrefl _)
        · intro hn
          exact absurd hn (by simp)
    | some i =>
      rw [parseExprLoop.eq_def] at h
      simp only [] at h
      split at h
      · cases lo with
        | none => simp at h
        | some l =>
            simp only [PRes.ok.injEq] at h
            obtain ⟨rfl, rfl, rfl⟩ := h
            refine ⟨hv, le_rfl, by simpa [goodOE] using hgood, ?_, ?_, ?_, ?_⟩
            · intro k hk
              exact Or.inl (by simpa [claimsOE] using hk)
            · intro k hk
              simpa [claimsOE] using hk
            · intro k h1 h2 hr2
              exact absurd (lt_of_le_of_lt h1 h2) (lt_irrefl _)
            · intro hn
              exact absurd hn (by simp)
      · by_cases hcp : ((if kindAt buf i = TokKind.period ∨ kindAt buf i = TokKind.arrow
              then PrecedenceArrowAndPeriod else getBinOpPrecedence (kindAt buf i)) = 0 ∨
            (if kindAt buf i = TokKind.period ∨ kindAt buf i = TokKind.arrow
              then PrecedenceArrowAndPeriod else getBinOpPrecedence (kindAt buf i)) < prec)
        · rw [if_pos hcp] at h
          cases lo with
          | none => simp at h
          | some l =>
            simp only [PRes.ok.injEq] at h
            obtain ⟨rfl, rfl, rfl⟩ := h
            refine ⟨hv, le_rfl, by simpa [goodOE] using hgood, ?_, ?_, ?_, ?_⟩
            · intro k hk
              exact Or.inl (by simpa [claimsOE] using hk)
            · intro k hk
              simpa [claimsOE] using hk
            · intro k h1 h2 hr2
              exact absurd (lt_of_le_of_lt h1 h2) (lt_irrefl _)
            · intro hn
              exact absurd hn (by simp)
        · rw [if_neg hcp] at h
          simp only [nextF] at h
          have hadv := runOK_advance hwf (hv i rfl)
          split at h
          · rename_i r c2 d2 hre
            obtain ⟨hrr, hrlt, hrg⟩ :=
              (ihPE (advance buf (i+1)) (prec+1) stop hadv.1).1 r c2 d2 hre
            have hbg : goodOE (some (.binary lo (some r) i)) = true := by
              simp [goodOE, goodE, hrg]
              cases lo with
              | none => simp [goodOE]
              | some l => simpa [goodOE] using hgood
            obtain ⟨hv', hle, hge, hbnd, hpres, hcov, -⟩ :=
              (ihPL c2 prec stop (some (.binary lo (some r) i)) (pend ++ d2)
                hrr.1 hbg).1 e c' d h
            have hi1 : pos buf (some i) ≤ pos buf (advance buf (i+1)) := hadv.2.1
            have hi2 : i < pos buf (advance buf (i+1)) := by
              simpa [pos] using (hadv.2.2.1 i (by simp)).2
            have hi3 := hrr.2.1
            refine ⟨hv', by omega, hge, ?_, ?_, ?_, fun _ => by
              have hpi : pos buf (some i) = i := by simp [pos]
              omega⟩
            · intro k hk
              rcases hbnd k hk with hk1 | hk1
              · simp only [claimsOE, claimsE, List.mem_append, List.mem_cons,
                  List.mem_singleton, List.not_mem_nil, or_false] at hk1
                rcases hk1 with ((hk1 | hk1) | hk1) | (hk1 | hk1)
                · exact Or.inl (List.mem_append.mpr (Or.inl hk1))
                · have hkb := hrr.2.2.1 k (by simp [hk1])
                  refine Or.inr ⟨?_, by omega⟩
                  have hpi : pos buf (some i) = i := by simp [pos]
                  omega
                · subst hk1
                  refine Or.inr ⟨by simp [pos], by omega⟩
                · exact Or.inl (List.mem_append.mpr (Or.inr hk1))
                · have hkb := hrr.2.2.1 k (by simp [hk1])
                  refine Or.inr ⟨?_, by omega⟩
                  have hpi : pos buf (some i) = i := by simp [pos]
                  omega
              · refine Or.inr ⟨?_, hk1.2⟩
                have h5 := hk1.1
                omega
            · intro k hk
              refine hpres k ?_
              simp only [claimsOE, claimsE, List.mem_append, List.mem_cons, List.mem_singleton]
              simp only [List.mem_append] at hk
              tauto
            · intro k h1 h2 hr2
              by_cases ha : k < pos buf (advance buf (i+1))
              · have hk2 := hadv.2.2.2 k h1 ha hr2
                have hki : k = i := by simpa using hk2
                subst hki
                refine hpres k ?_
                simp only [claimsOE, claimsE, List.mem_append, List.mem_cons, List.mem_singleton]
                tauto
              · by_cases hb : k < pos buf c2
                · have hk2 := hrr.2.2.2 k (by omega) hb hr2
                  refine hpres k ?_
                  simp only [claimsOE, claimsE, List.mem_append, List.mem_cons,
                    List.mem_singleton]
                  simp only [List.mem_append] at hk2
                  tauto
                · exact hcov k (by omega) h2 hr2
          · simp at h
          · simp at h
          · simp at h
  · intro c' h
    cases c with
    | none =>
      cases lo with
      | none =>
        rw [parseExprLoop] at h
        simp only [PRes.fail.injEq] at h
        subst h
        exact ⟨validC_none, le_rfl⟩
      | some l => simp [parseExprLoop] at h
    | some i =>
      rw [parseExprLoop.eq_def] at h
      simp only [] at h
      split at h
      · cases lo with
        | none =>
          simp only [PRes.fail.injEq] at h
          subst h
          exact ⟨hv, le_rfl⟩
        | some l => simp at h
      · by_cases hcp : ((if kindAt buf i = TokKind.period ∨ kindAt buf i = TokKind.arrow
              then PrecedenceArrowAndPeriod else getBinOpPrecedence (kindAt buf i)) = 0 ∨
            (if kindAt buf i = TokKind.period ∨ kindAt buf i = TokKind.arrow
              then PrecedenceArrowAndPeriod else getBinOpPrecedence (kindAt buf i)) < prec)
        · rw [if_pos hcp] at h
          cases lo with
          | none =>
            simp only [PRes.fail.injEq] at h
            subst h
            exact ⟨hv, le_rfl⟩
          | some l => simp at h
        · rw [if_neg hcp] at h
          simp only [nextF] at h
          have hadv := runOK_advance hwf (hv i rfl)
          split at h
          · rename_i r c2 d2 hre
            obtain ⟨hrr, hrlt, hrg⟩ :=
              (ihPE (advance buf (i+1)) (prec+1) stop hadv.1).1 r c2 d2 hre
            have hbg : goodOE (some (.binary lo (some r) i)) = true := by
              simp [goodOE, goodE, hrg]
              cases lo with
              | none => simp [goodOE]
              | some l => simpa [goodOE] using hgood
            have hfr := (ihPL c2 prec stop (some (.binary lo (some r) i)) (pend ++ d2)
              hrr.1 hbg).2 c' h
            have h1 := hadv.2.1
            have h2 := hrr.2.1
            have h3 := hfr.2
            exact ⟨hfr.1, by omega⟩
          · rename_i c2 hre
            have hfr := (ihPE (advance buf (i+1)) (prec+1) stop hadv.1).2 c2 hre
            simp only [PRes.fail.injEq] at h
            subst h
            have h1 := hadv.2.1
            have h2 := hfr.2
            exact ⟨hfr.1, by omega⟩
          · simp at h
          · simp at h

theorem step_parseExpression {buf : List TokKind} (hwf : WFbuf buf) {fuel : Nat}
    (ih : ExprInv buf fuel) :
    ∀ c prec stop, ValidC buf c →
      (∀ e c' d, parseExpression buf (fuel+1) c prec stop = .ok e c' d →
        RunOK buf c (claimsE e ++ d) c' ∧ pos buf c < pos buf c' ∧ goodE e = true) ∧
      (∀ c', parseExpression buf (fuel+1) c prec stop = .fail c' → FailOK buf c c') := by
  obtain ⟨ihPE, ihPL, ihPU, ihPC, ihPA, ihPQ, ihQT, ihTy, ihTS, ihPV, ihVR, ihVI⟩ := ih
  intro c prec stop hv
  constructor
  · intro e c' d h
    rw [parseExpression.eq_def] at h
    simp only [] at h
    split at h
    · exact (ihPU c hv).1 e c' d h
    · split at h
      · cases c with
        | none => simp at h
        | some i =>
          simp only [] at h
          split at h
          · rename_i hlit
            simp only [nextF] at h
            simp only [PRes.ok.injEq] at h
            obtain ⟨rfl, rfl, rfl⟩ := h
            have hadv := runOK_advance hwf (hv i rfl)
            refine ⟨runOK_congr (by intro k; simp [claimsE]) hadv, ?_, rfl⟩
            simpa [pos] using (hadv.2.2.1 i (by simp)).2
          · split at h
            · split at h
              · rename_i q s ta c1 dq hpq
                obtain ⟨hrq, hqlt, hqg⟩ := (ihPQ (some i) hv).1 q s ta c1 dq hpq
                split at h
                · split at h
                  · rename_i e2 c2 d2 hpc
                    obtain ⟨hv', hle, hge, hbnd, hpres, hcov, hstr⟩ :=
                      (ihPC c1 (.declRef q s ta) hrq.1 (by simpa [goodE] using hqg)).1
                        e2 c2 d2 hpc
                    simp only [PRes.ok.injEq] at h
                    obtain ⟨rfl, rfl, rfl⟩ := h
                    refine ⟨?_, lt_of_lt_of_le hqlt hle, hge⟩
                    refine runOK_absorb hrq hv' hle ?_ ?_ ?_
                    · intro k hk
                      rcases List.mem_append.mp hk with hk1 | hk1
                      · rcases hbnd k (by simp [hk1]) with hk2 | hk2
                        · refine Or.inl ?_
                          simp only [claimsE, List.mem_append] at hk2
                          simp only [List.mem_append]
                          tauto
                        · exact Or.inr hk2
                      · rcases List.mem_append.mp hk1 with hk2 | hk2
                        · exact Or.inl (by simp [hk2])
                        · rcases hbnd k (by simp [hk2]) with hk3 | hk3
                          · refine Or.inl ?_
                            simp only [claimsE, List.mem_append] at hk3
                            simp only [List.mem_append]
                            tauto
                          · exact Or.inr hk3
                    · intro k hk
                      simp only [List.mem_append] at hk
                      rcases hk with ((hk1 | hk1) | hk1) | hk1
                      · have := hpres k (by simp [claimsE, hk1])
                        simp only [List.mem_append] at this ⊢
                        tauto
                      · have := hpres k (by simp [claimsE, hk1])
                        simp only [List.mem_append] at this ⊢
                        tauto
                      · have := hpres k (by simp [claimsE, hk1])
                        simp only [List.mem_append] at this ⊢
                        tauto
                      · simp only [List.mem_append]
                        tauto
                    · intro k h1 h2 hr2
                      have := hcov k h1 h2 hr2
                      simp only [List.mem_append] at this ⊢
                      tauto
                  · simp at h
                  · simp at h
                  · simp at h
                · simp only [PRes.ok.injEq] at h
                  obtain ⟨rfl, rfl, rfl⟩ := h
                  refine ⟨?_, hqlt, by simpa [goodE] using hqg⟩
                  exact runOK_congr (by intro k; simp [claimsE]) hrq

              · simp at h
              · simp at h
              · simp at h
            · simp at h
      · split at h
        · rename_i l c1 dl hpl
          obtain ⟨hrl, hllt, hlg⟩ := (ihPE c (prec+1) stop hv).1 l c1 dl hpl
          obtain ⟨hv', hle, hge, hbnd, hpres, hcov, -⟩ :=
            (ihPL c1 prec stop (some l) dl hrl.1 (by simpa [goodOE] using hlg)).1 e c' d h
          refine ⟨?_, lt_of_lt_of_le hllt hle, hge⟩
          refine runOK_absorb hrl hv' hle ?_ ?_ ?_
          · intro k hk
            rcases hbnd k hk with hk1 | hk1
            · exact Or.inl (by simpa [claimsOE] using hk1)
            · exact Or.inr hk1
          · intro k hk
            exact hpres k (by simpa [claimsOE] using hk)
          · exact hcov
        · rename_i c1 hpl
          have hfl := (ihPE c (prec+1) stop hv).2 c1 hpl
          obtain ⟨hv', hle, hge, hbnd, hpres, hcov, hstr⟩ :=
            (ihPL c1 prec stop none (rangeList (pos buf c) (pos buf c1)) hfl.1 rfl).1 e c' d h
          refine ⟨?_, lt_of_le_of_lt hfl.2 (hstr rfl), hge⟩
          refine runOK_absorb (runOK_range hfl.1 hfl.2) hv' hle ?_ ?_ ?_
          · intro k hk
            rcases hbnd k hk with hk1 | hk1
            · exact Or.inl (by simpa [claimsOE] using hk1)
            · exact Or.inr hk1
          · intro k hk
            exact hpres k (by simpa [claimsOE] using hk)
          · exact hcov
        · simp at h
        · simp at h
  · intro c' h
    rw [parseExpression.eq_def] at h
    simp only [] at h
    split at h
    · exact (ihPU c hv).2 c' h
    · split at h
      · cases c with
        | none => simp at h
        | some i =>
          simp only [] at h
          split at h
          · simp only [nextF] at h
            simp at h
          · split at h
            · split at h
              · rename_i q s ta c1 dq hpq
                obtain ⟨hrq, hqlt, hqg⟩ := (ihPQ (some i) hv).1 q s ta c1 dq hpq
                split at h
                · split at h
                  · simp at h
                  · rename_i c2 hpc
                    have hfc := (ihPC c1 (.declRef q s ta) hrq.1
                      (by simpa [goodE] using hqg)).2 c2 hpc
                    simp only [PRes.fail.injEq] at h
                    subst h
                    have h1 := hrq.2.1
                    have h2 := hfc.2
                    exact ⟨hfc.1, by omega⟩
                  · simp at h
                  · simp at h
                · simp at h
              · rename_i c1 hpq
                have hc1 := (ihPQ (some i) hv).2 c1 hpq
                subst hc1
                simp only [PRes.fail.injEq] at h
                subst h
                exact ⟨hv, le_rfl⟩
              · simp at h
              · simp at h
            · simp only [PRes.fail.injEq] at h
              subst h
              exact ⟨hv, le_rfl⟩
      · split at h
        · rename_i l c1 dl hpl
          obtain ⟨hrl, hllt, hlg⟩ := (ihPE c (prec+1) stop hv).1 l c1 dl hpl
          have hfr := (ihPL c1 prec stop (some l) dl hrl.1
            (by simpa [goodOE] using hlg)).2 c' h
          have h1 := hrl.2.1
          have h2 := hfr.2
          exact ⟨hfr.1, by omega⟩
        · rename_i c1 hpl
          have hfl := (ihPE c (prec+1) stop hv).2 c1 hpl
          have hfr := (ihPL c1 prec stop none (rangeList (pos buf c) (pos buf c1))
            hfl.1 rfl).2 c' h
          have h1 := hfl.2
          have h2 := hfr.2
          exact ⟨hfr.1, by omega⟩
        · simp at h
        · simp at h

theorem exprInv_succ {buf : List TokKind} (hwf : WFbuf buf) {fuel : Nat}
    (ih : ExprInv buf fuel) : ExprInv buf (fuel+1) :=
  ⟨step_parseExpression hwf ih, step_parseExprLoop hwf ih, step_parseUnaryOperator hwf ih,
   step_parseCallExpr hwf ih, step_parseCallArgs hwf ih, step_parseQualifiedID hwf ih,
   step_qidTargs hwf ih, step_parseType hwf ih, step_parseTypeSuffix hwf,
   step_parseVarDecl hwf ih, step_parseVarDeclRest hwf ih, step_parseVarDeclInit hwf ih⟩

theorem exprInv_all {buf : List TokKind} (hwf : WFbuf buf) : ∀ fuel, ExprInv buf fuel := by
  intro fuel
  induction fuel with
  | zero => exact exprInv_zero buf
  | succ n ih2 => exact exprInv_succ hwf ih2

theorem parseReturnStmt_inv {buf : List TokKind} (hwf : WFbuf buf) (fuel : Nat) (c : Cursor)
    (hv : ValidC buf c) :
    (∀ s c' d, parseReturnStmt buf fuel c = .ok s c' d →
      RunOK buf c (claimsS s ++ d) c' ∧ pos buf c < pos buf c') ∧
    (∀ c', parseReturnStmt buf fuel c = .fail c' → c' = c) := by
  obtain ⟨ihPE, ihPL, ihPU, ihPC, ihPA, ihPQ, ihQT, ihTy, ihTS, ihPV, ihVR, ihVI⟩ :=
    exprInv_all hwf fuel
  constructor
  · intro s c' d h
    rw [parseReturnStmt] at h
    split at h
    · simp at h
    · rename_i hcond
      have hck : checkKind buf c .kw_return = true := by
        cases hc : checkKind buf c .kw_return <;> simp [hc] at hcond ⊢
      obtain ⟨i, rfl, hki⟩ := checkKind_some hck
      simp only [nextF] at h
      have hadv := runOK_advance hwf (hv i rfl)
      split at h
      · rename_i hsemi
        obtain ⟨j, hj, hkj⟩ := checkKind_some hsemi
        rw [hj] at h
        simp only [nextF] at h
        simp only [PRes.ok.injEq] at h
        obtain ⟨rfl, rfl, rfl⟩ := h
        rw [hj] at hadv
        have hadv2 := runOK_advance hwf (hadv.1 j rfl)
        have hseq := runOK_seq hadv hadv2
        refine ⟨runOK_congr (by intro k; simp [claimsS, claimsOE]) hseq, ?_⟩
        simpa [pos] using (hseq.2.2.1 i (by simp)).2
      · split at h
        · rename_i b c2 d2 hpe
          have hb := (ihPE (advance buf (i+1)) 1 false hadv.1).1 b c2 d2 hpe
          split at h
          · rename_i hsemi
            obtain ⟨j, rfl, hkj⟩ := checkKind_some hsemi
            simp only [nextF] at h
            simp only [PRes.ok.injEq] at h
            obtain ⟨rfl, rfl, rfl⟩ := h
            have hadv2 := runOK_advance hwf (hb.1.1 j rfl)
            have hseq := runOK_seq hadv (runOK_seq hb.1 hadv2)
            refine ⟨runOK_congr (by intro k; simp [claimsS, claimsOE]; tauto) hseq, ?_⟩
            simpa [pos] using (hseq.2.2.1 i (by simp)).2
          · simp at h
        · simp at h
        · simp at h
        · simp at h
  · intro c' h
    rw [parseReturnStmt] at h
    split at h
    · simp only [PRes.fail.injEq] at h
      exact h.symm
    · rename_i hcond
      have hck : checkKind buf c .kw_return = true := by
        cases hc : checkKind buf c .kw_return <;> simp [hc] at hcond ⊢
      obtain ⟨i, rfl, hki⟩ := checkKind_some hck
      simp only [nextF] at h
      split at h
      · rename_i hsemi
        obtain ⟨j, hj, hkj⟩ := checkKind_some hsemi
        rw [hj] at h
        simp only [nextF] at h
        simp at h
      · split at h
        · split at h
          · rename_i hsemi
            obtain ⟨j, rfl, hkj⟩ := checkKind_some hsemi
            simp only [nextF] at h
            simp at h
          · simp only [PRes.fail.injEq] at h
            exact h.symm
        · simp only [PRes.fail.injEq] at h
          exact h.symm
        · simp at h
        · simp at h

theorem parseDestructor_inv {buf : List TokKind} (hwf : WFbuf buf) (fuel : Nat) (c : Cursor)
    (hv : ValidC buf c) :
    (∀ tl t c' d, parseDestructor buf fuel c = .ok (tl, t) c' d →
      RunOK buf c (tl :: claimsT t ++ d) c' ∧ pos buf c < pos buf c' ∧ goodT t = true) ∧
    (∀ c', parseDestructor buf fuel c = .fail c' → FailOK buf c c') := by
  obtain ⟨ihPE, ihPL, ihPU, ihPC, ihPA, ihPQ, ihQT, ihTy, ihTS, ihPV, ihVR, ihVI⟩ :=
    exprInv_all hwf fuel
  constructor
  · intro tl t c' d h
    rw [parseDestructor] at h
    split at h
    · simp at h
    · rename_i hcond
      have hck : checkKind buf c .tilde = true := by
        cases hc : checkKind buf c .tilde <;> simp [hc] at hcond ⊢
      obtain ⟨i, rfl, hki⟩ := checkKind_some hck
      simp only [nextF] at h
      have hadv := runOK_advance hwf (hv i rfl)
      split at h
      · rename_i t2 c2 d2 ht
        obtain ⟨hrt, htlt, htg, -⟩ := (ihTy (advance buf (i+1)) true hadv.1).1 t2 c2 d2 ht
        simp only [PRes.ok.injEq, Prod.mk.injEq] at h
        obtain ⟨⟨rfl, rfl⟩, rfl, rfl⟩ := h
        have hseq := runOK_seq hadv hrt
        refine ⟨runOK_congr (by intro k; simp) hseq, ?_, htg⟩
        simpa [pos] using (hseq.2.2.1 i (by simp)).2
      · simp at h
      · simp at h
      · simp at h
  · intro c' h
    rw [parseDestructor] at h
    split at h
    · simp only [PRes.fail.injEq] at h
      subst h
      exact ⟨hv, le_rfl⟩
    · rename_i hcond
      have hck : checkKind buf c .tilde = true := by
        cases hc : checkKind buf c .tilde <;> simp [hc] at hcond ⊢
      obtain ⟨i, rfl, hki⟩ := checkKind_some hck
      simp only [nextF] at h
      have hadv := runOK_advance hwf (hv i rfl)
      split at h
      · simp at h
      · rename_i c2 ht
        have hc2 := (ihTy (advance buf (i+1)) true hadv.1).2 c2 ht
        simp only [PRes.fail.injEq] at h
        subst h
        subst hc2
        exact ⟨hadv.1, hadv.2.1⟩
      · simp at h
      · simp at h

theorem parseLabelStmt_inv {buf : List TokKind} (hwf : WFbuf buf) (c : Cursor)
    (hv : ValidC buf c) :
    (∀ s c' d, parseLabelStmt buf c = .ok s c' d →
      RunOK buf c (claimsS s ++ d) c' ∧ pos buf c < pos buf c') ∧
    (∀ c', parseLabelStmt buf c = .fail c' → c' = c) := by
  constructor
  · intro s c' d h
    rw [parseLabelStmt] at h
    split at h
    · simp at h
    · rename_i hcond
      have hcur : ∃ i, c = some i := by
        cases c with
        | none => simp [checkKind] at hcond
        | some i => exact ⟨i, rfl⟩
      obtain ⟨i, rfl⟩ := hcur
      simp only [nextF] at h
      have hadv := runOK_advance hwf (hv i rfl)
      split at h
      · simp at h
      · rename_i hcol
        have hck : checkKind buf (advance buf (i+1)) .colon = true := by
          cases hc : checkKind buf (advance buf (i+1)) .colon <;> simp [hc] at hcol ⊢
        obtain ⟨j, hj, hkj⟩ := checkKind_some hck
        rw [hj] at h
        simp only [nextF] at h
        simp only [PRes.ok.injEq] at h
        obtain ⟨rfl, rfl, rfl⟩ := h
        rw [hj] at hadv
        have hadv2 := runOK_advance hwf (hadv.1 j rfl)
        have hseq := runOK_seq hadv hadv2
        refine ⟨runOK_congr (by intro k; simp [claimsS]) hseq, ?_⟩
        simpa [pos] using (hseq.2.2.1 i (by simp)).2
  · intro c' h
    rw [parseLabelStmt] at h
    split at h
    · simp only [PRes.fail.injEq] at h
      exact h.symm
    · rename_i hcond
      have hcur : ∃ i, c = some i := by
        cases c with
        | none => simp [checkKind] at hcond
        | some i => exact ⟨i, rfl⟩
      obtain ⟨i, rfl⟩ := hcur
      simp only [nextF] at h
      split at h
      · simp only [PRes.fail.injEq] at h
        exact h.symm
      · rename_i hcol
        have hck : checkKind buf (advance buf (i+1)) .colon = true := by
          cases hc : checkKind buf (advance buf (i+1)) .colon <;> simp [hc] at hcol ⊢
        obtain ⟨j, hj, hkj⟩ := checkKind_some hck
        rw [hj] at h
        simp only [nextF] at h
        simp at h

theorem exprStmtAttempt_inv {buf : List TokKind} (hwf : WFbuf buf) (fuel : Nat) (c : Cursor)
    (hv : ValidC buf c) :
    (∀ s c' d, exprStmtAttempt buf fuel c = .ok s c' d →
      RunOK buf c (claimsS s ++ d) c' ∧ pos buf c < pos buf c') ∧
    (∀ c', exprStmtAttempt buf fuel c = .fail c' → c' = c) := by
  obtain ⟨ihPE, ihPL, ihPU, ihPC, ihPA, ihPQ, ihQT, ihTy, ihTS, ihPV, ihVR, ihVI⟩ :=
    exprInv_all hwf fuel
  constructor
  · intro s c' d h
    rw [exprStmtAttempt] at h
    split at h
    · rename_i e c1 d1 hpe
      have he := (ihPE c 1 false hv).1 e c1 d1 hpe
      split at h
      · rename_i hsemi
        obtain ⟨j, rfl, hkj⟩ := checkKind_some hsemi
        simp only [nextF] at h
        simp only [PRes.ok.injEq] at h
        obtain ⟨rfl, rfl, rfl⟩ := h
        have hadv := runOK_advance hwf (he.1.1 j rfl)
        have hseq := runOK_seq he.1 hadv
        refine ⟨runOK_congr (by intro k; simp [claimsS]; tauto) hseq, ?_⟩
        exact lt_of_lt_of_le he.2.1 hadv.2.1
      · simp at h
    · simp at h
    · simp at h
    · simp at h
  · intro c' h
    rw [exprStmtAttempt] at h
    split at h
    · split at h
      · rename_i hsemi
        obtain ⟨j, rfl, hkj⟩ := checkKind_some hsemi
        simp only [nextF] at h
        simp at h
      · simp only [PRes.fail.injEq] at h
        exact h.symm
    · simp only [PRes.fail.injEq] at h
      exact h.symm
    · simp at h
    · simp at h

theorem fnParams_inv {buf : List TokKind} (hwf : WFbuf buf) :
    ∀ fuel (c : Cursor), ValidC buf c →
      (∀ ps cms c' d, fnParams buf fuel c = .ok (ps, cms) c' d →
        RunOK buf c (claimsVDs ps ++ cms ++ d) c') ∧
      (∀ c', fnParams buf fuel c = .fail c' → FailOK buf c c') := by
  intro fuel
  induction fuel with
  | zero =>
    intro c hv
    exact ⟨fun ps cms c' d h => by simp [fnParams] at h,
           fun c' h => by simp [fnParams] at h⟩
  | succ fuel ih =>
    intro c hv
    obtain ⟨ihPE, ihPL, ihPU, ihPC, ihPA, ihPQ, ihQT, ihTy, ihTS, ihPV, ihVR, ihVI⟩ :=
      exprInv_all hwf fuel
    constructor
    · intro ps cms c' d h
      rw [fnParams] at h
      split at h
      · simp only [PRes.ok.injEq, Prod.mk.injEq] at h
        obtain ⟨⟨rfl, rfl⟩, rfl, rfl⟩ := h
        exact runOK_congr (by intro k; simp [claimsVDs]) (runOK_rfl hv)
      · split at h
        · rename_i vd c1 d1 hvd
          have hr := (ihPV c none true hv).1 rfl vd c1 d1 hvd
          split at h
          · rename_i hcm
            obtain ⟨j, rfl, hkj⟩ := checkKind_some hcm
            simp only [nextF] at h
            have hadv := runOK_advance hwf (hr.1.1 j rfl)
            split at h
            · rename_i ps2 cms2 c3 d3 hrec
              have hrr := (ih (advance buf (j+1)) hadv.1).1 ps2 cms2 c3 d3 hrec
              simp only [PRes.ok.injEq, Prod.mk.injEq] at h
              obtain ⟨⟨rfl, rfl⟩, rfl, rfl⟩ := h
              have hseq := runOK_seq hr.1 (runOK_seq hadv hrr)
              exact runOK_congr (by intro k; simp [claimsVDs]; tauto) hseq
            · simp at h
            · simp at h
            · simp at h
          · simp only [PRes.ok.injEq, Prod.mk.injEq] at h
            obtain ⟨⟨rfl, rfl⟩, rfl, rfl⟩ := h
            exact runOK_congr (by intro k; simp [claimsVDs]) hr.1
        · simp at h
        · simp at h
        · simp at h
    · intro c' h
      rw [fnParams] at h
      split at h
      · simp at h
      · split at h
        · rename_i vd c1 d1 hvd
          have hr := (ihPV c none true hv).1 rfl vd c1 d1 hvd
          split at h
          · rename_i hcm
            obtain ⟨j, rfl, hkj⟩ := checkKind_some hcm
            simp only [nextF] at h
            have hadv := runOK_advance hwf (hr.1.1 j rfl)
            split at h
            · simp at h
            · rename_i c3 hrec
              have hfr := (ih (advance buf (j+1)) hadv.1).2 c3 hrec
              simp only [PRes.fail.injEq] at h
              subst h
              have h1 := hr.1.2.1
              have h2 := hadv.2.1
              have h3 := hfr.2
              exact ⟨hfr.1, by omega⟩
            · simp at h
            · simp at h
          · simp at h
        · rename_i c1 hvd
          have hc1 := (ihPV c none true hv).2.2 c1 hvd
          simp only [PRes.fail.injEq] at h
          subst h
          subst hc1
          exact ⟨hv, le_rfl⟩
        · simp at h
        · simp at h

theorem parseFunctionDeclParams_inv {buf : List TokKind} (hwf : WFbuf buf) (fuel : Nat) :
    ∀ c0 statics retType nameTok (c : Cursor) dAcc, ValidC buf c →
      (∀ s c' d, parseFunctionDeclParams buf fuel c0 statics retType nameTok c dAcc =
          .ok s c' d →
        ∃ lp ps cms rp semis rest, s = .funcDecl statics retType nameTok lp ps cms rp semis none ∧
          d = dAcc ++ rest ∧
          RunOK buf c (lp :: claimsVDs ps ++ cms ++ rp :: semis ++ rest) c' ∧
          pos buf c < pos buf c') ∧
      (∀ c', parseFunctionDeclParams buf fuel c0 statics retType nameTok c dAcc = .fail c' →
        c' = c0) := by
  intro c0 statics retType nameTok c dAcc hv
  constructor
  · intro s c' d h
    rw [parseFunctionDeclParams] at h
    split at h
    · simp at h
    · rename_i hcond
      have hck : checkKind buf c .l_paren = true := by
        cases hc : checkKind buf c .l_paren <;> simp [hc] at hcond ⊢
      obtain ⟨i, rfl, hki⟩ := checkKind_some hck
      simp only [nextF] at h
      have hadv := runOK_advance hwf (hv i rfl)
      split at h
      · rename_i ps cms c2 d2 hfp
        have hrp := (fnParams_inv hwf fuel (advance buf (i+1)) hadv.1).1 ps cms c2 d2 hfp
        split at h
        · simp at h
        · rename_i hcond2
          have hck2 : checkKind buf c2 .r_paren = true := by
            cases hc : checkKind buf c2 .r_paren <;> simp [hc] at hcond2 ⊢
          obtain ⟨j, rfl, hkj⟩ := checkKind_some hck2
          simp only [nextF] at h
          have hadv2 := runOK_advance hwf (hrp.1 j rfl)
          split at h
          · rename_i u c4 d4 hsk
            have hrsk := (fnSkip_inv hwf fuel (advance buf (j+1)) hadv2.1).1 u c4 d4 hsk
            split at h
            · rename_i hsm
              obtain ⟨m, rfl, hkm⟩ := checkKind_some hsm
              simp only [nextF] at h
              have hadv3 := runOK_advance hwf (hrsk.1 m rfl)
              simp only [PRes.ok.injEq] at h
              obtain ⟨rfl, rfl, rfl⟩ := h
              have hseq := runOK_seq hadv (runOK_seq hrp
                (runOK_seq hadv2 (runOK_seq hrsk hadv3)))
              refine ⟨i, ps, cms, j, [m], d2 ++ d4, rfl, by simp, ?_, ?_⟩
              · exact runOK_congr (by intro k; simp; tauto) hseq
              · simpa [pos] using (hseq.2.2.1 i (by simp)).2
            · simp only [PRes.ok.injEq] at h
              obtain ⟨rfl, rfl, rfl⟩ := h
              have hseq := runOK_seq hadv (runOK_seq hrp (runOK_seq hadv2 hrsk))
              refine ⟨i, ps, cms, j, [], d2 ++ d4, rfl, by simp, ?_, ?_⟩
              · exact runOK_congr (by intro k; simp; tauto) hseq
              · simpa [pos] using (hseq.2.2.1 i (by simp)).2
          · rename_i c4 hsk
            exact absurd hsk (fun h2 => (fnSkip_inv hwf fuel (advance buf (j+1)) hadv2.1).2 c4 h2)
          · simp at h
          · simp at h
      · simp at h
      · simp at h
      · simp at h
  · intro c' h
    rw [parseFunctionDeclParams] at h
    split at h
    · simp only [PRes.fail.injEq] at h
      exact h.symm
    · rename_i hcond
      have hck : checkKind buf c .l_paren = true := by
        cases hc : checkKind buf c .l_paren <;> simp [hc] at hcond ⊢
      obtain ⟨i, rfl, hki⟩ := checkKind_some hck
      simp only [nextF] at h
      have hadv := runOK_advance hwf (hv i rfl)
      split at h
      · rename_i ps cms c2 d2 hfp
        have hrp := (fnParams_inv hwf fuel (advance buf (i+1)) hadv.1).1 ps cms c2 d2 hfp
        split at h
        · simp only [PRes.fail.injEq] at h
          exact h.symm
        · rename_i hcond2
          have hck2 : checkKind buf c2 .r_paren = true := by
            cases hc : checkKind buf c2 .r_paren <;> simp [hc] at hcond2 ⊢
          obtain ⟨j, rfl, hkj⟩ := checkKind_some hck2
          simp only [nextF] at h
          have hadv2 := runOK_advance hwf (hrp.1 j rfl)
          split at h
          · rename_i u c4 d4 hsk
            split at h
            · rename_i hsm
              obtain ⟨m, rfl, hkm⟩ := checkKind_some hsm
              simp only [nextF] at h
              simp at h
            · simp at h
          · rename_i c4 hsk
            exact absurd hsk (fun h2 => (fnSkip_inv hwf fuel (advance buf (j+1)) hadv2.1).2 c4 h2)
          · simp at h
          · simp at h
      · simp only [PRes.fail.injEq] at h
        exact h.symm
      · simp at h
      · simp at h

set_option maxHeartbeats 1000000 in
theorem pfd_core {buf : List TokKind} (hwf : WFbuf buf) (fuel : Nat) (c0 : Cursor)
    (st : List Nat) (c2 : Cursor) (nameOpt : Bool)
    (hv2 : ValidC buf c2) (hrs : RunOK buf c0 st c2) :
    (∀ s c' d,
      (match parseType buf fuel c2 true with
      | .ok t c1 d1 =>
        if checkKind buf c1 .identifier then
          match nextF buf c1 with
          | none => .crash
          | some (nm, c3) => parseFunctionDeclParams buf fuel c0 st (some t) (some nm) c3 d1
        else if !nameOpt then .fail c0
        else parseFunctionDeclParams buf fuel c0 st (some t) none c1 d1
      | .fail _ =>
        if nameOpt then
          match parseDestructor buf fuel c2 with
          | .ok (tl, t) c1 d1 => parseFunctionDeclParams buf fuel c0 st (some t) (some tl) c1 d1
          | .fail _ => .fail c0
          | .crash => .crash
          | .oom => .oom
        else .fail c0
      | .crash => .crash
      | .oom => .oom) = PRes.ok s c' d →
      RunOK buf c0 (claimsS s ++ d) c' ∧ pos buf c2 < pos buf c' ∧
      ∃ rt nm lp ps cms rp semis, s = .funcDecl st rt nm lp ps cms rp semis none) ∧
    (∀ c',
      (match parseType buf fuel c2 true with
      | .ok t c1 d1 =>
        if checkKind buf c1 .identifier then
          match nextF buf c1 with
          | none => .crash
          | some (nm, c3) => parseFunctionDeclParams buf fuel c0 st (some t) (some nm) c3 d1
        else if !nameOpt then .fail c0
        else parseFunctionDeclParams buf fuel c0 st (some t) none c1 d1
      | .fail _ =>
        if nameOpt then
          match parseDestructor buf fuel c2 with
          | .ok (tl, t) c1 d1 => parseFunctionDeclParams buf fuel c0 st (some t) (some tl) c1 d1
          | .fail _ => .fail c0
          | .crash => .crash
          | .oom => .oom
        else .fail c0
      | .crash => .crash
      | .oom => .oom) = PRes.fail c' →
      c' = c0) := by
  obtain ⟨ihPE, ihPL, ihPU, ihPC, ihPA, ihPQ, ihQT, ihTy, ihTS, ihPV, ihVR, ihVI⟩ :=
    exprInv_all hwf fuel
  constructor
  · intro s c' d h
    split at h
    · rename_i t cT d1 ht
      obtain ⟨hrt, htlt, htg, -⟩ := (ihTy c2 true hv2).1 t cT d1 ht
      split at h
      · rename_i hid
        obtain ⟨j, rfl, hkj⟩ := checkKind_some hid
        simp only [nextF] at h
        have hadv := runOK_advance hwf (hrt.1 j rfl)
        obtain ⟨lp, ps, cms, rp, semis, rest, rfl, rfl, hrun, hlt⟩ :=
          (parseFunctionDeclParams_inv hwf fuel c0 st (some t) (some j)
            (advance buf (j+1)) d1 hadv.1).1 s c' d h
        have hseq := runOK_seq hrs (runOK_seq hrt (runOK_seq hadv hrun))
        refine ⟨?_, ?_, some t, some j, lp, ps, cms, rp, semis, rfl⟩
        · refine runOK_congr ?_ hseq
          intro k
          simp [claimsS, claimsOT, claimsON, claimsOS]
          tauto
        · have h1 := hadv.2.1
          omega
      · split at h
        · simp at h
        · obtain ⟨lp, ps, cms, rp, semis, rest, rfl, rfl, hrun, hlt⟩ :=
            (parseFunctionDeclParams_inv hwf fuel c0 st (some t) none
              cT d1 hrt.1).1 s c' d h
          have hseq := runOK_seq hrs (runOK_seq hrt hrun)
          refine ⟨?_, ?_, some t, none, lp, ps, cms, rp, semis, rfl⟩
          · refine runOK_congr ?_ hseq
            intro k
            simp [claimsS, claimsOT, claimsON, claimsOS]
            tauto
          · omega
    · split at h
      · split at h
        · rename_i tl t cT d1 hdt
          obtain ⟨hrd, hdlt, hdg⟩ := (parseDestructor_inv hwf fuel c2 hv2).1 tl t cT d1 hdt
          obtain ⟨lp, ps, cms, rp, semis, rest, rfl, rfl, hrun, hlt⟩ :=
            (parseFunctionDeclParams_inv hwf fuel c0 st (some t) (some tl)
              cT d1 hrd.1).1 s c' d h
          have hseq := runOK_seq hrs (runOK_seq hrd hrun)
          refine ⟨?_, ?_, some t, some tl, lp, ps, cms, rp, semis, rfl⟩
          · refine runOK_congr ?_ hseq
            intro k
            simp [claimsS, claimsOT, claimsON, claimsOS]
            tauto
          · omega
        · simp at h
        · simp at h
        · simp at h
      · simp at h
    · simp at h
    · simp at h
  · intro c' h
    split at h
    · rename_i t cT d1 ht
      obtain ⟨hrt, htlt, htg, -⟩ := (ihTy c2 true hv2).1 t cT d1 ht
      split at h
      · rename_i hid
        obtain ⟨j, rfl, hkj⟩ := checkKind_some hid
        simp only [nextF] at h
        have hadv := runOK_advance hwf (hrt.1 j rfl)
        exact (parseFunctionDeclParams_inv hwf fuel c0 st (some t) (some j)
          (advance buf (j+1)) d1 hadv.1).2 c' h
      · split at h
        · simp only [PRes.fail.injEq] at h
          exact h.symm
        · exact (parseFunctionDeclParams_inv hwf fuel c0 st (some t) none
            cT d1 hrt.1).2 c' h
    · split at h
      · split at h
        · rename_i tl t cT d1 hdt
          obtain ⟨hrd, hdlt, hdg⟩ := (parseDestructor_inv hwf fuel c2 hv2).1 tl t cT d1 hdt
          exact (parseFunctionDeclParams_inv hwf fuel c0 st (some t) (some tl)
            cT d1 hrd.1).2 c' h
        · simp only [PRes.fail.injEq] at h
          exact h.symm
        · simp at h
        · simp at h
      · simp only [PRes.fail.injEq] at h
        exact h.symm
    · simp at h
    · simp at h

theorem parseFunctionDecl_inv {buf : List TokKind} (hwf : WFbuf buf) (fuel : Nat)
    (c : Cursor) (nameOpt : Bool) (hv : ValidC buf c) :
    (∀ f c' d, parseFunctionDecl buf fuel c nameOpt = .ok f c' d →
      RunOK buf c (claimsS f ++ d) c' ∧ pos buf c < pos buf c' ∧
      ∃ stx rt nm lp ps cms rp semis, f = .funcDecl stx rt nm lp ps cms rp semis none) ∧
    (∀ c', parseFunctionDecl buf fuel c nameOpt = .fail c' → c' = c) := by
  have main : ∀ (st : List Nat) (c2 : Cursor), ValidC buf c2 → RunOK buf c st c2 →
      (∀ f c' d,
        (match parseType buf fuel c2 true with
      | .ok t c1 d1 =>
        if checkKind buf c1 .identifier then
          match nextF buf c1 with
          | none => .crash
          | some (nm, c3) => parseFunctionDeclParams buf fuel c st (some t) (some nm) c3 d1
        else if !nameOpt then .fail c
        else parseFunctionDeclParams buf fuel c st (some t) none c1 d1
      | .fail _ =>
        if nameOpt then
          match parseDestructor buf fuel c2 with
          | .ok (tl, t) c1 d1 => parseFunctionDeclParams buf fuel c st (some t) (some tl) c1 d1
          | .fail _ => .fail c
          | .crash => .crash
          | .oom => .oom
        else .fail c
      | .crash => .crash
      | .oom => .oom) = PRes.ok f c' d →
        RunOK buf c (claimsS f ++ d) c' ∧ pos buf c < pos buf c' ∧
        ∃ stx rt nm lp ps cms rp semis, f = .funcDecl stx rt nm lp ps cms rp semis none) ∧
      (∀ c',
        (match parseType buf fuel c2 true with
      | .ok t c1 d1 =>
        if checkKind buf c1 .identifier then
          match nextF buf c1 with
          | none => .crash
          | some (nm, c3) => parseFunctionDeclParams buf fuel c st (some t) (some nm) c3 d1
        else if !nameOpt then .fail c
        else parseFunctionDeclParams buf fuel c st (some t) none c1 d1
      | .fail _ =>
        if nameOpt then
          match parseDestructor buf fuel c2 with
          | .ok (tl, t) c1 d1 => parseFunctionDeclParams buf fuel c st (some t) (some tl) c1 d1
          | .fail _ => .fail c
          | .crash => .crash
          | .oom => .oom
        else .fail c
      | .crash => .crash
      | .oom => .oom) = PRes.fail c' →
        c' = c) := by
    intro st c2 hv2 hrs
    constructor
    · intro f c' d h
      obtain ⟨hrun, hlt, rt, nm, lp, ps, cms, rp, semis, rfl⟩ :=
        (pfd_core hwf fuel c st c2 nameOpt hv2 hrs).1 f c' d h
      exact ⟨hrun, lt_of_le_of_lt hrs.2.1 hlt,
        st, rt, nm, lp, ps, cms, rp, semis, rfl⟩
    · intro c' h
      exact (pfd_core hwf fuel c st c2 nameOpt hv2 hrs).2 c' h
  constructor
  · intro f c' d h
    unfold parseFunctionDecl at h
    simp only [] at h
    cases c with
    | none =>
      simp only [] at h
      exact (main [] none validC_none (runOK_rfl validC_none)).1 f c' d h
    | some i =>
      simp only [] at h
      have hadv := runOK_advance hwf (hv i rfl)
      by_cases hst : kindAt buf i = TokKind.kw_static
      · rw [if_pos hst] at h
        simp only [nextF] at h
        rcases hadv1 : advance buf (i+1) with _ | i2
        · rw [hadv1] at h hadv
          simp only [] at h
          exact (main [i] none hadv.1 hadv).1 f c' d h
        · rw [hadv1] at h hadv
          simp only [] at h
          by_cases hvt : kindAt buf i2 = TokKind.kw_virtual
          · rw [if_pos hvt] at h
            simp only [nextF] at h
            have hadv2 := runOK_advance hwf (hadv.1 i2 rfl)
            exact (main ([i] ++ [i2]) (advance buf (i2+1)) hadv2.1
              (runOK_seq hadv hadv2)).1 f c' d h
          · rw [if_neg hvt] at h
            exact (main [i] (some i2) hadv.1 hadv).1 f c' d h
      · rw [if_neg hst] at h
        simp only [] at h
        by_cases hvt : kindAt buf i = TokKind.kw_virtual
        · rw [if_pos hvt] at h
          simp only [nextF] at h
          exact (main ([] ++ [i]) (advance buf (i+1)) hadv.1
            (runOK_seq (runOK_rfl hv) hadv)).1 f c' d h
        · rw [if_neg hvt] at h
          exact (main [] (some i) hv (runOK_rfl hv)).1 f c' d h
  · intro c' h
    unfold parseFunctionDecl at h
    simp only [] at h
    cases c with
    | none =>
      simp only [] at h
      exact (main [] none validC_none (runOK_rfl validC_none)).2 c' h
    | some i =>
      simp only [] at h
      have hadv := runOK_advance hwf (hv i rfl)
      by_cases hst : kindAt buf i = TokKind.kw_static
      · rw [if_pos hst] at h
        simp only [nextF] at h
        rcases hadv1 : advance buf (i+1) with _ | i2
        · rw [hadv1] at h hadv
          simp only [] at h
          exact (main [i] none hadv.1 hadv).2 c' h
        · rw [hadv1] at h hadv
          simp only [] at h
          by_cases hvt : kindAt buf i2 = TokKind.kw_virtual
          · rw [if_pos hvt] at h
            simp only [nextF] at h
            have hadv2 := runOK_advance hwf (hadv.1 i2 rfl)
            exact (main ([i] ++ [i2]) (advance buf (i2+1)) hadv2.1
              (runOK_seq hadv hadv2)).2 c' h
          · rw [if_neg hvt] at h
            exact (main [i] (some i2) hadv.1 hadv).2 c' h
      · rw [if_neg hst] at h
        simp only [] at h
        by_cases hvt : kindAt buf i = TokKind.kw_virtual
        · rw [if_pos hvt] at h
          simp only [nextF] at h
          exact (main ([] ++ [i]) (advance buf (i+1)) hadv.1
            (runOK_seq (runOK_rfl hv) hadv)).2 c' h
        · rw [if_neg hvt] at h
          exact (main [] (some i) hv (runOK_rfl hv)).2 c' h

theorem declLoop_inv {buf : List TokKind} (hwf : WFbuf buf) :
    ∀ fuel (c : Cursor) tn, ValidC buf c → decorToks tn = [] →
      (∀ ds cms s c' d, declLoop buf fuel c tn = .ok (ds, cms, s) c' d →
        ValidC buf c' ∧ pos buf c < pos buf c' ∧
        (∀ k, k ∈ claimsVDs ds ++ cms ++ s :: d →
          k ∈ claimsT tn ∨ (pos buf c ≤ k ∧ k < pos buf c')) ∧
        (ds ≠ [] → ∀ k, k ∈ claimsT tn → k ∈ claimsVDs ds) ∧
        (∀ k, pos buf c ≤ k → k < pos buf c' → realTok buf k →
          k ∈ claimsVDs ds ++ cms ++ s :: d)) ∧
      (∀ c', declLoop buf fuel c tn = .fail c' → FailOK buf c c') := by
  intro fuel
  induction fuel with
  | zero =>
    intro c tn hv hdn
    exact ⟨fun ds cms s c' d h => by simp [declLoop] at h,
           fun c' h => by simp [declLoop] at h⟩
  | succ fuel ih =>
    intro c tn hv hdn
    obtain ⟨ihPE, ihPL, ihPU, ihPC, ihPA, ihPQ, ihQT, ihTy, ihTS, ihPV, ihVR, ihVI⟩ :=
      exprInv_all hwf fuel
    constructor
    · intro ds cms s c' d h
      rw [declLoop.eq_def] at h
      cases c with
      | none => simp at h
      | some i =>
        simp only [] at h
        have hadv0 := runOK_advance hwf (hv i rfl)
        split at h
        · rename_i hsemi
          simp only [nextF] at h
          simp only [PRes.ok.injEq, Prod.mk.injEq] at h
          obtain ⟨⟨rfl, rfl, rfl⟩, rfl, rfl⟩ := h
          refine ⟨hadv0.1, ?_, ?_, ?_, ?_⟩
          · simpa [pos] using (hadv0.2.2.1 i (by simp)).2
          · intro k hk
            simp only [claimsVDs, List.mem_append, List.mem_cons, List.not_mem_nil] at hk
            rcases hk with ((hk | hk) | hk) | (hk | hk)
            all_goals first
              | exact absurd hk (by simp)
              | (subst hk; exact Or.inr (hadv0.2.2.1 k (by simp)))
          · intro hne
            exact absurd rfl hne
          · intro k h1 h2 hr
            have := hadv0.2.2.2 k h1 h2 hr
            have hki : k = i := by simpa using this
            subst hki
            simp [claimsVDs]
        · split at h
          · rename_i vd c1 d1 hvd
            obtain ⟨hv1, hle1, hbnd1, hpres1, hcov1⟩ :=
              (ihPV (some i) (some tn) false hv).2.1 tn rfl hdn vd c1 d1 hvd
            split at h
            · rename_i hcm
              obtain ⟨j, rfl, hkj⟩ := checkKind_some hcm
              simp only [nextF] at h
              have hadv := runOK_advance hwf (hv1 j rfl)
              split at h
              · rename_i ds2 cms2 s2 c3 d3 hrec
                obtain ⟨hv3, hlt3, hbnd3, hpres3, hcov3⟩ :=
                  (ih (advance buf (j+1)) tn hadv.1 hdn).1 ds2 cms2 s2 c3 d3 hrec
                simp only [PRes.ok.injEq, Prod.mk.injEq] at h
                obtain ⟨⟨rfl, rfl, rfl⟩, rfl, rfl⟩ := h
                have hj1 : pos buf (some i) ≤ j := by simpa [pos] using hle1
                have hj2 : j < pos buf (advance buf (j+1)) := by
                  simpa [pos] using (hadv.2.2.1 j (by simp)).2
                refine ⟨hv3, by omega, ?_, ?_, ?_⟩
                · intro k hk
                  simp only [claimsVDs, List.mem_append, List.mem_cons] at hk
                  rcases hk with ((hk | hk) | (hk | hk)) | (hk | (hk | hk))
                  · rcases hbnd1 k (by simp [hk]) with hk2 | hk2
                    · exact Or.inl hk2
                    · refine Or.inr ⟨hk2.1, ?_⟩
                      have h5 : k < j := by simpa [pos] using hk2.2
                      omega
                  · rcases hbnd3 k (by simp [hk]) with hk2 | hk2
                    · exact Or.inl hk2
                    · exact Or.inr ⟨by omega, hk2.2⟩
                  · subst hk
                    refine Or.inr ⟨by simpa [pos] using hle1, by omega⟩
                  · rcases hbnd3 k (by simp [hk]) with hk2 | hk2
                    · exact Or.inl hk2
                    · exact Or.inr ⟨by omega, hk2.2⟩
                  · rcases hbnd3 k (by simp [hk]) with hk2 | hk2
                    · exact Or.inl hk2
                    · exact Or.inr ⟨by omega, hk2.2⟩
                  · rcases hbnd1 k (by simp [hk]) with hk2 | hk2
                    · exact Or.inl hk2
                    · refine Or.inr ⟨hk2.1, ?_⟩
                      have h5 : k < j := by simpa [pos] using hk2.2
                      omega
                  · rcases hbnd3 k (by simp [hk]) with hk2 | hk2
                    · exact Or.inl hk2
                    · exact Or.inr ⟨by omega, hk2.2⟩
                · intro hne k hk
                  simp only [claimsVDs, List.mem_append]
                  exact Or.inl (hpres1 k hk)
                · intro k h1 h2 hr
                  by_cases ha : k < pos buf (some j)
                  · have := hcov1 k h1 ha hr
                    simp only [List.mem_append] at this
                    simp only [claimsVDs, List.mem_append, List.mem_cons]
                    tauto
                  · by_cases hb : k < pos buf (advance buf (j+1))
                    · have hk2 := hadv.2.2.2 k (by simpa [pos] using ha) hb hr
                      have hki : k = j := by simpa using hk2
                      subst hki
                      simp [claimsVDs]
                    · have haj : pos buf (some j) = j := by simp [pos]
                      have := hcov3 k (by omega) h2 hr
                      simp only [List.mem_append, List.mem_cons] at this
                      simp only [claimsVDs, List.mem_append, List.mem_cons]
                      tauto
              · simp at h
              · simp at h
              · simp at h
            · split at h
              · rename_i hsm
                split at h
                · rename_i ds2 cms2 s2 c2 d2 hrec
                  obtain ⟨hv3, hlt3, hbnd3, hpres3, hcov3⟩ :=
                    (ih c1 tn hv1 hdn).1 ds2 cms2 s2 c2 d2 hrec
                  simp only [PRes.ok.injEq, Prod.mk.injEq] at h
                  obtain ⟨⟨rfl, rfl, rfl⟩, rfl, rfl⟩ := h
                  refine ⟨hv3, by omega, ?_, ?_, ?_⟩
                  · intro k hk
                    simp only [claimsVDs, List.mem_append, List.mem_cons] at hk
                    rcases hk with ((hk | hk) | hk) | (hk | (hk | hk))
                    · rcases hbnd1 k (by simp [hk]) with hk2 | hk2
                      · exact Or.inl hk2
                      · exact Or.inr ⟨hk2.1, by omega⟩
                    · rcases hbnd3 k (by simp [hk]) with hk2 | hk2
                      · exact Or.inl hk2
                      · exact Or.inr ⟨by omega, hk2.2⟩
                    · rcases hbnd3 k (by simp [hk]) with hk2 | hk2
                      · exact Or.inl hk2
                      · exact Or.inr ⟨by omega, hk2.2⟩
                    · rcases hbnd3 k (by simp [hk]) with hk2 | hk2
                      · exact Or.inl hk2
                      · exact Or.inr ⟨by omega, hk2.2⟩
                    · rcases hbnd1 k (by simp [hk]) with hk2 | hk2
                      · exact Or.inl hk2
                      · exact Or.inr ⟨hk2.1, by omega⟩
                    · rcases hbnd3 k (by simp [hk]) with hk2 | hk2
                      · exact Or.inl hk2
                      · exact Or.inr ⟨by omega, hk2.2⟩
                  · intro hne k hk
                    simp only [claimsVDs, List.mem_append]
                    exact Or.inl (hpres1 k hk)
                  · intro k h1 h2 hr
                    by_cases ha : k < pos buf c1
                    · have := hcov1 k h1 ha hr
                      simp only [List.mem_append] at this
                      simp only [claimsVDs, List.mem_append, List.mem_cons]
                      tauto
                    · have := hcov3 k (by omega) h2 hr
                      simp only [List.mem_append, List.mem_cons] at this
                      simp only [claimsVDs, List.mem_append, List.mem_cons]
                      tauto
                · simp at h
                · simp at h
                · simp at h
              · simp at h
          · simp at h
          · simp at h
          · simp at h
    · intro c' h
      rw [declLoop.eq_def] at h
      cases c with
      | none =>
        simp only [] at h
        simp only [PRes.fail.injEq] at h
        subst h
        exact ⟨validC_none, le_rfl⟩
      | some i =>
        simp only [] at h
        split at h
        · simp only [nextF] at h
          simp at h
        · split at h
          · rename_i vd c1 d1 hvd
            obtain ⟨hv1, hle1, hbnd1, hpres1, hcov1⟩ :=
              (ihPV (some i) (some tn) false hv).2.1 tn rfl hdn vd c1 d1 hvd
            split at h
            · rename_i hcm
              obtain ⟨j, rfl, hkj⟩ := checkKind_some hcm
              simp only [nextF] at h
              have hadv := runOK_advance hwf (hv1 j rfl)
              split at h
              · simp at h
              · rename_i c3 hrec
                have hfr := (ih (advance buf (j+1)) tn hadv.1 hdn).2 c3 hrec
                simp only [PRes.fail.injEq] at h
                subst h
                have h1 := hadv.2.1
                have h2 := hfr.2
                have h3 : pos buf (some i) ≤ j := by simpa [pos] using hle1
                refine ⟨hfr.1, ?_⟩
                have h5 : pos buf (some j) = j := by simp [pos]
                omega
              · simp at h
              · simp at h
            · split at h
              · split at h
                · simp at h
                · rename_i c2 hrec
                  have hfr := (ih c1 tn hv1 hdn).2 c2 hrec
                  simp only [PRes.fail.injEq] at h
                  subst h
                  exact ⟨hfr.1, le_trans hle1 hfr.2⟩
                · simp at h
                · simp at h
              · simp only [PRes.fail.injEq] at h
                subst h
                exact ⟨hv1, hle1⟩
          · rename_i c1 hvd
            have hc1 := (ihPV (some i) (some tn) false hv).2.2 c1 hvd
            simp only [PRes.fail.injEq] at h
            subst h
            subst hc1
            exact ⟨hv, le_rfl⟩
          · simp at h
          · simp at h

theorem parseDeclStmt_inv {buf : List TokKind} (hwf : WFbuf buf) (fuel : Nat) (c : Cursor)
    (hv : ValidC buf c) :
    (∀ s c' d, parseDeclStmt buf fuel c = .ok s c' d →
      RunOK buf c (claimsS s ++ d) c' ∧ pos buf c < pos buf c') ∧
    (∀ c', parseDeclStmt buf fuel c = .fail c' → c' = c) := by
  obtain ⟨ihPE, ihPL, ihPU, ihPC, ihPA, ihPQ, ihQT, ihTy, ihTS, ihPV, ihVR, ihVI⟩ :=
    exprInv_all hwf fuel
  constructor
  · intro s c' d h
    rw [parseDeclStmt] at h
    split at h
    · rename_i tn c1 d1 ht
      obtain ⟨hrt, htlt, htg, hdec⟩ := (ihTy c false hv).1 tn c1 d1 ht
      split at h
      · rename_i ds cms st c2 d2 hdl
        obtain ⟨hv2, hlt2, hbnd2, hpres2, hcov2⟩ :=
          (declLoop_inv hwf fuel c1 tn hrt.1 (hdec rfl)).1 ds cms st c2 d2 hdl
        simp only [PRes.ok.injEq] at h
        obtain ⟨rfl, rfl, rfl⟩ := h
        refine ⟨?_, by omega⟩
        refine runOK_absorb hrt hv2 (le_of_lt hlt2) ?_ ?_ ?_
        · intro k hk
          have hk2 : k ∈ claimsVDs ds ∨ k ∈ cms ∨ k = st ∨ k ∈ d1 ∨ k ∈ d2 ∨
              k ∈ (if ds.isEmpty then claimsT tn else []) := by
            simp only [claimsS, List.mem_append, List.mem_cons, List.not_mem_nil,
              or_false] at hk
            tauto
          rcases hk2 with hk1 | hk1 | hk1 | hk1 | hk1 | hk1
          · rcases hbnd2 k (by simp [hk1]) with hk3 | hk3
            · exact Or.inl (by simp [hk3])
            · exact Or.inr hk3
          · rcases hbnd2 k (by simp [hk1]) with hk3 | hk3
            · exact Or.inl (by simp [hk3])
            · exact Or.inr hk3
          · rcases hbnd2 k (by simp [hk1]) with hk3 | hk3
            · exact Or.inl (by simp [hk3])
            · exact Or.inr hk3
          · exact Or.inl (by simp [hk1])
          · rcases hbnd2 k (by simp [hk1]) with hk3 | hk3
            · exact Or.inl (by simp [hk3])
            · exact Or.inr hk3
          · by_cases hde : ds.isEmpty
            · rw [if_pos hde] at hk1
              exact Or.inl (by simp [hk1])
            · rw [if_neg hde] at hk1
              exact absurd hk1 (by simp)
        · intro k hk
          rcases List.mem_append.mp hk with hk1 | hk1
          · by_cases hde : ds.isEmpty
            · refine List.mem_append.mpr (Or.inr ?_)
              refine List.mem_append.mpr (Or.inr ?_)
              rw [if_pos hde]
              exact hk1
            · have hne : ds ≠ [] := by
                cases ds with
                | nil => simp at hde
                | cons a as => simp
              have := hpres2 hne k hk1
              simp only [claimsS, List.mem_append]
              tauto
          · simp only [claimsS, List.mem_append]
            tauto
        · intro k h1 h2 hr
          have := hcov2 k h1 h2 hr
          simp only [List.mem_append, List.mem_cons] at this
          simp only [claimsS, List.mem_append, List.mem_cons]
          tauto
      · simp at h
      · simp at h
      · simp at h
    · simp at h
    · simp at h
    · simp at h
  · intro c' h
    rw [parseDeclStmt] at h
    split at h
    · split at h
      · simp at h
      · simp only [PRes.fail.injEq] at h
        exact h.symm
      · simp at h
      · simp at h
    · simp only [PRes.fail.injEq] at h
      exact h.symm
    · simp at h
    · simp at h

theorem baseLoop_inv {buf : List TokKind} (hwf : WFbuf buf) :
    ∀ fuel (c : Cursor), ValidC buf c →
      (∀ bs sk c' d, baseLoop buf fuel c = .ok (bs, sk) c' d →
        RunOK buf c (claimsBs bs ++ d) c') ∧
      (∀ c', baseLoop buf fuel c ≠ .fail c') := by
  intro fuel
  induction fuel with
  | zero =>
    intro c hv
    exact ⟨fun bs sk c' d h => by simp [baseLoop] at h,
           fun c' h => by simp [baseLoop] at h⟩
  | succ fuel ih =>
    intro c hv
    obtain ⟨ihPE, ihPL, ihPU, ihPC, ihPA, ihPQ, ihQT, ihTy, ihTS, ihPV, ihVR, ihVI⟩ :=
      exprInv_all hwf fuel
    have main : ∀ (a1 : Option Nat) (c1 : Cursor), ValidC buf c1 →
        RunOK buf c (claimsON a1) c1 →
        (∀ bs sk c' d,
          (match parseType buf fuel c1 false with
        | .fail cf => PRes.ok ([], true) cf (rangeList (pos buf c) (pos buf cf))
        | .ok t c2 d2 =>
          if checkKind buf c2 .l_brace then .ok ([.mk a1 t none], false) c2 d2
          else if !checkKind buf c2 .comma then
            .ok ([], true) c2 (rangeList (pos buf c) (pos buf c2))
          else
            match nextF buf c2 with
            | none => .crash
            | some (cm, c3) =>
              match baseLoop buf fuel c3 with
              | .ok (bs, sk) c4 d4 => .ok (.mk a1 t (some cm) :: bs, sk) c4 (d2 ++ d4)
              | .fail c4 => .fail c4
              | .crash => .crash
              | .oom => .oom
        | .crash => .crash
        | .oom => .oom) = PRes.ok (bs, sk) c' d →
          RunOK buf c (claimsBs bs ++ d) c') ∧
        (∀ c',
          (match parseType buf fuel c1 false with
        | .fail cf => PRes.ok ([], true) cf (rangeList (pos buf c) (pos buf cf))
        | .ok t c2 d2 =>
          if checkKind buf c2 .l_brace then .ok ([.mk a1 t none], false) c2 d2
          else if !checkKind buf c2 .comma then
            .ok ([], true) c2 (rangeList (pos buf c) (pos buf c2))
          else
            match nextF buf c2 with
            | none => .crash
            | some (cm, c3) =>
              match baseLoop buf fuel c3 with
              | .ok (bs, sk) c4 d4 => .ok (.mk a1 t (some cm) :: bs, sk) c4 (d2 ++ d4)
              | .fail c4 => .fail c4
              | .crash => .crash
              | .oom => .oom
        | .crash => .crash
        | .oom => .oom) ≠ PRes.fail c') := by
      intro a1 c1 hv1 hacc
      constructor
      · intro bs sk c' d h
        split at h
        · rename_i cf hft
          have hcf := (ihTy c1 false hv1).2 cf hft
          subst hcf
          simp only [PRes.ok.injEq, Prod.mk.injEq] at h
          obtain ⟨⟨rfl, rfl⟩, rfl, rfl⟩ := h
          exact runOK_congr (by intro k; simp [claimsBs, rangeList_mem])
            (runOK_range hacc.1 hacc.2.1)
        · rename_i t c2 d2 ht
          obtain ⟨hrt, htlt, htg, -⟩ := (ihTy c1 false hv1).1 t c2 d2 ht
          have hseq0 := runOK_seq hacc hrt
          split at h
          · simp only [PRes.ok.injEq, Prod.mk.injEq] at h
            obtain ⟨⟨rfl, rfl⟩, rfl, rfl⟩ := h
            refine runOK_congr ?_ hseq0
            intro k
            simp [claimsBs, claimsB, claimsON]
          · split at h
            · simp only [PRes.ok.injEq, Prod.mk.injEq] at h
              obtain ⟨⟨rfl, rfl⟩, rfl, rfl⟩ := h
              exact runOK_congr (by intro k; simp [claimsBs, rangeList_mem])
                (runOK_range hseq0.1 hseq0.2.1)
            · rename_i hcond
              have hcm : checkKind buf c2 .comma = true := by
                cases hc : checkKind buf c2 .comma <;> simp [hc] at hcond ⊢
              obtain ⟨j, rfl, hkj⟩ := checkKind_some hcm
              simp only [nextF] at h
              have hadv := runOK_advance hwf (hrt.1 j rfl)
              split at h
              · rename_i bs2 sk2 c4 d4 hrec
                have hrr := (ih (advance buf (j+1)) hadv.1).1 bs2 sk2 c4 d4 hrec
                simp only [PRes.ok.injEq, Prod.mk.injEq] at h
                obtain ⟨⟨rfl, rfl⟩, rfl, rfl⟩ := h
                have hseq := runOK_seq hacc (runOK_seq hrt (runOK_seq hadv hrr))
                refine runOK_congr ?_ hseq
                intro k
                simp [claimsBs, claimsB, claimsON]
                tauto
              · simp at h
              · simp at h
              · simp at h
        · simp at h
        · simp at h
      · intro c' h
        split at h
        · simp at h
        · rename_i t c2 d2 ht
          obtain ⟨hrt, htlt, htg, -⟩ := (ihTy c1 false hv1).1 t c2 d2 ht
          split at h
          · simp at h
          · split at h
            · simp at h
            · rename_i hcond
              have hcm : checkKind buf c2 .comma = true := by
                cases hc : checkKind buf c2 .comma <;> simp [hc] at hcond ⊢
              obtain ⟨j, rfl, hkj⟩ := checkKind_some hcm
              simp only [nextF] at h
              have hadv := runOK_advance hwf (hrt.1 j rfl)
              split at h
              · simp at h
              · rename_i c4 hrec
                exact absurd hrec (fun h2 => (ih (advance buf (j+1)) hadv.1).2 c4 h2)
              · simp at h
              · simp at h
        · simp at h
        · simp at h
    constructor
    · intro bs sk c' d h
      rw [baseLoop.eq_def] at h
      simp only [] at h
      cases c with
      | none =>
        simp only [] at h
        exact (main none none validC_none
          (runOK_congr (by intro k; simp [claimsON]) (runOK_rfl validC_none))).1 bs sk c' d h
      | some i =>
        simp only [] at h
        have hadv := runOK_advance hwf (hv i rfl)
        by_cases hac : kindAt buf i = TokKind.kw_private ∨ kindAt buf i = TokKind.kw_protected ∨
            kindAt buf i = TokKind.kw_public
        · rw [if_pos hac] at h
          simp only [nextF] at h
          exact (main (some i) (advance buf (i+1)) hadv.1
            (runOK_congr (by intro k; simp [claimsON]) hadv)).1 bs sk c' d h
        · rw [if_neg hac] at h
          exact (main none (some i) hv
            (runOK_congr (by intro k; simp [claimsON]) (runOK_rfl hv))).1 bs sk c' d h
    · intro c' h
      rw [baseLoop.eq_def] at h
      simp only [] at h
      cases c with
      | none =>
        simp only [] at h
        exact (main none none validC_none
          (runOK_congr (by intro k; simp [claimsON]) (runOK_rfl validC_none))).2 c' h
      | some i =>
        simp only [] at h
        have hadv := runOK_advance hwf (hv i rfl)
        by_cases hac : kindAt buf i = TokKind.kw_private ∨ kindAt buf i = TokKind.kw_protected ∨
            kindAt buf i = TokKind.kw_public
        · rw [if_pos hac] at h
          simp only [nextF] at h
          exact (main (some i) (advance buf (i+1)) hadv.1
            (runOK_congr (by intro k; simp [claimsON]) hadv)).2 c' h
        · rw [if_neg hac] at h
          exact (main none (some i) hv
            (runOK_congr (by intro k; simp [claimsON]) (runOK_rfl hv))).2 c' h

theorem claimsSs_append (a b : List Stmt) :
    claimsSs (a ++ b) = claimsSs a ++ claimsSs b := by
  induction a with
  | nil => simp [claimsSs]
  | cons s ss ih => simp [claimsSs, ih]

theorem stmtInv_zero (buf : List TokKind) : StmtInv buf 0 :=
  ⟨fun c sk no _ =>
    ⟨fun s c' d h => by simp [parseAny] at h,
     fun c' h => by simp [parseAny] at h⟩,
   fun c _ =>
    ⟨fun sts fl c' d h => by simp [parseScope] at h,
     fun c' h => by simp [parseScope] at h⟩,
   fun c _ =>
    ⟨fun s c' d h => by simp [parseCompoundStmt] at h,
     fun c' h => by simp [parseCompoundStmt] at h⟩,
   fun c _ =>
    ⟨fun lbs sts rbs semis fl c' d h => by simp [parseClassScope] at h,
     fun c' h => by simp [parseClassScope] at h⟩,
   fun c _ =>
    ⟨fun s c' d h => by simp [parseClassDecl] at h,
     fun c' h => by simp [parseClassDecl] at h⟩,
   fun c0 ct nt col bs c5 dAcc _ =>
    ⟨fun s c' d h => by simp [parseClassTail] at h,
     fun c' h => by simp [parseClassTail] at h⟩⟩

theorem step_parseScope {buf : List TokKind} (hwf : WFbuf buf) {fuel : Nat}
    (ih : StmtInv buf fuel) :
    ∀ c, ValidC buf c →
      (∀ sts fl c' d, parseScope buf (fuel+1) c = .ok (sts, fl) c' d →
        RunOK buf c (claimsSs sts ++ d) c') ∧
      (∀ c', parseScope buf (fuel+1) c ≠ .fail c') := by
  obtain ⟨ihAny, ihSc, ihCS, ihCLS, ihCD, ihCT⟩ := ih
  intro c hv
  constructor
  · intro sts fl c' d h
    rw [parseScope] at h
    split at h
    · simp only [PRes.ok.injEq, Prod.mk.injEq] at h
      obtain ⟨⟨rfl, rfl⟩, rfl, rfl⟩ := h
      exact runOK_congr (by intro k; simp [claimsSs]) (runOK_rfl hv)
    · split at h
      · rename_i s c1 d1 hok
        have ha := (ihAny c true true hv).1 s c1 d1 hok
        cases c1 with
        | none =>
          simp only [] at h
          simp only [PRes.ok.injEq, Prod.mk.injEq] at h
          obtain ⟨⟨rfl, rfl⟩, rfl, rfl⟩ := h
          exact runOK_congr (by intro k; simp [claimsSs]) ha.1
        | some i =>
          simp only [] at h
          split at h
          · simp only [PRes.ok.injEq, Prod.mk.injEq] at h
            obtain ⟨⟨rfl, rfl⟩, rfl, rfl⟩ := h
            exact runOK_congr (by intro k; simp [claimsSs]) ha.1
          · split at h
            · rename_i sts2 fl2 c2 d2 hr
              have hrec := (ihSc (some i) ha.1.1).1 sts2 fl2 c2 d2 hr
              simp only [PRes.ok.injEq, Prod.mk.injEq] at h
              obtain ⟨⟨rfl, rfl⟩, rfl, rfl⟩ := h
              have hseq := runOK_seq ha.1 hrec
              refine runOK_congr ?_ hseq
              intro k
              simp [claimsSs]
              tauto
            · simp at h
            · simp at h
            · simp at h
      · rename_i c1 hf
        exact absurd ((ihAny c true true hv).2 c1 hf).2 (by simp)
      · simp at h
      · simp at h
  · intro c' h
    rw [parseScope] at h
    split at h
    · simp at h
    · split at h
      · rename_i s c1 d1 hok
        have ha := (ihAny c true true hv).1 s c1 d1 hok
        cases c1 with
        | none => simp only [] at h; simp at h
        | some i =>
          simp only [] at h
          split at h
          · simp at h
          · split at h
            · simp at h
            · rename_i c2 hr
              exact (ihSc (some i) ha.1.1).2 c2 hr
            · simp at h
            · simp at h
      · rename_i c1 hf
        exact absurd ((ihAny c true true hv).2 c1 hf).2 (by simp)
      · simp at h
      · simp at h

theorem step_parseCompoundStmt {buf : List TokKind} (hwf : WFbuf buf) {fuel : Nat}
    (ih : StmtInv buf fuel) :
    ∀ c, ValidC buf c →
      (∀ s c' d, parseCompoundStmt buf (fuel+1) c = .ok s c' d →
        RunOK buf c (claimsS s ++ d) c' ∧ pos buf c < pos buf c') ∧
      (∀ c', parseCompoundStmt buf (fuel+1) c = .fail c' → c' = c) := by
  obtain ⟨ihAny, ihSc, ihCS, ihCLS, ihCD, ihCT⟩ := ih
  intro c hv
  constructor
  · intro s c' d h
    rw [parseCompoundStmt] at h
    split at h
    · simp at h
    · rename_i hcond
      have hck : checkKind buf c .l_brace = true := by
        cases hc : checkKind buf c .l_brace <;> simp [hc] at hcond ⊢
      obtain ⟨i, rfl, hki⟩ := checkKind_some hck
      simp only [nextF] at h
      have hadv := runOK_advance hwf (hv i rfl)
      split at h
      · rename_i sts fl c2 d2 hsc
        have hrs := (ihSc (advance buf (i+1)) hadv.1).1 sts fl c2 d2 hsc
        split at h
        · rename_i hrb
          obtain ⟨j, rfl, hkj⟩ := checkKind_some hrb
          simp only [nextF] at h
          simp only [PRes.ok.injEq] at h
          obtain ⟨rfl, rfl, rfl⟩ := h
          have hadv2 := runOK_advance hwf (hrs.1 j rfl)
          have hseq := runOK_seq hadv (runOK_seq hrs hadv2)
          refine ⟨?_, ?_⟩
          · refine runOK_congr ?_ hseq
            intro k
            simp [claimsS, claimsSs, claimsON]
            tauto
          · simpa [pos] using (hseq.2.2.1 i (by simp)).2
        · simp only [PRes.ok.injEq] at h
          obtain ⟨rfl, rfl, rfl⟩ := h
          have hseq := runOK_seq hadv hrs
          refine ⟨?_, ?_⟩
          · refine runOK_congr ?_ hseq
            intro k
            simp [claimsS, claimsSs, claimsON]
          · simpa [pos] using (hseq.2.2.1 i (by simp)).2
      · rename_i c2 hsc
        exact absurd hsc (fun h2 => (ihSc (advance buf (i+1)) hadv.1).2 c2 h2)
      · simp at h
      · simp at h
  · intro c' h
    rw [parseCompoundStmt] at h
    split at h
    · simp only [PRes.fail.injEq] at h
      exact h.symm
    · rename_i hcond
      have hck : checkKind buf c .l_brace = true := by
        cases hc : checkKind buf c .l_brace <;> simp [hc] at hcond ⊢
      obtain ⟨i, rfl, hki⟩ := checkKind_some hck
      simp only [nextF] at h
      have hadv := runOK_advance hwf (hv i rfl)
      split at h
      · split at h
        · rename_i hrb
          obtain ⟨j, rfl, hkj⟩ := checkKind_some hrb
          simp only [nextF] at h
          simp at h
        · simp at h
      · rename_i c2 hsc
        exact absurd hsc (fun h2 => (ihSc (advance buf (i+1)) hadv.1).2 c2 h2)
      · simp at h
      · simp at h

theorem step_parseClassScope {buf : List TokKind} (hwf : WFbuf buf) {fuel : Nat}
    (ih : StmtInv buf fuel) :
    ∀ c, ValidC buf c →
      (∀ lbs sts rbs semis fl c' d,
        parseClassScope buf (fuel+1) c = .ok (lbs, sts, rbs, semis, fl) c' d →
        RunOK buf c (lbs ++ claimsSs sts ++ rbs ++ semis ++ d) c') ∧
      (∀ c', parseClassScope buf (fuel+1) c ≠ .fail c') := by
  obtain ⟨ihAny, ihSc, ihCS, ihCLS, ihCD, ihCT⟩ := ih
  intro c hv
  constructor
  · intro lbs sts rbs semis fl c' d h
    rw [parseClassScope] at h
    split at h
    · simp only [PRes.ok.injEq, Prod.mk.injEq] at h
      obtain ⟨⟨rfl, rfl, rfl, rfl, rfl⟩, rfl, rfl⟩ := h
      exact runOK_congr (by intro k; simp [claimsSs]) (runOK_rfl hv)
    · rename_i hcond
      have hck : checkKind buf c .l_brace = true := by
        cases hc : checkKind buf c .l_brace <;> simp [hc] at hcond ⊢
      obtain ⟨i, rfl, hki⟩ := checkKind_some hck
      simp only [nextF] at h
      have hadv := runOK_advance hwf (hv i rfl)
      split at h
      · rename_i sts2 fl2 c2 d2 hsc
        have hrs := (ihSc (advance buf (i+1)) hadv.1).1 sts2 fl2 c2 d2 hsc
        split at h
        · split at h
          · rename_i hrb
            obtain ⟨j, rfl, hkj⟩ := checkKind_some hrb
            simp only [nextF] at h
            have hadv2 := runOK_advance hwf (hrs.1 j rfl)
            split at h
            · rename_i hsm
              obtain ⟨m, hm, hkm⟩ := checkKind_some hsm
              rw [hm] at h
              simp only [nextF] at h
              simp only [PRes.ok.injEq, Prod.mk.injEq] at h
              obtain ⟨⟨rfl, rfl, rfl, rfl, rfl⟩, rfl, rfl⟩ := h
              rw [hm] at hadv2
              have hadv3 := runOK_advance hwf (hadv2.1 m rfl)
              have hseq := runOK_seq hadv (runOK_seq hrs (runOK_seq hadv2 hadv3))
              refine runOK_congr ?_ hseq
              intro k
              simp [claimsSs]
              tauto
            · simp only [PRes.ok.injEq, Prod.mk.injEq] at h
              obtain ⟨⟨rfl, rfl, rfl, rfl, rfl⟩, rfl, rfl⟩ := h
              have hseq := runOK_seq hadv (runOK_seq hrs hadv2)
              refine runOK_congr ?_ hseq
              intro k
              simp [claimsSs]
              tauto
          · split at h
            · rename_i hsm
              obtain ⟨j, rfl, hkj⟩ := checkKind_some hsm
              simp only [nextF] at h
              have hadv2 := runOK_advance hwf (hrs.1 j rfl)
              simp only [PRes.ok.injEq, Prod.mk.injEq] at h
              obtain ⟨⟨rfl, rfl, rfl, rfl, rfl⟩, rfl, rfl⟩ := h
              have hseq := runOK_seq hadv (runOK_seq hrs hadv2)
              refine runOK_congr ?_ hseq
              intro k
              simp [claimsSs]
              tauto
            · simp only [PRes.ok.injEq, Prod.mk.injEq] at h
              obtain ⟨⟨rfl, rfl, rfl, rfl, rfl⟩, rfl, rfl⟩ := h
              have hseq := runOK_seq hadv hrs
              refine runOK_congr ?_ hseq
              intro k
              simp [claimsSs]
        · simp only [PRes.ok.injEq, Prod.mk.injEq] at h
          obtain ⟨⟨rfl, rfl, rfl, rfl, rfl⟩, rfl, rfl⟩ := h
          have hseq := runOK_seq hadv hrs
          refine runOK_congr ?_ hseq
          intro k
          simp [claimsSs]
      · rename_i c2 hsc
        exact absurd hsc (fun h2 => (ihSc (advance buf (i+1)) hadv.1).2 c2 h2)
      · simp at h
      · simp at h
  · intro c' h
    rw [parseClassScope] at h
    split at h
    · simp at h
    · rename_i hcond
      have hck : checkKind buf c .l_brace = true := by
        cases hc : checkKind buf c .l_brace <;> simp [hc] at hcond ⊢
      obtain ⟨i, rfl, hki⟩ := checkKind_some hck
      simp only [nextF] at h
      have hadv := runOK_advance hwf (hv i rfl)
      split at h
      · split at h
        · split at h
          · rename_i hrb
            obtain ⟨j, rfl, hkj⟩ := checkKind_some hrb
            simp only [nextF] at h
            split at h
            · rename_i hsm
              obtain ⟨m, hm, hkm⟩ := checkKind_some hsm
              rw [hm] at h
              simp only [nextF] at h
              simp at h
            · simp at h
          · split at h
            · rename_i hsm
              obtain ⟨j, rfl, hkj⟩ := checkKind_some hsm
              simp only [nextF] at h
              simp at h
            · simp at h
        · simp at h
      · rename_i c2 hsc
        exact absurd hsc (fun h2 => (ihSc (advance buf (i+1)) hadv.1).2 c2 h2)
      · simp at h
      · simp at h

theorem step_parseClassTail {buf : List TokKind} (hwf : WFbuf buf) {fuel : Nat}
    (ih : StmtInv buf fuel) :
    ∀ c0 ct nt col bs c5 dAcc, ValidC buf c5 →
      (∀ s c' d, parseClassTail buf (fuel+1) c0 ct nt col bs c5 dAcc = .ok s c' d →
        ∃ lbs sts rbs semis dCS, s = .classDecl ct nt col bs lbs sts rbs semis ∧
          d = dAcc ++ dCS ∧
          RunOK buf c5 (lbs ++ claimsSs sts ++ rbs ++ semis ++ dCS) c') ∧
      (∀ c', parseClassTail buf (fuel+1) c0 ct nt col bs c5 dAcc ≠ .fail c') := by
  obtain ⟨ihAny, ihSc, ihCS, ihCLS, ihCD, ihCT⟩ := ih
  intro c0 ct nt col bs c5 dAcc hv
  constructor
  · intro s c' d h
    rw [parseClassTail] at h
    split at h
    · rename_i hsm
      obtain ⟨j, rfl, hkj⟩ := checkKind_some hsm
      simp only [nextF] at h
      simp only [PRes.ok.injEq] at h
      obtain ⟨rfl, rfl, rfl⟩ := h
      have hadv := runOK_advance hwf (hv j rfl)
      refine ⟨[], [], [], [j], [], rfl, by simp, ?_⟩
      exact runOK_congr (by intro k; simp [claimsSs]) hadv
    · split at h
      · rename_i lbs sts rbs semis fl c6 dCS hcs
        have hrc := (ihCLS c5 hv).1 lbs sts rbs semis fl c6 dCS hcs
        simp only [PRes.ok.injEq] at h
        obtain ⟨rfl, rfl, rfl⟩ := h
        exact ⟨lbs, sts, rbs, semis, dCS, rfl, rfl, hrc⟩
      · simp at h
      · simp at h
      · simp at h
  · intro c' h
    rw [parseClassTail] at h
    split at h
    · rename_i hsm
      obtain ⟨j, rfl, hkj⟩ := checkKind_some hsm
      simp only [nextF] at h
      simp at h
    · split at h
      · simp at h
      · rename_i c6 hcs
        exact (ihCLS c5 hv).2 c6 hcs
      · simp at h
      · simp at h

set_option maxHeartbeats 1600000 in
theorem step_parseClassDecl {buf : List TokKind} (hwf : WFbuf buf) {fuel : Nat}
    (ih : StmtInv buf fuel) :
    ∀ c, ValidC buf c →
      (∀ s c' d, parseClassDecl buf (fuel+1) c = .ok s c' d →
        RunOK buf c (claimsS s ++ d) c' ∧ pos buf c < pos buf c' ∧
        ∃ ct nt col bs lbs sts rbs semis, s = .classDecl ct nt col bs lbs sts rbs semis) ∧
      (∀ c', parseClassDecl buf (fuel+1) c = .fail c' → c' = c) := by
  obtain ⟨ihAny, ihSc, ihCS, ihCLS, ihCD, ihCT⟩ := ih
  obtain ⟨ihPE, ihPL, ihPU, ihPC, ihPA, ihPQ, ihQT, ihTy, ihTS, ihPV, ihVR, ihVI⟩ :=
    exprInv_all hwf fuel
  intro c hv
  constructor
  · intro s c' d h
    rw [parseClassDecl] at h
    split at h
    · simp at h
    · rename_i hcond
      have hcur : ∃ i, c = some i := by
        cases c with
        | none => simp [checkKind] at hcond
        | some i => exact ⟨i, rfl⟩
      obtain ⟨i, rfl⟩ := hcur
      simp only [nextF] at h
      have hadv := runOK_advance hwf (hv i rfl)
      split at h
      · simp at h
      · rename_i nt c2 dN ht
        obtain ⟨hrt, htlt, htg, -⟩ := (ihTy (advance buf (i+1)) true hadv.1).1 nt c2 dN ht
        split at h
        · rename_i hcol
          obtain ⟨j, rfl, hkj⟩ := checkKind_some hcol
          simp only [nextF] at h
          have hadv2 := runOK_advance hwf (hrt.1 j rfl)
          split at h
          · rename_i bs sk c4 dB hbl
            have hrb := (baseLoop_inv hwf fuel (advance buf (j+1)) hadv2.1).1 bs sk c4 dB hbl
            split at h
            · split at h
              · rename_i u c5 dSk hck2
                have hrsk := (classSkip_inv hwf fuel c4 hrb.1).1 u c5 dSk hck2
                obtain ⟨lbs, sts, rbs, semis, dCS, rfl, rfl, hrct⟩ :=
                  (ihCT (some i) i nt (some j) bs c5 (dN ++ dB ++ dSk) hrsk.1).1 s c' d h
                have hseq := runOK_seq hadv (runOK_seq hrt (runOK_seq hadv2
                  (runOK_seq hrb (runOK_seq hrsk hrct))))
                refine ⟨?_, ?_, i, nt, some j, bs, lbs, sts, rbs, semis, rfl⟩
                · refine runOK_congr ?_ hseq
                  intro k
                  simp [claimsS, claimsON]
                  tauto
                · simpa [pos] using (hseq.2.2.1 i (by simp)).2
              · rename_i c5 hck2
                exact absurd hck2 (fun h2 => (classSkip_inv hwf fuel c4 hrb.1).2 c5 h2)
              · simp at h
              · simp at h
            · obtain ⟨lbs, sts, rbs, semis, dCS, rfl, rfl, hrct⟩ :=
                (ihCT (some i) i nt (some j) bs c4 (dN ++ dB) hrb.1).1 s c' d h
              have hseq := runOK_seq hadv (runOK_seq hrt (runOK_seq hadv2
                (runOK_seq hrb hrct)))
              refine ⟨?_, ?_, i, nt, some j, bs, lbs, sts, rbs, semis, rfl⟩
              · refine runOK_congr ?_ hseq
                intro k
                simp [claimsS, claimsON]
                tauto
              · simpa [pos] using (hseq.2.2.1 i (by simp)).2
          · rename_i c4 hbl
            exact absurd hbl (fun h2 =>
              (baseLoop_inv hwf fuel (advance buf (j+1)) hadv2.1).2 c4 h2)
          · simp at h
          · simp at h
        · obtain ⟨lbs, sts, rbs, semis, dCS, rfl, rfl, hrct⟩ :=
            (ihCT (some i) i nt none [] c2 dN hrt.1).1 s c' d h
          have hseq := runOK_seq hadv (runOK_seq hrt hrct)
          refine ⟨?_, ?_, i, nt, none, [], lbs, sts, rbs, semis, rfl⟩
          · refine runOK_congr ?_ hseq
            intro k
            simp [claimsS, claimsON, claimsBs]
            tauto
          · simpa [pos] using (hseq.2.2.1 i (by simp)).2
      · simp at h
      · simp at h
  · intro c' h
    rw [parseClassDecl] at h
    split at h
    · simp only [PRes.fail.injEq] at h
      exact h.symm
    · rename_i hcond
      have hcur : ∃ i, c = some i := by
        cases c with
        | none => simp [checkKind] at hcond
        | some i => exact ⟨i, rfl⟩
      obtain ⟨i, rfl⟩ := hcur
      simp only [nextF] at h
      have hadv := runOK_advance hwf (hv i rfl)
      split at h
      · simp only [PRes.fail.injEq] at h
        exact h.symm
      · rename_i nt c2 dN ht
        obtain ⟨hrt, htlt, htg, -⟩ := (ihTy (advance buf (i+1)) true hadv.1).1 nt c2 dN ht
        split at h
        · rename_i hcol
          obtain ⟨j, rfl, hkj⟩ := checkKind_some hcol
          simp only [nextF] at h
          have hadv2 := runOK_advance hwf (hrt.1 j rfl)
          split at h
          · rename_i bs sk c4 dB hbl
            have hrb := (baseLoop_inv hwf fuel (advance buf (j+1)) hadv2.1).1 bs sk c4 dB hbl
            split at h
            · split at h
              · rename_i u c5 dSk hck2
                have hrsk := (classSkip_inv hwf fuel c4 hrb.1).1 u c5 dSk hck2
                exact absurd h ((ihCT (some i) i nt (some j) bs c5
                  (dN ++ dB ++ dSk) hrsk.1).2 c')
              · rename_i c5 hck2
                exact absurd hck2 (fun h2 => (classSkip_inv hwf fuel c4 hrb.1).2 c5 h2)
              · simp at h
              · simp at h
            · exact absurd h ((ihCT (some i) i nt (some j) bs c4 (dN ++ dB) hrb.1).2 c')
          · rename_i c4 hbl
            exact absurd hbl (fun h2 =>
              (baseLoop_inv hwf fuel (advance buf (j+1)) hadv2.1).2 c4 h2)
          · simp at h
          · simp at h
        · exact absurd h ((ihCT (some i) i nt none [] c2 dN hrt.1).2 c')
      · simp at h
      · simp at h

theorem pos_eq_length_none {buf : List TokKind} {c : Cursor}
    (hv : ValidC buf c) (h : pos buf c = buf.length) : c = none := by
  cases c with
  | none => rfl
  | some i =>
    have := hv i rfl
    simp [pos] at h
    omega

set_option maxHeartbeats 1600000 in
theorem step_parseAny {buf : List TokKind} (hwf : WFbuf buf) {fuel : Nat}
    (ih : StmtInv buf fuel) :
    ∀ c sk no, ValidC buf c →
      (∀ s c' d, parseAny buf (fuel+1) c sk no = .ok s c' d →
        RunOK buf c (claimsS s ++ d) c' ∧ (pos buf c < pos buf c' ∨ c' = none)) ∧
      (∀ c', parseAny buf (fuel+1) c sk no = .fail c' → c' = c ∧ sk = false) := by
  obtain ⟨ihAny, ihSc, ihCS, ihCLS, ihCD, ihCT⟩ := ih
  intro c sk no hv
  constructor
  · intro s c' d h
    rw [parseAny] at h
    split at h
    · rename_i s1 c1 d1 hr
      simp only [PRes.ok.injEq] at h
      obtain ⟨rfl, rfl, rfl⟩ := h
      have := (parseReturnStmt_inv hwf fuel c hv).1 s1 c1 d1 hr
      exact ⟨this.1, Or.inl this.2⟩
    · simp at h
    · simp at h
    · rename_i c1 hr1
      rw [(parseReturnStmt_inv hwf fuel c hv).2 c1 hr1] at h
      split at h
      · rename_i s1 c2 d1 hr
        simp only [PRes.ok.injEq] at h
        obtain ⟨rfl, rfl, rfl⟩ := h
        have := (parseDeclStmt_inv hwf fuel c hv).1 s1 c2 d1 hr
        exact ⟨this.1, Or.inl this.2⟩
      · simp at h
      · simp at h
      · rename_i c2 hr2
        rw [(parseDeclStmt_inv hwf fuel c hv).2 c2 hr2] at h
        split at h
        · rename_i s1 c3 d1 hr
          simp only [PRes.ok.injEq] at h
          obtain ⟨rfl, rfl, rfl⟩ := h
          have := (parseLabelStmt_inv hwf c hv).1 s1 c3 d1 hr
          exact ⟨this.1, Or.inl this.2⟩
        · simp at h
        · simp at h
        · rename_i c3 hr3
          rw [(parseLabelStmt_inv hwf c hv).2 c3 hr3] at h
          split at h
          · rename_i f c4 dF hok
            obtain ⟨hrf, hltf, st, rt, nm, lp, ps, cms, rp, semis, rfl⟩ :=
              (parseFunctionDecl_inv hwf fuel c no hv).1 f c4 dF hok
            split at h
            · rename_i hsm
              obtain ⟨j, rfl, hkj⟩ := checkKind_some hsm
              simp only [nextF] at h
              simp only [PRes.ok.injEq] at h
              obtain ⟨rfl, rfl, rfl⟩ := h
              have hadv := runOK_advance hwf (hrf.1 j rfl)
              have hseq := runOK_seq hrf hadv
              refine ⟨?_, Or.inl ?_⟩
              · refine runOK_congr ?_ hseq
                intro k
                simp [addFnSemi, claimsS, claimsOS]
                tauto
              · exact lt_of_lt_of_le hltf hadv.2.1
            · split at h
              · split at h
                · rename_i cs c5 d2 hcs
                  have hrc := (ihCS c4 hrf.1).1 cs c5 d2 hcs
                  simp only [PRes.ok.injEq] at h
                  obtain ⟨rfl, rfl, rfl⟩ := h
                  have hseq := runOK_seq hrf hrc.1
                  refine ⟨?_, Or.inl ?_⟩
                  · refine runOK_congr ?_ hseq
                    intro k
                    simp [setFnBody, claimsS, claimsOS]
                    tauto
                  · exact lt_of_lt_of_le hltf hrc.1.2.1
                · rename_i c5 hcs
                  rw [(ihCS c4 hrf.1).2 c5 hcs] at h
                  simp only [PRes.ok.injEq] at h
                  obtain ⟨rfl, rfl, rfl⟩ := h
                  exact ⟨hrf, Or.inl hltf⟩
                · simp at h
                · simp at h
              · simp only [PRes.ok.injEq] at h
                obtain ⟨rfl, rfl, rfl⟩ := h
                exact ⟨hrf, Or.inl hltf⟩
          · simp at h
          · simp at h
          · rename_i c4 hr4
            rw [(parseFunctionDecl_inv hwf fuel c no hv).2 c4 hr4] at h
            split at h
            · rename_i cl c5 dC hok
              obtain ⟨hrc, hltc, ct, nt, col, bs, lbs0, sts0, rbs0, semis0, rfl⟩ :=
                (ihCD c hv).1 cl c5 dC hok
              split at h
              · rename_i hsm
                obtain ⟨j, rfl, hkj⟩ := checkKind_some hsm
                simp only [nextF] at h
                simp only [PRes.ok.injEq] at h
                obtain ⟨rfl, rfl, rfl⟩ := h
                have hadv := runOK_advance hwf (hrc.1 j rfl)
                have hseq := runOK_seq hrc hadv
                refine ⟨?_, Or.inl ?_⟩
                · refine runOK_congr ?_ hseq
                  intro k
                  simp [addClsSemi, claimsS]
                  tauto
                · exact lt_of_lt_of_le hltc hadv.2.1
              · split at h
                · split at h
                  · rename_i lbs sts rbs semis fl c6 d2 hcs
                    have hrs := (ihCLS c5 hrc.1).1 lbs sts rbs semis fl c6 d2 hcs
                    simp only [PRes.ok.injEq] at h
                    obtain ⟨rfl, rfl, rfl⟩ := h
                    have hseq := runOK_seq hrc hrs
                    refine ⟨?_, Or.inl ?_⟩
                    · refine runOK_congr ?_ hseq
                      intro k
                      simp [addClsScope, claimsS, claimsSs_append]
                      tauto
                    · exact lt_of_lt_of_le hltc hrs.2.1
                  · simp at h
                  · simp at h
                  · simp at h
                · simp only [PRes.ok.injEq] at h
                  obtain ⟨rfl, rfl, rfl⟩ := h
                  exact ⟨hrc, Or.inl hltc⟩
            · simp at h
            · simp at h
            · rename_i c5 hr5
              rw [(ihCD c hv).2 c5 hr5] at h
              split at h
              · rename_i s1 c6 d1 hr
                simp only [PRes.ok.injEq] at h
                obtain ⟨rfl, rfl, rfl⟩ := h
                have := (exprStmtAttempt_inv hwf fuel c hv).1 s1 c6 d1 hr
                exact ⟨this.1, Or.inl this.2⟩
              · simp at h
              · simp at h
              · rename_i c6 hr6
                rw [(exprStmtAttempt_inv hwf fuel c hv).2 c6 hr6] at h
                split at h
                · split at h
                  · rename_i ts c7 d1 hsu
                    obtain ⟨rfl, hrsu, hne⟩ :=
                      (skipUnparsable_inv hwf fuel c hv).1 ts c7 d1 hsu
                    simp only [PRes.ok.injEq] at h
                    obtain ⟨rfl, rfl, rfl⟩ := h
                    refine ⟨runOK_congr (by intro k; simp [claimsS]) hrsu, ?_⟩
                    cases c with
                    | none =>
                      refine Or.inr (pos_eq_length_none hrsu.1 ?_)
                      have h1 := hrsu.2.1
                      have h2 : pos buf (none : Cursor) = buf.length := by simp [pos]
                      have h3 : pos buf c7 ≤ buf.length := by
                        cases hc : c7 with
                        | none => simp [pos]
                        | some m =>
                          have := hrsu.1 m hc
                          simp [pos]
                          omega
                      omega
                    | some i =>
                      obtain ⟨hne2, -⟩ := hne i rfl
                      obtain ⟨k, hk⟩ := List.exists_mem_of_ne_nil ts hne2
                      have := hrsu.2.2.1 k hk
                      exact Or.inl (lt_of_le_of_lt this.1 this.2)
                  · rename_i c7 hsu
                    exact absurd hsu (fun h2 => (skipUnparsable_inv hwf fuel c hv).2 c7 h2)
                  · simp at h
                  · simp at h
                · simp at h
  · intro c' h
    rw [parseAny] at h
    split at h
    · simp at h
    · simp at h
    · simp at h
    · rename_i c1 hr1
      rw [(parseReturnStmt_inv hwf fuel c hv).2 c1 hr1] at h
      split at h
      · simp at h
      · simp at h
      · simp at h
      · rename_i c2 hr2
        rw [(parseDeclStmt_inv hwf fuel c hv).2 c2 hr2] at h
        split at h
        · simp at h
        · simp at h
        · simp at h
        · rename_i c3 hr3
          rw [(parseLabelStmt_inv hwf c hv).2 c3 hr3] at h
          split at h
          · rename_i f c4 dF hok
            obtain ⟨hrf, hltf, st, rt, nm, lp, ps, cms, rp, semis, rfl⟩ :=
              (parseFunctionDecl_inv hwf fuel c no hv).1 f c4 dF hok
            split at h
            · rename_i hsm
              obtain ⟨j, rfl, hkj⟩ := checkKind_some hsm
              simp only [nextF] at h
              simp at h
            · split at h
              · split at h
                · simp at h
                · simp at h
                · simp at h
                · simp at h
              · simp at h
          · simp at h
          · simp at h
          · rename_i c4 hr4
            rw [(parseFunctionDecl_inv hwf fuel c no hv).2 c4 hr4] at h
            split at h
            · rename_i cl c5 dC hok
              obtain ⟨hrc, hltc, ct, nt, col, bs, lbs0, sts0, rbs0, semis0, rfl⟩ :=
                (ihCD c hv).1 cl c5 dC hok
              split at h
              · rename_i hsm
                obtain ⟨j, rfl, hkj⟩ := checkKind_some hsm
                simp only [nextF] at h
                simp at h
              · split at h
                · split at h
                  · simp at h
                  · rename_i c6 hcs
                    exact absurd hcs (fun h2 => (ihCLS c5 hrc.1).2 c6 h2)
                  · simp at h
                  · simp at h
                · simp at h
            · simp at h
            · simp at h
            · rename_i c5 hr5
              rw [(ihCD c hv).2 c5 hr5] at h
              split at h
              · simp at h
              · simp at h
              · simp at h
              · rename_i c6 hr6
                rw [(exprStmtAttempt_inv hwf fuel c hv).2 c6 hr6] at h
                split at h
                · split at h
                  · simp at h
                  · rename_i c7 hsu
                    exact absurd hsu (fun h2 => (skipUnparsable_inv hwf fuel c hv).2 c7 h2)
                  · simp at h
                  · simp at h
                · rename_i hsk
                  simp only [PRes.fail.injEq] at h
                  refine ⟨h.symm, ?_⟩
                  cases hc : sk with
                  | false => rfl
                  | true => rw [hc] at hsk; simp at hsk

theorem stmtInv_succ {buf : List TokKind} (hwf : WFbuf buf) {fuel : Nat}
    (ih : StmtInv buf fuel) : StmtInv buf (fuel+1) :=
  ⟨step_parseAny hwf ih, step_parseScope hwf ih, step_parseCompoundStmt hwf ih,
   step_parseClassScope hwf ih, step_parseClassDecl hwf ih, step_parseClassTail hwf ih⟩

theorem stmtInv_all {buf : List TokKind} (hwf : WFbuf buf) : ∀ fuel, StmtInv buf fuel := by
  intro fuel
  induction fuel with
  | zero => exact stmtInv_zero buf
  | succ n ih2 => exact stmtInv_succ hwf ih2

theorem fuzzyLoop_inv {buf : List TokKind} (hwf : WFbuf buf) :
    ∀ fuel (c : Cursor), ValidC buf c →
      (∀ sts c' d, fuzzyLoop buf fuel c = .ok sts c' d →
        RunOK buf c (claimsSs sts ++ d) c' ∧ c' = none) ∧
      (∀ c', fuzzyLoop buf fuel c ≠ .fail c') := by
  intro fuel
  induction fuel with
  | zero =>
    intro c hv
    exact ⟨fun sts c' d h => by simp [fuzzyLoop] at h,
           fun c' h => by simp [fuzzyLoop] at h⟩
  | succ fuel ih =>
    intro c hv
    obtain ⟨ihAny, ihSc, ihCS, ihCLS, ihCD, ihCT⟩ := stmtInv_all hwf fuel
    constructor
    · intro sts c' d h
      cases c with
      | none =>
        rw [fuzzyLoop] at h
        simp only [PRes.ok.injEq] at h
        obtain ⟨rfl, rfl, rfl⟩ := h
        exact ⟨runOK_congr (by intro k; simp [claimsSs]) (runOK_rfl validC_none), rfl⟩
      | some i =>
        rw [fuzzyLoop] at h
        split at h
        · rename_i s c1 d1 hok
          have ha := (ihAny (some i) true false hv).1 s c1 d1 hok
          split at h
          · rename_i sts2 c2 d2 hrec
            obtain ⟨hrr, rfl⟩ := (ih c1 ha.1.1).1 sts2 c2 d2 hrec
            simp only [PRes.ok.injEq] at h
            obtain ⟨rfl, rfl, rfl⟩ := h
            have hseq := runOK_seq ha.1 hrr
            refine ⟨?_, rfl⟩
            refine runOK_congr ?_ hseq
            intro k
            simp [claimsSs]
            tauto
          · simp at h
          · simp at h
          · simp at h
        · rename_i c1 hf
          exact absurd ((ihAny (some i) true false hv).2 c1 hf).2 (by simp)
        · simp at h
        · simp at h
    · intro c' h
      cases c with
      | none => rw [fuzzyLoop] at h; simp at h
      | some i =>
        rw [fuzzyLoop] at h
        split at h
        · rename_i s c1 d1 hok
          have ha := (ihAny (some i) true false hv).1 s c1 d1 hok
          split at h
          · simp at h
          · rename_i c2 hrec
            exact absurd hrec (fun h2 => (ih c1 ha.1.1).2 c2 h2)
          · simp at h
          · simp at h
        · rename_i c1 hf
          exact absurd ((ihAny (some i) true false hv).2 c1 hf).2 (by simp)
        · simp at h
        · simp at h

end FuzzyParse
